import Mathlib

/-!
# burnscope: a verification development

Shallow embedding of the two convolution engines of burnscope
(`burnscope3.c`, the spatial engine on three 8-bit channels, and
`burnscope_fft.c`, the frequency engine on one real scalar per cell) and
theorems about them.

Conventions of the embedding.
* A C buffer is a map from the (integer) element offset to the element; a
  pointer into the buffer is its offset.
* C `int` values are integers; the 8-bit store `(Uint8)val` is the explicit
  reduction modulo 256.
* `float` and `double` values are rationals.  The `float` arithmetic of
  `burnscope3.c` (the divider of `main`, the quotient of `burn`) is binary32
  arithmetic: every operation rounds its exact result to the nearest binary32
  number (`f32`), and the `float` constant `minuscule` has its exact
  single-precision value.  The `double` arithmetic of `burnscope_fft.c` is
  taken as exact.
* The conversions `(unsigned int)` and `(int)` of a `double` in `render` are
  defined where C defines them and have no result (`none`) elsewhere; the
  other conversions are the plain truncation toward zero.
* A recursion or loop whose trip count is not fixed by its bounds takes a
  fuel argument and returns `none` when the fuel runs out.
* The three threads of `burnscope_fft.c` are a step function on a state that
  holds the semaphores and the position of each thread; an interleaving is a
  list of steps.
-/

namespace Burnscope3

/-- The union `pixel3_t`: the three channel bytes `rgb[0..2]`, and the fourth
byte that only the 32-bit view `v` reaches. -/
structure pixel3_t where
  rgb : Fin 3 → Nat
  pad : Nat

/-- The innermost loop of `rectangle_sum`: `add[i] += bufpos->rgb[i]` for the
three channels. -/
def add_pixel (add : Fin 3 → Int) (p : pixel3_t) : Fin 3 → Int :=
  fun i => add i + (p.rgb i : Int)

/-- The `xpos` loop of `rectangle_sum`, run for `n` iterations: every
iteration adds the pixel under `bufpos` and advances `bufpos`. -/
def sum_row (pixbuf : Int → pixel3_t) : Nat → (Fin 3 → Int) × Int → (Fin 3 → Int) × Int
  | 0, s => s
  | n + 1, (add, bufpos) => sum_row pixbuf n (add_pixel add (pixbuf bufpos), bufpos + 1)

/-- The `ypos` loop of `rectangle_sum`, run for `m` iterations of `n` columns
each; `bufpos += pitch` after every row. -/
def sum_rows (pixbuf : Int → pixel3_t) (n : Nat) (pitch : Int) :
    Nat → (Fin 3 → Int) × Int → (Fin 3 → Int) × Int
  | 0, s => s
  | m + 1, s =>
    let s1 := sum_row pixbuf n s
    sum_rows pixbuf n pitch m (s1.1, s1.2 + pitch)

/-- The function `rectangle_sum` of `burnscope3.c`.  The result is the
content of `add[]` on return; `fuel` bounds the depth of the recursion. -/
def rectangle_sum : Nat → (Fin 3 → Int) → (Int → pixel3_t) → Int → Int → Int → Int →
    Int → Int → Bool → Option (Fin 3 → Int)
  | 0, _, _, _, _, _, _, _, _, _ => none
  | fuel + 1, add, pixbuf, W, H, x, y, w, h, wrap_borders =>
    let x_start := x
    let y_start := y
    let x_end := x + w
    let y_end := y + h
    (if x < 0 ∧ wrap_borders = true then
        rectangle_sum fuel add pixbuf W H (W - (-x)) y (-x) h wrap_borders
      else some add).bind fun add =>
    let x_start := if x < 0 then 0 else x_start
    (if x_end > W ∧ wrap_borders = true then
        rectangle_sum fuel add pixbuf W H 0 y (x_end - W) h wrap_borders
      else some add).bind fun add =>
    let x_end := if x_end > W then W else x_end
    (if y < 0 ∧ wrap_borders = true then
        rectangle_sum fuel add pixbuf W H x_start (H - (-y)) (x_end - x_start) (-y) wrap_borders
      else some add).bind fun add =>
    let y_start := if y < 0 then 0 else y_start
    (if y_end > H ∧ wrap_borders = true then
        rectangle_sum fuel add pixbuf W H x_start 0 (x_end - x_start) (y_end - H) wrap_borders
      else some add).bind fun add =>
    let y_end := if y_end > H then H else y_end
    let bufpos := x_start + W * y_start
    let pitch := W - (x_end - x_start)
    some (sum_rows pixbuf (x_end - x_start).toNat pitch (y_end - y_start).toNat (add, bufpos)).1

/-- The function `surrounding_sum` of `burnscope3.c`. -/
def surrounding_sum (fuel : Nat) (add : Fin 3 → Int) (pixbuf : Int → pixel3_t) (W H x y apex_r : Int)
    (wrap_borders : Bool) : Option (Fin 3 → Int) :=
  rectangle_sum fuel add pixbuf W H (x - apex_r) (y - apex_r) (2 * apex_r + 1) (2 * apex_r + 1)
    wrap_borders

/-- A grid that is zero except for the value `v` in every channel of the cell
at offset `at0`. -/
def impulse (at0 : Int) (v : Nat) : Int → pixel3_t :=
  fun k => if k = at0 then ⟨fun _ => v, 0⟩ else ⟨fun _ => 0, 0⟩

/-- The channel value of the grid cell that the toroidal position `(i, j)`
names. -/
def torus (pixbuf : Int → pixel3_t) (W H : Int) (c : Fin 3) (i j : Int) : Int :=
  ((pixbuf (i % W + W * (j % H))).rgb c : Int)

/-- The toroidal window sum: every position of `[x, x+w) × [y, y+h)` counted
once, each resolved modulo the grid size. -/
def win_sum (pixbuf : Int → pixel3_t) (W H : Int) (c : Fin 3) (x y w h : Int) : Int :=
  ∑ i ∈ Finset.Ico x (x + w), ∑ j ∈ Finset.Ico y (y + h), torus pixbuf W H c i j

/-- The number of recursion levels `rectangle_sum` needs along one axis. -/
def wrap_depth (n x w : Int) : Nat := (-x).toNat + (x + w - n).toNat

/-- C `round` followed by the conversion `(int)`: the nearest integer, halfway
cases away from zero. -/
def c_round (q : ℚ) : Int :=
  if 0 ≤ q then ⌊q + 1 / 2⌋ else -⌊-q + 1 / 2⌋

/-- Rounding to the nearest integer, a tie going to the even one: the
rounding of the binary32 operations. -/
def round_even (q : ℚ) : Int :=
  if q - ⌊q⌋ < 1 / 2 then ⌊q⌋
  else if 1 / 2 < q - ⌊q⌋ then ⌊q⌋ + 1
  else if ⌊q⌋ % 2 = 0 then ⌊q⌋ else ⌊q⌋ + 1

/-- The binary32 (`float`) number nearest to `q`, ties to even: what a
conversion to `float` and every `float` operation deliver for the exact result
`q`.  The significand has 24 bits and the exponent is at least -126
(subnormal numbers below).  A result of magnitude `2^128` or more, which
binary32 turns into an infinity, is outside the embedding. -/
def f32 (q : ℚ) : ℚ :=
  if q = 0 then 0
  else
    let e := max (Int.log 2 |q|) (-126)
    (round_even (q / 2 ^ (e - 23)) : ℚ) * 2 ^ (e - 23)

/-- The channel loop of `burn`: `val = (int)round((float)sum[i] / divider)` and
the store `destpos->rgb[i] = (Uint8)val`, for the three channels.  The sum is
converted to `float` and the division is a `float` division: both round to
binary32; `round` then takes the quotient as a `double`, exactly. -/
def burn_pixel (old : pixel3_t) (sum : Fin 3 → Int) (divider : ℚ) : pixel3_t :=
  ⟨fun i => (c_round (f32 (f32 (sum i : ℚ) / divider)) % 256).toNat, old.pad⟩

/-- The `x` loop of `burn` for row `y`, run for `n` iterations from column `x`. -/
def burn_row (fuel : Nat) (srcbuf : Int → pixel3_t) (W H y apex_r : Int) (divider : ℚ)
    (wrap_borders : Bool) :
    Nat → Int → (Int → pixel3_t) × Int → Option ((Int → pixel3_t) × Int)
  | 0, _, s => some s
  | n + 1, x, (destbuf, destpos) =>
    (surrounding_sum fuel (fun _ => 0) srcbuf W H x y apex_r wrap_borders).bind fun sum =>
    burn_row fuel srcbuf W H y apex_r divider wrap_borders n (x + 1)
      (Function.update destbuf destpos (burn_pixel (destbuf destpos) sum divider), destpos + 1)

/-- The `y` loop of `burn`, run for `m` iterations from row `y`. -/
def burn_rows (fuel : Nat) (srcbuf : Int → pixel3_t) (W H apex_r : Int) (divider : ℚ)
    (wrap_borders : Bool) :
    Nat → Int → (Int → pixel3_t) × Int → Option ((Int → pixel3_t) × Int)
  | 0, _, s => some s
  | m + 1, y, s =>
    (burn_row fuel srcbuf W H y apex_r divider wrap_borders W.toNat 0 s).bind fun s1 =>
    burn_rows fuel srcbuf W H apex_r divider wrap_borders m (y + 1) s1

/-- The function `burn` of `burnscope3.c`; the result is the destination
buffer on return. -/
def burn (fuel : Nat) (srcbuf destbuf : Int → pixel3_t) (W H apex_r : Int) (divider : ℚ)
    (wrap_borders : Bool) : Option (Int → pixel3_t) :=
  (burn_rows fuel srcbuf W H apex_r divider wrap_borders H.toNat 0 (destbuf, 0)).map Prod.fst

/-- The divider that `main` of `burnscope3.c` hands to `burn`:
`float divider = 1 + 2 * apex_r; divider *= divider; divider *= underdampen`,
every assignment rounding to binary32; `underdampen` is a `float`. -/
def main_divider (apex_r : Int) (underdampen : ℚ) : ℚ :=
  let divider : ℚ := f32 ((1 + 2 * apex_r : Int) : ℚ)
  let divider := f32 (divider * divider)
  f32 (divider * underdampen)

/-- The number of offsets `dx ∈ [-r, r]` that take column `x` to column `x0`
on a ring of `n` columns. -/
def hits (n r x x0 : Int) : Int :=
  ∑ dx ∈ Finset.Icc (-r) r, if (x + dx) % n = x0 then 1 else 0

/-- The distance of two positions on a ring of `n` positions. -/
def tdist (n a b : Int) : Int := min ((a - b) % n) ((b - a) % n)

/-- The window sum as the specification words it: with wrap, every offset of
the square window resolved on the torus; without wrap, the cells of the window
that lie in the grid. -/
def spec_window_sum (pixbuf : Int → pixel3_t) (W H : Int) (wrap : Bool) (x y r : Int)
    (c : Fin 3) : Int :=
  if wrap = true then
    ∑ dx ∈ Finset.Icc (-r) r, ∑ dy ∈ Finset.Icc (-r) r,
      ((pixbuf ((x + dx) % W + W * ((y + dy) % H))).rgb c : Int)
  else
    ∑ i ∈ Finset.Icc (max 0 (x - r)) (min (W - 1) (x + r)),
      ∑ j ∈ Finset.Icc (max 0 (y - r)) (min (H - 1) (y + r)), ((pixbuf (i + W * j)).rgb c : Int)

/-- The channel loop of `render` in `burnscope3.c` for one channel byte:
`if (p & 0x80) p = 0x7f - (p & 0x7f); p <<= 1;`, every store truncated to the
8 bits of `Uint8`. -/
def render_channel (v : Nat) : Nat :=
  let p := if v &&& 0x80 ≠ 0 then (0x7f - (v &&& 0x7f)) % 256 else v
  (p <<< 1) % 256

/-- The local copy `p` of a grid pixel in `render` after the channel loop: its
three channels are the display values handed to `SDL_MapRGB`. -/
def render_pixel (p : pixel3_t) : pixel3_t :=
  ⟨fun i => render_channel (p.rgb i), p.pad⟩

/-- The member `v` of the union `pixel3_t`, the 32-bit view of the four bytes,
with `rgb[0]` the low byte (the byte order of the x86 targets of the
program). -/
def pixel_v (p : pixel3_t) : Nat :=
  p.rgb 0 % 256 + 256 * (p.rgb 1 % 256) + 65536 * (p.rgb 2 % 256) + 16777216 * (p.pad % 256)

/-- The union `pixel3_t` read back from its 32-bit view. -/
def pixel_of_v (v : Nat) : pixel3_t :=
  ⟨fun i => (v / 256 ^ i.val) % 256, (v / 16777216) % 256⟩

/-- The statement `p.v += val->v` of `seed`: one `Uint32` addition. -/
def add_v (p val : pixel3_t) : pixel3_t :=
  pixel_of_v ((pixel_v p + pixel_v val) % 4294967296)

/-- The function `seed` of `burnscope3.c`. -/
def seed (pixbuf : Int → pixel3_t) (W H x y : Int) (val : pixel3_t)
    (xsymmetric ysymmetric : Bool) : Int → pixel3_t :=
  let yy := y * W
  let yys := (H - y - 1) * W
  let pixbuf := Function.update pixbuf (x + yy) (add_v (pixbuf (x + yy)) val)
  let pixbuf :=
    if xsymmetric = true then
      let pixbuf := Function.update pixbuf ((W - x - 1) + yy) (add_v (pixbuf ((W - x - 1) + yy)) val)
      if ysymmetric = true then
        Function.update pixbuf ((W - x - 1) + yys) (add_v (pixbuf ((W - x - 1) + yys)) val)
      else pixbuf
    else pixbuf
  if ysymmetric = true then
    Function.update pixbuf (x + yys) (add_v (pixbuf (x + yys)) val)
  else pixbuf

/-- The value of `float minuscule = 1e-3` in `main`: the single-precision
number nearest to 1/1000, which is `8589935 / 2^33`, a little above 1/1000. -/
def minuscule : ℚ := 8589935 / 8589934592

/-- The two fatal errors of the startup checks of `main`. -/
inductive startup_error where
  | size_out_of_bounds
  | underdampening_too_small

/-- The macro `min(A,B)` of `burnscope3.c` on `int`: `((A) > (B)? (B) : (A))`. -/
def c_min_int (a b : Int) : Int := if a > b then b else a

/-- The macro `max(A,B)` of `burnscope3.c` on `int`: `((A) > (B)? (A) : (B))`. -/
def c_max_int (a b : Int) : Int := if a > b then a else b

/-- The startup checks of `main` in `burnscope3.c`, from the size check to the
damping check: the result is the fatal error, or the radius and the damping
factor in effect.  The buffers are allocated only after these checks. -/
def main_startup (W H apex_r : Int) (underdampen : ℚ) : Except startup_error (Int × ℚ) :=
  let maxpixels : Int := 10000
  if W < 3 ∨ W > maxpixels ∨ H < 3 ∨ H > maxpixels then
    Except.error startup_error.size_out_of_bounds
  else
    let max_dim := c_max_int W H
    let apex_r := c_min_int max_dim apex_r
    let apex_r := c_max_int 1 apex_r
    if underdampen > -minuscule ∧ underdampen < minuscule then
      Except.error startup_error.underdampening_too_small
    else Except.ok (apex_r, underdampen)

/-- The seed value of `main` for the channel `rgb`:
`pixel3_t val = { .rgb = {0, 0, 0} }; val.rgb[rgb] = 128`. -/
def main_seed_val (rgb : Fin 3) : pixel3_t := ⟨fun i => if i = rgb then 128 else 0, 0⟩

/-- The grid of `main` before the seeding: `bzero(buf1, ...)`. -/
def main_empty_grid : Int → pixel3_t := fun _ => ⟨fun _ => 0, 0⟩

end Burnscope3

namespace BurnscopeFft

/-- The conversion of a `double` to `int`: truncation toward zero. -/
def c_trunc (q : ℚ) : Int := if 0 ≤ q then ⌊q⌋ else ⌈q⌉

/-- The kernel buffer `apex` together with the static `last_apex_r` of
`make_apex`. -/
structure apex_state where
  apex : Int → ℚ
  last_apex_r : Int

/-- The first half of the loop body of `make_apex`: the weight `v` of the
kernel cell `(x, y)` before the shape option is applied. -/
def apex_base (W H : Int) (apex_r2 : ℚ) (apex_r_i : Int) (x y : Int) : ℚ :=
  let xx := if x ≥ W / 2 then W - x else x
  let yy := if y ≥ H / 2 then H - y else y
  if xx > apex_r_i ∨ yy > apex_r_i then 0
  else
    let dist : ℚ := ((xx * xx + yy * yy : Int) : ℚ)
    let v := apex_r2 - dist
    if v < 0 then 0 else v

/-- The loop body of `make_apex` up to the store: the unscaled weight `v` of
the kernel cell `(x, y)` after the `switch` on the shape option. -/
def apex_cell (W H : Int) (apex_r2 : ℚ) (apex_r_i : Int) (apex_opt : Int) (x y : Int) : ℚ :=
  let v := apex_base W H apex_r2 apex_r_i x y
  if apex_opt = 1 then (if x > W / 2 ∨ y < H / 2 then -v * 1.85 else v)
  else if apex_opt = 2 then (if x < W / 2 ∨ y < H / 2 then -v * 1.85 else v)
  else if apex_opt = 3 then (if x < W / 2 ∨ y > H / 2 then -v * 1.85 else v)
  else if apex_opt = 4 then (if x > W / 2 ∨ y > H / 2 then -v * 1.85 else v)
  else v

/-- The shape of both loops of `make_apex`:
`for (i = 0; i < n; i++) { body; if (i == overwrite_r) i = n - overwrite_r - 1; }`.
The fuel bounds the number of iterations. -/
def skip_loop {σ : Type} (n overwrite_r : Int) (body : Int → σ → Option σ) :
    Nat → Int → σ → Option σ
  | 0, _, _ => none
  | fuel + 1, i, s =>
    if i < n then
      (body i s).bind fun s' =>
        let i := if i = overwrite_r then n - overwrite_r - 1 else i
        skip_loop n overwrite_r body fuel (i + 1) s'
    else some s

/-- The statements of the inner loop of `make_apex` for the cell `(x, y)`:
`apex_sum += v; apex[x+y*W] = v`. -/
def apex_store (W H : Int) (apex_r2 : ℚ) (apex_r_i : Int) (apex_opt : Int) (x y : Int)
    (s : ℚ × (Int → ℚ)) : Option (ℚ × (Int → ℚ)) :=
  let v := apex_cell W H apex_r2 apex_r_i apex_opt x y
  some (s.1 + v, Function.update s.2 (x + y * W) v)

/-- The loop `for (x = 0; x < y; x++) apex[x] *= apex_mul`, run for `n`
iterations from `x`. -/
def scale_loop (apex_mul : ℚ) : Nat → Int → (Int → ℚ) → (Int → ℚ)
  | 0, _, apex => apex
  | n + 1, x, apex => scale_loop apex_mul n (x + 1) (Function.update apex x (apex x * apex_mul))

/-- The function `make_apex` of `burnscope_fft.c` on the kernel buffer and its
static variable (the transform of the kernel, `fftw_execute(plan_apex)`, is
not part of the state).  A zero `apex_sum` makes the division produce no real
number: the result is `none` then, as it is when the fuel of a loop runs
out. -/
def make_apex (fuel : Nat) (W H : Int) (st : apex_state) (apex_r burn_factor : ℚ)
    (apex_opt : Int) : Option apex_state :=
  let apex_r : ℚ := min apex_r ((min (W / 2) (H / 2) : Int) : ℚ)
  let apex_sum : ℚ := 0
  let apex_r2 := apex_r * apex_r
  let apex_r_i := c_trunc apex_r
  let overwrite_r := max apex_r_i st.last_apex_r
  (skip_loop W overwrite_r
      (fun x s => skip_loop H overwrite_r (apex_store W H apex_r2 apex_r_i apex_opt x) fuel 0 s)
      fuel 0 (apex_sum, st.apex)).bind fun s =>
    if s.1 = 0 then none
    else
      let apex_mul := (burn_factor / ((W * H : Int) : ℚ)) / s.1
      some ⟨scale_loop apex_mul (W * H).toNat 0 s.2, apex_r_i⟩

/-- The kernel state after `fft_init` has zeroed the buffer. -/
def apex_zeroed : apex_state := ⟨fun _ => 0, 0⟩

/-- A sequence of `make_apex` calls `(apex_r, burn_factor, apex_opt)`. -/
def make_apex_calls (fuel : Nat) (W H : Int) : apex_state → List (ℚ × ℚ × Int) → Option apex_state
  | st, [] => some st
  | st, c :: cs => (make_apex fuel W H st c.1 c.2.1 c.2.2).bind fun st' =>
      make_apex_calls fuel W H st' cs

/-- The macro `min(A,B)` of `burnscope_fft.c`: `((A) > (B)? (B) : (A))`. -/
def c_min (a b : ℚ) : ℚ := if a > b then b else a

/-- The inner loop of `mirror_x`, run for `k` iterations on a buffer of `n`
cells: `v = min(*pos_to, *pos_from); *pos_to = v; *pos_from = v; pos_to++;
pos_from--`.  A dereference outside the buffer has no defined result:
`none`. -/
def mirror_x_row (n : Int) :
    Nat → (Int → ℚ) × Int × Int → Option ((Int → ℚ) × Int × Int)
  | 0, s => some s
  | k + 1, (pixbuf, pos_to, pos_from) =>
    if 0 ≤ pos_to ∧ pos_to < n ∧ 0 ≤ pos_from ∧ pos_from < n then
      let v := c_min (pixbuf pos_to) (pixbuf pos_from)
      let pixbuf := Function.update pixbuf pos_to v
      let pixbuf := Function.update pixbuf pos_from v
      mirror_x_row n k (pixbuf, pos_to + 1, pos_from - 1)
    else none

/-- The outer loop of `mirror_x`, run for `m` rows. -/
def mirror_x_rows (n W x_fold pitch_to pitch_from : Int) :
    Nat → (Int → ℚ) × Int × Int → Option ((Int → ℚ) × Int × Int)
  | 0, s => some s
  | m + 1, s =>
    (mirror_x_row n (W - x_fold).toNat s).bind fun s1 =>
      mirror_x_rows n W x_fold pitch_to pitch_from m (s1.1, s1.2.1 + pitch_to, s1.2.2 + pitch_from)

/-- The function `mirror_x` of `burnscope_fft.c` on a buffer of `W * H`
cells; `W >> 1` is `W / 2`. -/
def mirror_x (pixbuf : Int → ℚ) (W H : Int) : Option (Int → ℚ) :=
  let x_fold := W / 2
  let pos_from := x_fold - 1
  let pos_to := W - x_fold
  let pitch_to := W - x_fold
  let pitch_from := W + x_fold
  (mirror_x_rows (W * H) W x_fold pitch_to pitch_from H.toNat (pixbuf, pos_to, pos_from)).map
    fun s => s.1


/-- The plain iterations of a loop body: `k` iterations from index `i`. -/
def seg {σ : Type} (f : Int → σ → σ) : Nat → Int → σ → σ
  | 0, _, s => s
  | k + 1, i, s => seg f k (i + 1) (f i s)

/-- The distance of column `x` to the kernel centre as `make_apex` takes it. -/
def xx_of (n x : Int) : Int := if x ≥ n / 2 then n - x else x

/-- The indices a loop of `make_apex` visits: `0 .. overwrite_r` and
`n - overwrite_r .. n - 1`. -/
def vis (n ov q : Int) : Prop := (0 ≤ q ∧ q ≤ ov) ∨ (n - ov ≤ q ∧ q < n)

instance vis_decidable (n ov q : Int) : Decidable (vis n ov q) := by
  unfold vis
  infer_instance

/-- The radius `make_apex` works with: `min(apex_r, min(W/2, H/2))`. -/
def apex_clamp (W H : Int) (apex_r : ℚ) : ℚ := min apex_r ((min (W / 2) (H / 2) : Int) : ℚ)

/-- The sum of the unscaled weights of all `W * H` kernel cells. -/
def apex_total (W H : Int) (r2 : ℚ) (ri opt : Int) : ℚ :=
  ∑ i ∈ Finset.Ico 0 W, ∑ j ∈ Finset.Ico 0 H, apex_cell W H r2 ri opt i j

/-- What holds of the kernel buffer between two calls of `make_apex`: the
static radius is a radius the loops can skip over, and every cell outside its
window is 0. -/
def apex_inv (W H : Int) (st : apex_state) : Prop :=
  0 ≤ st.last_apex_r ∧ 2 * st.last_apex_r < W ∧ 2 * st.last_apex_r < H ∧
    ∀ x y, 0 ≤ x → x < W → 0 ≤ y → y < H →
      (st.last_apex_r < xx_of W x ∨ st.last_apex_r < xx_of H y) → st.apex (x + y * W) = 0

/-- The distance of a column to the kernel centre as the specification words
it: `x` if `x < W/2`, else `W - x` (integer half). -/
def spec_dist (n x : Int) : Int := if x < n / 2 then x else n - x

/-- The unscaled weight of the specification: `max(0, Rc^2 - (dx^2 + dy^2))`. -/
def spec_weight (W H : Int) (Rc : ℚ) (x y : Int) : ℚ :=
  max 0 (Rc ^ 2 - ((spec_dist W x : ℚ) ^ 2 + (spec_dist H y : ℚ) ^ 2))

/-- The sum of the specification's unscaled weights over all cells. -/
def spec_total (W H : Int) (Rc : ℚ) : ℚ :=
  ∑ i ∈ Finset.Ico 0 W, ∑ j ∈ Finset.Ico 0 H, spec_weight W H Rc i j

/-- The quadrant of the grid whose cells keep their weight under the shape
option `opt`. -/
def kept_quadrant (opt W H x y : Int) : Prop :=
  (opt = 1 ∧ x ≤ W / 2 ∧ H / 2 ≤ y) ∨ (opt = 2 ∧ W / 2 ≤ x ∧ H / 2 ≤ y) ∨
    (opt = 3 ∧ W / 2 ≤ x ∧ y ≤ H / 2) ∨ (opt = 4 ∧ x ≤ W / 2 ∧ y ≤ H / 2)

instance kept_quadrant_decidable (opt W H x y : Int) : Decidable (kept_quadrant opt W H x y) := by
  unfold kept_quadrant
  infer_instance

/-- The root of unity `exp(2 pi i / n)` of the discrete Fourier transform of
length `n`. -/
noncomputable def omega (n : Int) : ℂ := Complex.exp (2 * Real.pi * Complex.I / (n : ℂ))

/-- The discrete Fourier transform of a real `H` x `W` array (row-major, cell
`(x, y)` at offset `x + y*W`) at the frequency `(k0, k1)`, not normalised: the
quantity the FFTW manual defines for its forward transforms. -/
noncomputable def dft2 (W H : Int) (inp : Int → ℚ) (k0 k1 : Int) : ℂ :=
  ∑ j0 ∈ Finset.Ico 0 H, ∑ j1 ∈ Finset.Ico 0 W,
    (inp (j1 + j0 * W) : ℂ) * omega H ^ (-(j0 * k0)) * omega W ^ (-(j1 * k1))

/-- The plan `fftw_plan_dft_r2c_2d(H, W, in, out)` executed: the output array
holds the `H * (W/2+1)` coefficients `(k0, k1)`, `k1 ≤ W/2`, row-major. -/
noncomputable def fftw_r2c (W H : Int) (inp : Int → ℚ) : Int → ℂ :=
  fun idx => dft2 W H inp (idx / (W / 2 + 1)) (idx % (W / 2 + 1))

/-- The loop of `main` that multiplies the two spectra coefficient by
coefficient, run for `n` iterations from `x`:
`pf[0] = a*c - b*d; pf[1] = b*c + a*d`. -/
noncomputable def multiply_loop : Nat → Int → (Int → ℂ) → (Int → ℂ) → Int → ℂ
  | 0, _, pixbuf_f, _ => pixbuf_f
  | n + 1, x, pixbuf_f, apex_f =>
    let a := (pixbuf_f x).re
    let b := (pixbuf_f x).im
    let c := (apex_f x).re
    let d := (apex_f x).im
    multiply_loop n (x + 1) (Function.update pixbuf_f x ⟨a * c - b * d, b * c + a * d⟩) apex_f

/-- The coefficient `(k0, k1)` of the full spectrum that a complex-to-real
transform reads from its half array: the half `k1 > W/2` is the conjugate of
the coefficient at the opposite frequency. -/
noncomputable def hermitian_full (W H : Int) (F : Int → ℂ) (k0 k1 : Int) : ℂ :=
  if k1 < W / 2 + 1 then F (k1 + k0 * (W / 2 + 1))
  else (starRingEnd ℂ) (F ((W - k1) + ((H - k0) % H) * (W / 2 + 1)))

/-- The plan `fftw_plan_dft_c2r_2d(H, W, in, out)` executed: the inverse
transform, not normalised, of the Hermitian spectrum; the output is real. -/
noncomputable def fftw_c2r (W H : Int) (F : Int → ℂ) : Int → ℝ :=
  fun idx => (∑ k0 ∈ Finset.Ico 0 H, ∑ k1 ∈ Finset.Ico 0 W,
    hermitian_full W H F k0 k1 * omega H ^ (k0 * (idx / W)) * omega W ^ (k1 * (idx % W))).re

/-- One generation of the frequency engine (the convolution step of `main`):
forward transform of the grid, multiplication with the kernel transform that
`make_apex` left in `apex_f`, backward transform into the grid. -/
noncomputable def fft_generation (W H : Int) (pixbuf apex : Int → ℚ) : Int → ℝ :=
  let half_W := W / 2 + 1
  let apex_f := fftw_r2c W H apex
  let pixbuf_f := fftw_r2c W H pixbuf
  let pixbuf_f := multiply_loop (H * half_W).toNat 0 pixbuf_f apex_f
  fftw_c2r W H pixbuf_f

/-- A uniform box kernel of radius `r`, centred on cell 0 of the torus, with
the normalisation of the spatial engine: every cell of the box weighs
`1 / (W * H * divider)`. -/
def box_kernel (W H r : Int) (divider : ℚ) : Int → ℚ :=
  fun idx => if (idx % W ≤ r ∨ W - r ≤ idx % W) ∧ (idx / W ≤ r ∨ H - r ≤ idx / W) then
    1 / (((W * H : Int) : ℚ) * divider) else 0

/-- The function `seed1` of `burnscope_fft.c`: a position outside the grid is
dropped, a position inside it receives `val`. -/
def seed1 (pixbuf : Int → ℚ) (W H x y : Int) (val : ℚ) : Int → ℚ :=
  if x < 0 ∨ x ≥ W ∨ y < 0 ∨ y ≥ H then pixbuf
  else Function.update pixbuf (x + y * W) (pixbuf (x + y * W) + val)

/-- The function `seed` of `burnscope_fft.c`: both loops run from `-apex_r`
to `apex_r` inclusive, `2 * apex_r + 1` iterations each. -/
def seed (pixbuf : Int → ℚ) (W H x y : Int) (val : ℚ) (apex_r : Int) : Int → ℚ :=
  seg (fun ry p => seg (fun rx p => seed1 p W H (x + rx) (y + ry) val)
    (2 * apex_r + 1).toNat (-apex_r) p) (2 * apex_r + 1).toNat (-apex_r) pixbuf

/-- The macro `max(A,B)` of `burnscope_fft.c` on integers: `((A) > (B)? (A) : (B))`. -/
def c_max_int (a b : Int) : Int := if a > b then a else b

/-- The inner loop of `seed_image`, run for at most `k` iterations:
`for (...; (xx < w) && (pixbuf_pos < pixbuf_end); xx++)
{ (*pixbuf_pos) += (*img_pos) * (PALETTE_LEN >> 1); img_pos++; pixbuf_pos++; }`
with `PALETTE_LEN >> 1 = 2048`.  The state is the grid, `pixbuf_pos` and
`img_pos` (offsets).  A store below the start of the grid has no defined
result: `none`. -/
def seed_image_row (img : Int → ℚ) (pixbuf_end : Int) :
    Nat → (Int → ℚ) × Int × Int → Option ((Int → ℚ) × Int × Int)
  | 0, s => some s
  | k + 1, (pixbuf, pixbuf_pos, img_pos) =>
    if pixbuf_pos < pixbuf_end then
      if 0 ≤ pixbuf_pos then
        seed_image_row img pixbuf_end k
          (Function.update pixbuf pixbuf_pos (pixbuf pixbuf_pos + img img_pos * 2048),
            pixbuf_pos + 1, img_pos + 1)
      else none
    else some (pixbuf, pixbuf_pos, img_pos)

/-- The outer loop of `seed_image`, run for `m` rows: the inner loop, then
`pixbuf_pos += pixbuf_pitch`. -/
def seed_image_rows (img : Int → ℚ) (pixbuf_end w pixbuf_pitch : Int) :
    Nat → (Int → ℚ) × Int × Int → Option ((Int → ℚ) × Int × Int)
  | 0, s => some s
  | m + 1, s =>
    (seed_image_row img pixbuf_end w.toNat s).bind fun s1 =>
      seed_image_rows img pixbuf_end w pixbuf_pitch m (s1.1, s1.2.1 + pixbuf_pitch, s1.2.2)

/-- The function `seed_image` of `burnscope_fft.c` on the grid `pixbuf` of
`W * H` cells (globals of the program) and the image `img` of `w * h`
samples. -/
def seed_image (pixbuf : Int → ℚ) (W H x y : Int) (img : Int → ℚ) (w h : Int) :
    Option (Int → ℚ) :=
  let pixbuf_pos := y * W + x
  let pixbuf_end := W * H
  let pixbuf_pitch := c_max_int 0 (W - w)
  let img_pos := 0
  (seed_image_rows img pixbuf_end w pixbuf_pitch h.toNat (pixbuf, pixbuf_pos, img_pos)).map
    fun s => s.1

/-- The conversion `(unsigned int)d` of a `double`: the value truncated toward
zero when that is a value of the type, i.e. for `-1 < d < 2^32`; C leaves
every other conversion undefined: `none`. -/
def to_uint (d : ℚ) : Option Nat :=
  if -1 < d ∧ d < 4294967296 then some (c_trunc d).toNat else none

/-- The conversion `(int)d` of a `double`: the value truncated toward zero
when that is a value of the type, i.e. for `-2^31 - 1 < d < 2^31`; undefined
otherwise: `none`. -/
def to_int (d : ℚ) : Option Int :=
  if -2147483649 < d ∧ d < 2147483648 then some (c_trunc d) else none

/-- The statements of `render` for one grid cell, for the palette length
`len` and the colour shift `colorshift`:
`if (pix >= len) { pix -= len * (int)(pix / len); *pixbufpos = pix; }
col = (unsigned int)pix + colorshift; col %= len`.
The result is the value the cell holds afterwards and the palette index `col`.
The product `len * (int)...` and the sum are `unsigned int` operations, taken
modulo 2^32. -/
def render_cell (len : Nat) (colorshift : Int) (pix : ℚ) : Option (ℚ × Nat) :=
  if len = 0 then none
  else
    (if pix ≥ (len : ℚ) then
      (to_int (pix / (len : ℚ))).map fun k =>
        pix - (((len * (k % 4294967296).toNat) % 4294967296 : Nat) : ℚ)
     else some pix).bind fun pix =>
      (to_uint pix).map fun u =>
        (pix, ((u + (colorshift % 4294967296).toNat) % 4294967296) % len)

/-- The inner loop of `mirror_y`, run for `k` iterations on a buffer of `n`
cells: `v = min(*pos_to, *pos_from); *pos_to = v; *pos_from = v; pos_to++;
pos_from++`.  A dereference outside the buffer has no defined result:
`none`. -/
def mirror_y_row (n : Int) :
    Nat → (Int → ℚ) × Int × Int → Option ((Int → ℚ) × Int × Int)
  | 0, s => some s
  | k + 1, (pixbuf, pos_to, pos_from) =>
    if 0 ≤ pos_to ∧ pos_to < n ∧ 0 ≤ pos_from ∧ pos_from < n then
      let v := c_min (pixbuf pos_to) (pixbuf pos_from)
      let pixbuf := Function.update pixbuf pos_to v
      let pixbuf := Function.update pixbuf pos_from v
      mirror_y_row n k (pixbuf, pos_to + 1, pos_from + 1)
    else none

/-- The loop `while (pos_to < end)` of `mirror_y`: the inner loop over the
`W` cells of a row, then `pos_from += pitch_from`.  The fuel bounds the number
of iterations. -/
def mirror_y_loop (W pixbuf_end pitch_from : Int) :
    Nat → (Int → ℚ) × Int × Int → Option ((Int → ℚ) × Int × Int)
  | 0, _ => none
  | fuel + 1, s =>
    if s.2.1 < pixbuf_end then
      (mirror_y_row pixbuf_end W.toNat s).bind fun s1 =>
        mirror_y_loop W pixbuf_end pitch_from fuel (s1.1, s1.2.1, s1.2.2 + pitch_from)
    else some s

/-- The function `mirror_y` of `burnscope_fft.c` on a buffer of `W * H` cells;
`H >> 1` is `H / 2`. -/
def mirror_y (fuel : Nat) (pixbuf : Int → ℚ) (W H : Int) : Option (Int → ℚ) :=
  let y_fold := H / 2
  let pixbuf_end := W * H
  let pos_from := (y_fold - 1) * W
  let pos_to := (H - y_fold) * W
  let pitch_from := -2 * W
  (mirror_y_loop W pixbuf_end pitch_from fuel (pixbuf, pos_to, pos_from)).map fun s => s.1

/-- The loop `while (pos_to < end)` of `mirror_p`; its inner loop is that of
`mirror_x`, and the pointers are not moved between the rows.  The fuel bounds
the number of iterations. -/
def mirror_p_loop (W pixbuf_end : Int) :
    Nat → (Int → ℚ) × Int × Int → Option ((Int → ℚ) × Int × Int)
  | 0, _ => none
  | fuel + 1, s =>
    if s.2.1 < pixbuf_end then
      (mirror_x_row pixbuf_end W.toNat s).bind fun s1 => mirror_p_loop W pixbuf_end fuel s1
    else some s

/-- The function `mirror_p` of `burnscope_fft.c` on a buffer of `W * H` cells;
`(H >> 1) + (H & 1)` is `H / 2 + H % 2`. -/
def mirror_p (fuel : Nat) (pixbuf : Int → ℚ) (W H : Int) : Option (Int → ℚ) :=
  let y_fold := H / 2 + H % 2
  let pixbuf_end := W * H
  let pos_from := (y_fold - 1) * W + (W - 1)
  let pos_to := (H - y_fold) * W
  (mirror_p_loop W pixbuf_end fuel (pixbuf, pos_to, pos_from)).map fun s => s.1

/-- The buffer after a scan of `mirror_p` has paired the offsets `a .. b-1`
with their partners `c - idx`. -/
def scanned (orig : Int → ℚ) (c a b : Int) : Int → ℚ :=
  fun idx => if (a ≤ idx ∧ idx < b) ∨ (a ≤ c - idx ∧ c - idx < b)
    then min (orig idx) (orig (c - idx)) else orig idx

/-- The buffer after `mirror_y` has folded the rows from offset `a` up to
offset `b` onto their mirror rows; `c` is the offset of the last row. -/
def folded (orig : Int → ℚ) (W c a b : Int) : Int → ℚ :=
  fun idx => if (a ≤ idx ∧ idx < b) ∨ (c - b + W ≤ idx ∧ idx < c - a + W)
    then min (orig idx) (orig (c - idx + 2 * (idx % W))) else orig idx

/-- The macro `max(A,B)` of `burnscope_fft.c` on `double`:
`((A) > (B)? (A) : (B))`. -/
def c_max (a b : ℚ) : ℚ := if a > b then a else b

/-- The startup checks of `main` in `burnscope_fft.c`, from the size check to
the damping check: the result is the fatal error, or the radius and the burn
factor in effect.  `minuscule` is the same `float` constant as in
`burnscope3.c`; the grid and the kernel are built (`fft_init`) only after
these checks. -/
def main_startup (W H : Int) (apex_r burn_factor : ℚ) :
    Except Burnscope3.startup_error (ℚ × ℚ) :=
  let maxpixels : Int := 10000
  if W < 3 ∨ W > maxpixels ∨ H < 3 ∨ H > maxpixels then
    Except.error Burnscope3.startup_error.size_out_of_bounds
  else
    let max_dim := c_max_int W H
    let apex_r := c_min (max_dim : ℚ) apex_r
    let apex_r := c_max 1 apex_r
    if burn_factor > -Burnscope3.minuscule ∧ burn_factor < Burnscope3.minuscule then
      Except.error Burnscope3.startup_error.underdampening_too_small
    else Except.ok (apex_r, burn_factor)

/-- The keys of the event loop of `main` that change `burn_factor`:
`SDLK_RIGHT`, `SDLK_LEFT`, `q`, `w`, `e`, `r`, `t`. -/
inductive burn_key where
  | right
  | left
  | q
  | w
  | e
  | r
  | t
  deriving DecidableEq

/-- The `case` of the key switch of `main` for a damping key, on
`burn_factor`: `+= .0002`, `-= .0002`, `-= .002`, `-= .0003`, `= 1.005`,
`+= .0003`, `+= .002`. -/
def key_burn_factor (burn_factor : ℚ) : burn_key → ℚ
  | burn_key.right => burn_factor + 2 / 10000
  | burn_key.left => burn_factor - 2 / 10000
  | burn_key.q => burn_factor - 2 / 1000
  | burn_key.w => burn_factor - 3 / 10000
  | burn_key.e => 1005 / 1000
  | burn_key.r => burn_factor + 3 / 10000
  | burn_key.t => burn_factor + 2 / 1000

/-- The burn factor `slow_burn_factor` that `main` hands to `make_apex` in a
computed frame: `use_burn = burn_factor; if (do_wavy) use_burn += wavy_amp *
wavy; slow_burn_factor = use_burn`. -/
def slow_burn_factor (burn_factor : ℚ) (do_wavy : Bool) (wavy_amp wavy : ℚ) : ℚ :=
  let use_burn := burn_factor
  let use_burn := if do_wavy = true then use_burn + wavy_amp * wavy else use_burn
  use_burn

/-- The amount a damping key other than `e` adds to `burn_factor`. -/
def burn_step : burn_key → ℚ
  | burn_key.right => 2 / 10000
  | burn_key.left => -(2 / 10000)
  | burn_key.q => -(2 / 1000)
  | burn_key.w => -(3 / 10000)
  | burn_key.e => 0
  | burn_key.r => 3 / 10000
  | burn_key.t => 2 / 1000

/-- The input events the poll loop of `main` tells apart, as far as the grid
and the shutdown go: the key `b` (`bzero(pixbuf, ...)`), the escape key and
`SDL_QUIT` (`running = false`), and every other event (which at most sets a
flag for the next compute phase). -/
inductive event where
  | key_b
  | key_escape
  | quit
  | other
  deriving DecidableEq

/-- Where the compute thread (`main`) stands: before the compute phase of the
loop body, before `SDL_SemPost(please_render)`, before the `make_apex` block,
in the poll loop, in the statements after the main loop, or past them. -/
inductive main_pc where
  | compute
  | post_please_render
  | kernel
  | poll
  | shutdown
  | exited
  deriving DecidableEq

/-- Where `render_thread` stands: at `SDL_SemWait(please_render)`, at
`SDL_SemWait(saving_done)`, at the call of `render`, at
`SDL_SemPost(please_save)`, at `SDL_SemPost(rendering_done)`, or returned. -/
inductive render_pc where
  | wait_please_render
  | wait_saving_done
  | render
  | post_please_save
  | post_rendering_done
  | exited
  deriving DecidableEq

/-- Where `save_thread` stands: at `SDL_SemWait(please_save)`, at the
`fwrite` of the surface, at `SDL_SemPost(saving_done)`, or returned (also
when it was never created). -/
inductive save_pc where
  | wait_please_save
  | write
  | post_saving_done
  | exited
  deriving DecidableEq

/-- The state of the three threads of `burnscope_fft.c`: the flag `running`,
whether an output stream is open, the four semaphores, the pending input
events, and the position of each thread.  Four more fields record the
history: `render_requested` holds from the post of `please_render` until the
compute thread observes `rendering_done`; `grid_torn` is set when the compute
thread writes the grid while it holds; `save_requested` holds from the post of
`please_save` until the render thread observes `saving_done`; `surface_torn`
is set when the render thread writes the surface while it holds. -/
structure pipeline where
  running : Bool
  out_stream : Bool
  please_render : Nat
  please_save : Nat
  rendering_done : Nat
  saving_done : Nat
  events : List event
  main_at : main_pc
  render_at : render_pc
  save_at : save_pc
  render_requested : Bool
  grid_torn : Bool
  save_requested : Bool
  surface_torn : Bool

/-- The state when `main` enters its loop: the semaphores as created
(`saving_done` starts at 1), the render thread started, the save thread
started if there is an output stream. -/
def pipeline_start (out_stream : Bool) : pipeline :=
  { running := true, out_stream := out_stream, please_render := 0, please_save := 0,
    rendering_done := 0, saving_done := 1, events := [],
    main_at := main_pc.compute, render_at := render_pc.wait_please_render,
    save_at := if out_stream = true then save_pc.wait_please_save else save_pc.exited,
    render_requested := false, grid_torn := false, save_requested := false,
    surface_torn := false }

/-- One event handled by the `switch` of the poll loop. -/
def handle_event (s : pipeline) : event → pipeline
  | event.key_b => { s with grid_torn := s.grid_torn || s.render_requested }
  | event.key_escape => { s with running := false }
  | event.quit => { s with running := false }
  | event.other => s

/-- One step of the compute thread.  The compute phase (seeding, folding, the
three transforms) writes the grid; the poll loop handles a pending event, or
leaves when `running` is off, or tries `rendering_done`
(`SDL_SemTryWait`), and otherwise sleeps. -/
def main_step (s : pipeline) : pipeline :=
  match s.main_at with
  | main_pc.compute =>
    if s.running = true then
      { s with grid_torn := s.grid_torn || s.render_requested,
               main_at := main_pc.post_please_render }
    else { s with main_at := main_pc.shutdown }
  | main_pc.post_please_render =>
    { s with please_render := s.please_render + 1, render_requested := true,
             main_at := main_pc.kernel }
  | main_pc.kernel => { s with main_at := main_pc.poll }
  | main_pc.poll =>
    match s.events with
    | e :: rest => handle_event { s with events := rest } e
    | [] =>
      if s.running = false then { s with main_at := main_pc.shutdown }
      else if 0 < s.rendering_done then
        { s with rendering_done := s.rendering_done - 1, render_requested := false,
                 main_at := main_pc.compute }
      else s
  | main_pc.shutdown =>
    { s with running := false, please_render := s.please_render + 1,
             please_save := if s.out_stream = true then s.please_save + 1 else s.please_save,
             main_at := main_pc.exited }
  | main_pc.exited => s

/-- One step of `render_thread`; a wait on an empty semaphore leaves the
state as it is.  The call of `render` reads and writes the grid and writes
the surface. -/
def render_step (s : pipeline) : pipeline :=
  match s.render_at with
  | render_pc.wait_please_render =>
    if 0 < s.please_render then
      if s.running = false then
        { s with please_render := s.please_render - 1, render_at := render_pc.exited }
      else
        { s with please_render := s.please_render - 1,
                 render_at := if s.out_stream = true then render_pc.wait_saving_done
                   else render_pc.render }
    else s
  | render_pc.wait_saving_done =>
    if 0 < s.saving_done then
      { s with saving_done := s.saving_done - 1, save_requested := false,
               render_at := render_pc.render }
    else s
  | render_pc.render =>
    { s with surface_torn := s.surface_torn || s.save_requested,
             render_at := if s.out_stream = true then render_pc.post_please_save
               else render_pc.post_rendering_done }
  | render_pc.post_please_save =>
    { s with please_save := s.please_save + 1, save_requested := true,
             render_at := render_pc.post_rendering_done }
  | render_pc.post_rendering_done =>
    { s with rendering_done := s.rendering_done + 1,
             render_at := render_pc.wait_please_render }
  | render_pc.exited => s

/-- One step of `save_thread`. -/
def save_step (s : pipeline) : pipeline :=
  match s.save_at with
  | save_pc.wait_please_save =>
    if 0 < s.please_save then
      { s with please_save := s.please_save - 1,
               save_at := if s.running = false then save_pc.exited else save_pc.write }
    else s
  | save_pc.write => { s with save_at := save_pc.post_saving_done }
  | save_pc.post_saving_done =>
    { s with saving_done := s.saving_done + 1, save_at := save_pc.wait_please_save }
  | save_pc.exited => s

/-- What happens next: one of the threads takes a step, or an input event
arrives in the queue. -/
inductive tick where
  | main
  | render
  | save
  | input (e : event)

/-- One step of the pipeline. -/
def pipeline_step (s : pipeline) : tick → pipeline
  | tick.main => main_step s
  | tick.render => render_step s
  | tick.save => save_step s
  | tick.input e => { s with events := s.events ++ [e] }

/-- An interleaving of the threads and the input, run from a state. -/
def pipeline_run (s : pipeline) (ticks : List tick) : pipeline :=
  ticks.foldl pipeline_step s

/-- What the render thread keeps true of the save window: no write to the
surface has fallen into it, and while it is open the render thread stands
neither at `render` nor at the post of `please_save`, which it reaches only
with an output stream. -/
def save_window_inv (s : pipeline) : Prop :=
  s.surface_torn = false ∧
    (s.render_at = render_pc.post_please_save → s.out_stream = true) ∧
    (s.save_requested = true → s.out_stream = true ∧ s.render_at ≠ render_pc.render ∧
      s.render_at ≠ render_pc.post_please_save)

/-- What the compute thread keeps true of the render window as long as no key
`b` arrives: no write to the grid has fallen into it, no `b` is pending, and
the window is closed when the compute phase starts. -/
def render_window_inv (s : pipeline) : Prop :=
  s.grid_torn = false ∧ (∀ e ∈ s.events, e ≠ event.key_b) ∧
    (s.main_at = main_pc.compute → s.render_requested = false)

/-- The grid after `seed_image` has stamped the first `j` rows of an image of
width `w <= W` from the offset `p0`. -/
def stamped (orig img : Int → ℚ) (W w p0 j : Int) : Int → ℚ :=
  fun idx => if p0 ≤ idx ∧ idx < p0 + j * W ∧ (idx - p0) % W < w
    then orig idx + img ((idx - p0) / W * w + (idx - p0) % W) * 2048 else orig idx

/-- The first statements of the loop body of `render`, which alone touch the
grid: `pix = *pixbufpos; if (pix >= len) { pix -= len * (int)(pix / len);
*pixbufpos = pix; }`.  The result is the value of `pix`, which is the value
the cell holds afterwards (the cell is written only if it was `>= len`). -/
def render_store (len : Nat) (pix : ℚ) : Option ℚ :=
  if len = 0 then none
  else if pix ≥ (len : ℚ) then
    (to_int (pix / (len : ℚ))).map fun k =>
      pix - (((len * (k % 4294967296).toNat) % 4294967296 : Nat) : ℚ)
  else some pix

/-- The `x` loop of `render` as far as the grid goes, run for `k` cells from
`pixbufpos`: the loop body on the cell under `pixbufpos`, then
`pixbufpos++`.  The writes to the surface are not part of the state. -/
def render_x (len : Nat) (colorshift : Int) :
    Nat → (Int → ℚ) × Int → Option ((Int → ℚ) × Int)
  | 0, s => some s
  | k + 1, (pixbuf, pixbufpos) =>
    (render_cell len colorshift (pixbuf pixbufpos)).bind fun r =>
      render_x len colorshift k (Function.update pixbuf pixbufpos r.1, pixbufpos + 1)

/-- The `my` loop of `render`, run for `m` passes over the grid row that
starts at `pixbuf_y_pos`: `pixbufpos = pixbuf_y_pos`, then the `x` loop over
the `W` cells of the row. -/
def render_my (len : Nat) (colorshift : Int) (W pixbuf_y_pos : Int) :
    Nat → (Int → ℚ) × Int → Option ((Int → ℚ) × Int)
  | 0, s => some s
  | m + 1, (pixbuf, _) =>
    (render_x len colorshift W.toNat (pixbuf, pixbuf_y_pos)).bind fun s1 =>
      render_my len colorshift W pixbuf_y_pos m s1

/-- The `y` loop of `render`, run for `n` rows: `pixbuf_y_pos = pixbufpos`,
then the `my` loop with its `multiply_pixels` passes. -/
def render_y (len : Nat) (colorshift : Int) (W multiply_pixels : Int) :
    Nat → (Int → ℚ) × Int → Option ((Int → ℚ) × Int)
  | 0, s => some s
  | n + 1, (pixbuf, pixbufpos) =>
    (render_my len colorshift W pixbufpos multiply_pixels.toNat (pixbuf, pixbufpos)).bind fun s1 =>
      render_y len colorshift W multiply_pixels n s1

/-- The function `render` of `burnscope_fft.c` on the grid `pixbuf` of
`W * H` cells: the grid it leaves behind. -/
def render (pixbuf : Int → ℚ) (W H multiply_pixels : Int) (len : Nat) (colorshift : Int) :
    Option (Int → ℚ) :=
  (render_y len colorshift W multiply_pixels H.toNat (pixbuf, 0)).map fun s => s.1

/-- The value the claim gives a cell after `render`: `v - N * trunc(v / N)`
for `v >= N`, and `v` for `v < N`. -/
def spec_wrap (N : Nat) (v : ℚ) : ℚ :=
  if v ≥ (N : ℚ) then v - (N : ℚ) * (c_trunc (v / (N : ℚ)) : ℚ) else v

/-- The cell values on which every conversion of the loop body of `render` is
defined, for the palette length `N`: `-1 < v < 2^32` and `v / N < 2^31`. -/
def convertible (N : Nat) (v : ℚ) : Prop :=
  -1 < v ∧ v < 4294967296 ∧ v / (N : ℚ) < 2147483648

/-- The grid with the cells at the offsets `a .. b-1` wrapped. -/
def wrapped_to (N : Nat) (orig : Int → ℚ) (a b : Int) : Int → ℚ :=
  fun idx => if a ≤ idx ∧ idx < b then spec_wrap N (orig idx) else orig idx

end BurnscopeFft

namespace Burnscope3

theorem sum_Ico_split (f : Int → Int) {a b c : Int} (hab : a ≤ b) (hbc : b ≤ c) :
    ∑ i ∈ Finset.Ico a c, f i = ∑ i ∈ Finset.Ico a b, f i + ∑ i ∈ Finset.Ico b c, f i := by
  rw [← Finset.Ico_union_Ico_eq_Ico hab hbc,
    Finset.sum_union (Finset.Ico_disjoint_Ico_consecutive a b c)]

theorem sum_range_eq_Ico (f : Int → Int) (p : Int) (n : Nat) :
    ∑ i ∈ Finset.range n, f (p + i) = ∑ k ∈ Finset.Ico p (p + n), f k := by
  induction n with
  | zero => simp
  | succ n ih =>
    have hs : Finset.Ico (p + n) (p + (n + 1 : Nat)) = {p + (n : Int)} := by
      ext k
      simp only [Finset.mem_Ico, Finset.mem_singleton]
      omega
    rw [Finset.sum_range_succ, ih,
      sum_Ico_split f (b := p + n) (c := p + (n + 1 : Nat)) (by omega) (by omega), hs,
      Finset.sum_singleton]

theorem sum_row_eq (pixbuf : Int → pixel3_t) (n : Nat) (add : Fin 3 → Int) (p : Int) :
    sum_row pixbuf n (add, p) =
      (fun c => add c + ∑ k ∈ Finset.Ico p (p + n), ((pixbuf k).rgb c : Int), p + n) := by
  induction n generalizing add p with
  | zero => simp [sum_row]
  | succ n ih =>
    rw [sum_row, ih]
    refine Prod.ext ?_ ?_
    · funext c
      have hs : Finset.Ico p (p + 1) = {p} := by
        ext k
        simp only [Finset.mem_Ico, Finset.mem_singleton]
        omega
      simp only [add_pixel]
      rw [sum_Ico_split (fun k => ((pixbuf k).rgb c : Int)) (a := p) (b := p + 1)
        (c := p + (n + 1 : Nat)) (by omega) (by omega), hs, Finset.sum_singleton]
      have : p + 1 + (n : Int) = p + ((n + 1 : Nat) : Int) := by push_cast; ring
      rw [this]; ring
    · simp only; push_cast; ring

theorem sum_rows_eq (pixbuf : Int → pixel3_t) (n : Nat) (pitch : Int) (m : Nat)
    (add : Fin 3 → Int) (p : Int) :
    (sum_rows pixbuf n pitch m (add, p)).1 =
      fun c => add c + ∑ j ∈ Finset.Ico (0 : Int) m,
        ∑ k ∈ Finset.Ico (0 : Int) n, ((pixbuf (p + j * (n + pitch) + k)).rgb c : Int) := by
  induction m generalizing add p with
  | zero => simp [sum_rows]
  | succ m ih =>
    rw [sum_rows, sum_row_eq]
    simp only
    rw [ih]
    funext c
    have hs : Finset.Ico (0 : Int) 1 = {0} := by
      ext k
      simp only [Finset.mem_Ico, Finset.mem_singleton]
      omega
    rw [sum_Ico_split _ (a := 0) (b := 1) (c := ((m + 1 : Nat) : Int)) (by omega) (by omega), hs,
      Finset.sum_singleton]
    have e1 : ∑ k ∈ Finset.Ico p (p + n), ((pixbuf k).rgb c : Int) =
        ∑ k ∈ Finset.Ico (0 : Int) n, ((pixbuf (p + 0 * (n + pitch) + k)).rgb c : Int) := by
      have := Finset.sum_Ico_add' (fun k => ((pixbuf k).rgb c : Int)) 0 (n : Int) p
      simp only [zero_add] at this
      rw [add_comm (n : Int) p] at this
      rw [← this]
      refine Finset.sum_congr rfl fun k _ => ?_
      congr 3; ring
    have e2 : ∑ j ∈ Finset.Ico (0 : Int) m,
        ∑ k ∈ Finset.Ico (0 : Int) n, ((pixbuf (p + n + pitch + j * (n + pitch) + k)).rgb c : Int) =
        ∑ j ∈ Finset.Ico (1 : Int) ((m + 1 : Nat) : Int),
        ∑ k ∈ Finset.Ico (0 : Int) n, ((pixbuf (p + j * (n + pitch) + k)).rgb c : Int) := by
      have := Finset.sum_Ico_add' (fun j => ∑ k ∈ Finset.Ico (0 : Int) n,
        ((pixbuf (p + j * (n + pitch) + k)).rgb c : Int)) 0 (m : Int) 1
      simp only [zero_add] at this
      have e : (m : Int) + 1 = ((m + 1 : Nat) : Int) := by push_cast; ring
      rw [e] at this
      rw [← this]
      refine Finset.sum_congr rfl fun j _ => Finset.sum_congr rfl fun k _ => ?_
      congr 3; ring
    rw [e1, e2]; ring

theorem torus_shift_x (pixbuf : Int → pixel3_t) (W H : Int) (c : Fin 3) (i j : Int) :
    torus pixbuf W H c (i + W) j = torus pixbuf W H c i j := by
  simp [torus]

theorem torus_shift_y (pixbuf : Int → pixel3_t) (W H : Int) (c : Fin 3) (i j : Int) :
    torus pixbuf W H c i (j + H) = torus pixbuf W H c i j := by
  simp [torus]

theorem win_sum_shift_x (pixbuf : Int → pixel3_t) (W H : Int) (c : Fin 3) (x y w h : Int) :
    win_sum pixbuf W H c (x + W) y w h = win_sum pixbuf W H c x y w h := by
  unfold win_sum
  have := Finset.sum_Ico_add' (fun i => ∑ j ∈ Finset.Ico y (y + h), torus pixbuf W H c i j)
    x (x + w) W
  rw [show x + W + w = x + w + W by ring, ← this]
  exact Finset.sum_congr rfl fun i _ => Finset.sum_congr rfl fun j _ => torus_shift_x ..

theorem win_sum_shift_y (pixbuf : Int → pixel3_t) (W H : Int) (c : Fin 3) (x y w h : Int) :
    win_sum pixbuf W H c x (y + H) w h = win_sum pixbuf W H c x y w h := by
  unfold win_sum
  refine Finset.sum_congr rfl fun i _ => ?_
  have := Finset.sum_Ico_add' (fun j => torus pixbuf W H c i j) y (y + h) H
  rw [show y + H + h = y + h + H by ring, ← this]
  exact Finset.sum_congr rfl fun j _ => torus_shift_y ..

theorem win_sum_split_x (pixbuf : Int → pixel3_t) (W H : Int) (c : Fin 3) (x y h : Int)
    {w1 w2 : Int} (h1 : 0 ≤ w1) (h2 : 0 ≤ w2) :
    win_sum pixbuf W H c x y (w1 + w2) h =
      win_sum pixbuf W H c x y w1 h + win_sum pixbuf W H c (x + w1) y w2 h := by
  unfold win_sum
  rw [sum_Ico_split _ (a := x) (b := x + w1) (c := x + (w1 + w2)) (by omega) (by omega)]
  rw [show x + w1 + w2 = x + (w1 + w2) by ring]

theorem win_sum_split_y (pixbuf : Int → pixel3_t) (W H : Int) (c : Fin 3) (x y w : Int)
    {h1 h2 : Int} (k1 : 0 ≤ h1) (k2 : 0 ≤ h2) :
    win_sum pixbuf W H c x y w (h1 + h2) =
      win_sum pixbuf W H c x y w h1 + win_sum pixbuf W H c x (y + h1) w h2 := by
  unfold win_sum
  rw [← Finset.sum_add_distrib]
  refine Finset.sum_congr rfl fun i _ => ?_
  rw [sum_Ico_split _ (a := y) (b := y + h1) (c := y + (h1 + h2)) (by omega) (by omega)]
  rw [show y + h1 + h2 = y + (h1 + h2) by ring]

theorem win_sum_w_nonpos (pixbuf : Int → pixel3_t) (W H : Int) (c : Fin 3) (x y h : Int)
    {w : Int} (hw : w ≤ 0) : win_sum pixbuf W H c x y w h = 0 := by
  unfold win_sum
  rw [Finset.Ico_eq_empty_of_le (by omega), Finset.sum_empty]

theorem win_sum_h_nonpos (pixbuf : Int → pixel3_t) (W H : Int) (c : Fin 3) (x y w : Int)
    {h : Int} (hh : h ≤ 0) : win_sum pixbuf W H c x y w h = 0 := by
  unfold win_sum
  rw [Finset.Ico_eq_empty_of_le (a := y) (b := y + h) (by omega)]
  simp

/-- The two nested loops of `rectangle_sum` over a rectangle that lies inside
the grid add the cells of that rectangle. -/
theorem sum_rows_in_grid (pixbuf : Int → pixel3_t) (W H : Int) (add : Fin 3 → Int)
    {xs xe ys ye : Int} (hxs : 0 ≤ xs) (hx : xs ≤ xe) (hxe : xe ≤ W)
    (hys : 0 ≤ ys) (hy : ys ≤ ye) (hye : ye ≤ H) :
    (sum_rows pixbuf (xe - xs).toNat (W - (xe - xs)) (ye - ys).toNat (add, xs + W * ys)).1 =
      fun c => add c + win_sum pixbuf W H c xs ys (xe - xs) (ye - ys) := by
  rw [sum_rows_eq]
  funext c
  congr 1
  unfold win_sum
  have hn : ((xe - xs).toNat : Int) = xe - xs := Int.toNat_of_nonneg (by omega)
  have hm : ((ye - ys).toNat : Int) = ye - ys := Int.toNat_of_nonneg (by omega)
  rw [hn, hm]
  have ex := fun (g : Int → Int) => Finset.sum_Ico_add' g 0 (xe - xs) xs
  have ey := fun (g : Int → Int) => Finset.sum_Ico_add' g 0 (ye - ys) ys
  simp only [zero_add] at ex ey
  rw [show xs + (xe - xs) = xe - xs + xs by ring, show ys + (ye - ys) = ye - ys + ys by ring,
    ← ex, Finset.sum_comm]
  refine Finset.sum_congr rfl fun j hj => ?_
  rw [← ey]
  refine Finset.sum_congr rfl fun k hk => ?_
  simp only [Finset.mem_Ico] at hj hk
  unfold torus
  rw [Int.emod_eq_of_lt (by omega) (by omega), Int.emod_eq_of_lt (by omega) (by omega)]
  congr 3
  ring

/-- With wrap enabled `rectangle_sum` returns, and adds the toroidal window
sum of its rectangle. -/
theorem rectangle_sum_wrap (pixbuf : Int → pixel3_t) (W H : Int) (hW : 0 < W) (hH : 0 < H) :
    ∀ (fuel : Nat) (add : Fin 3 → Int) (x y w h : Int), 0 ≤ w → 0 ≤ h → x ≤ W → 0 ≤ x + w →
      y ≤ H → 0 ≤ y + h → wrap_depth W x w + wrap_depth H y h < fuel →
      rectangle_sum fuel add pixbuf W H x y w h true =
        some (fun c => add c + win_sum pixbuf W H c x y w h) := by
  intro fuel
  induction fuel with
  | zero => intro add x y w h _ _ _ _ _ _ hf; omega
  | succ fuel ih =>
    intro add x y w h hw hh hxW hxw hyH hyh hf
    unfold wrap_depth at hf ih
    -- the clipped rectangle
    obtain ⟨xs, hxs⟩ : ∃ xs, xs = if x < 0 then 0 else x := ⟨_, rfl⟩
    obtain ⟨xe, hxe⟩ : ∃ xe, xe = if x + w > W then W else x + w := ⟨_, rfl⟩
    obtain ⟨ys, hys⟩ : ∃ ys, ys = if y < 0 then 0 else y := ⟨_, rfl⟩
    obtain ⟨ye, hye⟩ : ∃ ye, ye = if y + h > H then H else y + h := ⟨_, rfl⟩
    have bxs : 0 ≤ xs ∧ xs ≤ xe ∧ xe ≤ W := by
      rw [hxs, hxe]; split_ifs <;> omega
    have bys : 0 ≤ ys ∧ ys ≤ ye ∧ ye ≤ H := by
      rw [hys, hye]; split_ifs <;> omega
    -- the four recursive calls
    have c1 : ∀ add, (if x < 0 ∧ True then
          rectangle_sum fuel add pixbuf W H (W - (-x)) y (-x) h true else some add) =
        some (fun c => add c + win_sum pixbuf W H c x y (xs - x) h) := by
      intro add
      by_cases hx : x < 0
      · rw [if_pos ⟨hx, trivial⟩, ih add _ _ _ _ (by omega) hh (by omega) (by omega) hyH hyh (by omega)]
        congr 1; funext c
        rw [show W - (-x) = x + W by ring, win_sum_shift_x, hxs, if_pos hx]; simp
      · rw [if_neg (fun hc => hx hc.1)]
        congr 1; funext c
        rw [win_sum_w_nonpos _ _ _ _ _ _ _ (by rw [hxs, if_neg hx]; omega)]; simp
    have c2 : ∀ add, (if x + w > W ∧ True then
          rectangle_sum fuel add pixbuf W H 0 y (x + w - W) h true else some add) =
        some (fun c => add c + win_sum pixbuf W H c xe y (x + w - xe) h) := by
      intro add
      by_cases hx : x + w > W
      · rw [if_pos ⟨hx, trivial⟩, ih add _ _ _ _ (by omega) hh (by omega) (by omega) hyH hyh (by omega)]
        congr 1; funext c
        rw [hxe, if_pos hx, ← win_sum_shift_x, zero_add]
      · rw [if_neg (fun hc => hx hc.1)]
        congr 1; funext c
        rw [win_sum_w_nonpos _ _ _ _ _ _ _ (by rw [hxe, if_neg hx]; omega)]; simp
    have c3 : ∀ add, (if y < 0 ∧ True then
          rectangle_sum fuel add pixbuf W H xs (H - (-y)) (xe - xs) (-y) true else some add) =
        some (fun c => add c + win_sum pixbuf W H c xs y (xe - xs) (ys - y)) := by
      intro add
      by_cases hy : y < 0
      · rw [if_pos ⟨hy, trivial⟩, ih add _ _ _ _ (by omega) (by omega) (by omega) (by omega)
          (by omega) (by omega) (by omega)]
        congr 1; funext c
        rw [show H - (-y) = y + H by ring, win_sum_shift_y, hys, if_pos hy]; simp
      · rw [if_neg (fun hc => hy hc.1)]
        congr 1; funext c
        rw [win_sum_h_nonpos _ _ _ _ _ _ _ (by rw [hys, if_neg hy]; omega)]; simp
    have c4 : ∀ add, (if y + h > H ∧ True then
          rectangle_sum fuel add pixbuf W H xs 0 (xe - xs) (y + h - H) true else some add) =
        some (fun c => add c + win_sum pixbuf W H c xs ye (xe - xs) (y + h - ye)) := by
      intro add
      by_cases hy : y + h > H
      · rw [if_pos ⟨hy, trivial⟩, ih add _ _ _ _ (by omega) (by omega) (by omega) (by omega)
          (by omega) (by omega) (by omega)]
        congr 1; funext c
        rw [hye, if_pos hy, ← win_sum_shift_y, zero_add]
      · rw [if_neg (fun hc => hy hc.1)]
        congr 1; funext c
        rw [win_sum_h_nonpos _ _ _ _ _ _ _ (by rw [hye, if_neg hy]; omega)]; simp
    rw [rectangle_sum]
    simp only [← hxs, ← hxe, ← hys, ← hye]
    rw [c1, Option.some_bind, c2, Option.some_bind, c3, Option.some_bind, c4, Option.some_bind,
      sum_rows_in_grid pixbuf W H _ bxs.1 bxs.2.1 bxs.2.2 bys.1 bys.2.1 bys.2.2]
    congr 1; funext c
    have ex : w = (xs - x) + ((xe - xs) + (x + w - xe)) := by ring
    have ey : h = (ys - y) + ((ye - ys) + (y + h - ye)) := by ring
    have p1 : 0 ≤ xs - x := by rw [hxs]; split_ifs <;> omega
    have p2 : 0 ≤ x + w - xe := by rw [hxe]; split_ifs <;> omega
    have p3 : 0 ≤ ys - y := by rw [hys]; split_ifs <;> omega
    have p4 : 0 ≤ y + h - ye := by rw [hye]; split_ifs <;> omega
    conv_rhs => rw [ex, win_sum_split_x _ _ _ _ _ _ _ p1 (by omega),
      win_sum_split_x _ _ _ _ _ _ _ (by omega) p2]
    rw [show x + (xs - x) = xs by ring, show xs + (xe - xs) = xe by ring]
    have mid : win_sum pixbuf W H c xs y (xe - xs) h =
        win_sum pixbuf W H c xs y (xe - xs) (ys - y) +
        (win_sum pixbuf W H c xs ys (xe - xs) (ye - ys) +
         win_sum pixbuf W H c xs ye (xe - xs) (y + h - ye)) := by
      conv_lhs => rw [ey, win_sum_split_y _ _ _ _ _ _ _ p3 (by omega),
        win_sum_split_y _ _ _ _ _ _ _ (by omega) p4]
      rw [show y + (ys - y) = ys by ring, show ys + (ye - ys) = ye by ring]
    rw [mid]; ring

theorem sum_Icc_offsets (f : Int → Int) (x r : Int) :
    ∑ dx ∈ Finset.Icc (-r) r, f (x + dx) = ∑ i ∈ Finset.Ico (x - r) (x - r + (2 * r + 1)), f i := by
  have hI : Finset.Icc (-r) r = Finset.Ico (-r) (r + 1) := by
    ext k
    simp only [Finset.mem_Icc, Finset.mem_Ico]
    omega
  have := Finset.sum_Ico_add' f (-r) (r + 1) x
  rw [hI, show x - r = -r + x by ring, show -r + x + (2 * r + 1) = r + 1 + x by ring, ← this]
  exact Finset.sum_congr rfl fun k _ => by rw [add_comm]

/-- The toroidal window sum written over the offsets `dx, dy ∈ [-r, r]`. -/
theorem win_sum_offsets (pixbuf : Int → pixel3_t) (W H : Int) (c : Fin 3) (x y r : Int) :
    win_sum pixbuf W H c (x - r) (y - r) (2 * r + 1) (2 * r + 1) =
      ∑ dx ∈ Finset.Icc (-r) r, ∑ dy ∈ Finset.Icc (-r) r,
        ((pixbuf ((x + dx) % W + W * ((y + dy) % H))).rgb c : Int) := by
  unfold win_sum torus
  rw [← sum_Icc_offsets (fun i => ∑ j ∈ Finset.Ico (y - r) (y - r + (2 * r + 1)),
    ((pixbuf (i % W + W * (j % H))).rgb c : Int)) x r]
  refine Finset.sum_congr rfl fun dx _ => ?_
  rw [← sum_Icc_offsets (fun j => ((pixbuf ((x + dx) % W + W * (j % H))).rgb c : Int)) y r]

theorem surrounding_sum_wrap (pixbuf : Int → pixel3_t) (W H x y r : Int) (hW : 1 ≤ W) (hH : 1 ≤ H)
    (hx0 : 0 ≤ x) (hxW : x < W) (hy0 : 0 ≤ y) (hyH : y < H) (hr : 0 ≤ r)
    (add : Fin 3 → Int) (fuel : Nat) (hfuel : 4 * r.toNat + 1 ≤ fuel) :
    surrounding_sum fuel add pixbuf W H x y r true =
      some (fun c => add c + ∑ dx ∈ Finset.Icc (-r) r, ∑ dy ∈ Finset.Icc (-r) r,
        ((pixbuf ((x + dx) % W + W * ((y + dy) % H))).rgb c : Int)) := by
  unfold surrounding_sum
  rw [rectangle_sum_wrap pixbuf W H (by omega) (by omega) fuel add _ _ _ _ (by omega) (by omega)
    (by omega) (by omega) (by omega) (by omega) (by unfold wrap_depth; omega)]
  congr 1; funext c
  rw [win_sum_offsets]

theorem win_sum_in_grid (pixbuf : Int → pixel3_t) (W H : Int) (c : Fin 3)
    {xs xe ys ye : Int} (hxs : 0 ≤ xs) (hxe : xe ≤ W) (hys : 0 ≤ ys) (hye : ye ≤ H) :
    win_sum pixbuf W H c xs ys (xe - xs) (ye - ys) =
      ∑ i ∈ Finset.Ico xs xe, ∑ j ∈ Finset.Ico ys ye, ((pixbuf (i + W * j)).rgb c : Int) := by
  unfold win_sum torus
  rw [show xs + (xe - xs) = xe by ring, show ys + (ye - ys) = ye by ring]
  refine Finset.sum_congr rfl fun i hi => Finset.sum_congr rfl fun j hj => ?_
  simp only [Finset.mem_Ico] at hi hj
  rw [Int.emod_eq_of_lt (by omega) (by omega), Int.emod_eq_of_lt (by omega) (by omega)]

/-- With wrap disabled `surrounding_sum` adds the cells of the window that lie
in the grid and nothing else. -/
theorem surrounding_sum_nowrap (pixbuf : Int → pixel3_t) (W H x y r : Int)
    (hx0 : 0 ≤ x) (hxW : x < W) (hy0 : 0 ≤ y) (hyH : y < H) (hr : 0 ≤ r)
    (add : Fin 3 → Int) (fuel : Nat) (hfuel : 1 ≤ fuel) :
    surrounding_sum fuel add pixbuf W H x y r false =
      some (fun c => add c + ∑ i ∈ Finset.Icc (max 0 (x - r)) (min (W - 1) (x + r)),
        ∑ j ∈ Finset.Icc (max 0 (y - r)) (min (H - 1) (y + r)),
          ((pixbuf (i + W * j)).rgb c : Int)) := by
  obtain ⟨n, rfl⟩ : ∃ n, fuel = n + 1 := ⟨fuel - 1, by omega⟩
  unfold surrounding_sum
  rw [rectangle_sum]
  simp only [Bool.false_eq_true, and_false, if_false, Option.some_bind]
  obtain ⟨xs, hxs⟩ : ∃ xs, xs = if x - r < 0 then 0 else x - r := ⟨_, rfl⟩
  obtain ⟨xe, hxe⟩ : ∃ xe, xe = if x - r + (2 * r + 1) > W then W else x - r + (2 * r + 1) :=
    ⟨_, rfl⟩
  obtain ⟨ys, hys⟩ : ∃ ys, ys = if y - r < 0 then 0 else y - r := ⟨_, rfl⟩
  obtain ⟨ye, hye⟩ : ∃ ye, ye = if y - r + (2 * r + 1) > H then H else y - r + (2 * r + 1) :=
    ⟨_, rfl⟩
  simp only [← hxs, ← hxe, ← hys, ← hye]
  have bxs : 0 ≤ xs ∧ xs ≤ xe ∧ xe ≤ W := by
    rw [hxs, hxe]; split_ifs <;> omega
  have bys : 0 ≤ ys ∧ ys ≤ ye ∧ ye ≤ H := by
    rw [hys, hye]; split_ifs <;> omega
  rw [sum_rows_in_grid pixbuf W H _ bxs.1 bxs.2.1 bxs.2.2 bys.1 bys.2.1 bys.2.2]
  congr 1; funext c
  rw [win_sum_in_grid pixbuf W H c bxs.1 bxs.2.2 bys.1 bys.2.2]
  have ix : Finset.Ico xs xe = Finset.Icc (max 0 (x - r)) (min (W - 1) (x + r)) := by
    ext k
    simp only [Finset.mem_Icc, Finset.mem_Ico, hxs, hxe]
    split_ifs <;> omega
  have iy : Finset.Ico ys ye = Finset.Icc (max 0 (y - r)) (min (H - 1) (y + r)) := by
    ext k
    simp only [Finset.mem_Icc, Finset.mem_Ico, hys, hye]
    split_ifs <;> omega
  rw [ix, iy]

theorem burn_row_eq (fuel : Nat) (srcbuf : Int → pixel3_t) (W H y apex_r : Int) (divider : ℚ)
    (wrap_borders : Bool) (S : Int → Fin 3 → Int) :
    ∀ (n : Nat) (x : Int) (destbuf : Int → pixel3_t) (p : Int),
      (∀ x', x ≤ x' → x' < x + n →
        surrounding_sum fuel (fun _ => 0) srcbuf W H x' y apex_r wrap_borders = some (S x')) →
      burn_row fuel srcbuf W H y apex_r divider wrap_borders n x (destbuf, p) =
        some (fun k => if p ≤ k ∧ k < p + n then burn_pixel (destbuf k) (S (x + (k - p))) divider
          else destbuf k, p + n) := by
  intro n
  induction n with
  | zero =>
    intro x destbuf p _
    rw [burn_row]
    congr 2
    · funext k
      rw [if_neg]
      push_cast; omega
    · simp
  | succ n ih =>
    intro x destbuf p hS
    rw [burn_row, hS x (le_refl _) (by push_cast; omega), Option.some_bind,
      ih (x + 1) _ (p + 1) (fun x' h1 h2 => hS x' (by omega) (by push_cast; omega))]
    congr 2
    · funext k
      by_cases hk : k = p
      · subst hk
        rw [if_neg (by omega), if_pos (by push_cast; omega), Function.update_same]
        simp
      · rw [Function.update_noteq hk]
        by_cases hk2 : p + 1 ≤ k ∧ k < p + 1 + n
        · rw [if_pos hk2, if_pos (by push_cast; omega)]
          rw [show x + 1 + (k - (p + 1)) = x + (k - p) by ring]
        · rw [if_neg hk2, if_neg (by push_cast; omega)]
    · push_cast; omega

theorem burn_rows_eq (fuel : Nat) (srcbuf : Int → pixel3_t) (W H apex_r : Int) (divider : ℚ)
    (wrap_borders : Bool) (S : Int → Int → Fin 3 → Int) (hW : 0 < W) :
    ∀ (m : Nat) (y : Int) (destbuf : Int → pixel3_t) (p : Int),
      (∀ x y', 0 ≤ x → x < W → y ≤ y' → y' < y + m →
        surrounding_sum fuel (fun _ => 0) srcbuf W H x y' apex_r wrap_borders = some (S x y')) →
      burn_rows fuel srcbuf W H apex_r divider wrap_borders m y (destbuf, p) =
        some (fun k => if p ≤ k ∧ k < p + m * W then
            burn_pixel (destbuf k) (S ((k - p) % W) (y + (k - p) / W)) divider
          else destbuf k, p + m * W) := by
  intro m
  have hWn : (W.toNat : Int) = W := Int.toNat_of_nonneg (by omega)
  induction m with
  | zero =>
    intro y destbuf p _
    rw [burn_rows]
    congr 2
    · funext k
      rw [if_neg]
      push_cast; omega
    · simp
  | succ m ih =>
    intro y destbuf p hS
    rw [burn_rows, burn_row_eq fuel srcbuf W H y apex_r divider wrap_borders (fun x => S x y)
      W.toNat 0 destbuf p (fun x' h1 h2 => hS x' y h1 (by omega) (le_refl _) (by push_cast; omega)),
      Option.some_bind, hWn,
      ih (y + 1) _ (p + W) (fun x y' h1 h2 h3 h4 => hS x y' h1 h2 (by omega) (by push_cast; omega))]
    have e : (((m + 1 : Nat) : Int)) * W = W + m * W := by push_cast; ring
    rw [e]
    congr 2
    · funext k
      by_cases hk : p + W ≤ k ∧ k < p + W + m * W
      · have hm : 0 ≤ (m : Int) * W := by positivity
        rw [if_pos hk, if_neg (by omega), if_pos (by omega)]
        have e1 : (k - (p + W)) % W = (k - p) % W := by
          rw [show k - (p + W) = (k - p) + (-1) * W by ring, Int.add_mul_emod_self]
        have e2 : y + 1 + (k - (p + W)) / W = y + (k - p) / W := by
          rw [show k - (p + W) = (k - p) + (-1) * W by ring,
            Int.add_mul_ediv_right _ _ (by omega)]
          ring
        rw [e1, e2]
      · rw [if_neg hk]
        by_cases hk2 : p ≤ k ∧ k < p + W
        · have hm : 0 ≤ (m : Int) * W := by positivity
          rw [if_pos hk2, if_pos (by omega), Int.emod_eq_of_lt (by omega) (by omega),
            Int.ediv_eq_zero_of_lt (by omega) (by omega)]
          simp
        · have hm : 0 ≤ (m : Int) * W := by positivity
          rw [if_neg hk2, if_neg (by omega)]
    · ring

/-- One call of `burn` returns, and rewrites the three channels of every cell
of the destination grid from the window sum of that cell; nothing outside the
`W * H` cells of the destination is written. -/
theorem burn_eq (fuel : Nat) (srcbuf destbuf : Int → pixel3_t) (W H apex_r : Int) (divider : ℚ)
    (wrap_borders : Bool) (S : Int → Int → Fin 3 → Int) (hW : 0 < W) (hH : 0 < H)
    (hS : ∀ x y, 0 ≤ x → x < W → 0 ≤ y → y < H →
      surrounding_sum fuel (fun _ => 0) srcbuf W H x y apex_r wrap_borders = some (S x y)) :
    burn fuel srcbuf destbuf W H apex_r divider wrap_borders =
      some (fun k => if 0 ≤ k ∧ k < H * W then
          burn_pixel (destbuf k) (S (k % W) (k / W)) divider
        else destbuf k) := by
  have hHn : (H.toNat : Int) = H := Int.toNat_of_nonneg (by omega)
  unfold burn
  rw [burn_rows_eq fuel srcbuf W H apex_r divider wrap_borders S hW H.toNat 0 destbuf 0
    (fun x y h1 h2 h3 h4 => hS x y h1 h2 h3 (by omega))]
  simp [hHn]

theorem cell_index (W x y : Int) (hx0 : 0 ≤ x) (hxW : x < W) :
    (x + W * y) % W = x ∧ (x + W * y) / W = y := by
  constructor
  · rw [Int.add_mul_emod_self_left, Int.emod_eq_of_lt hx0 hxW]
  · rw [Int.add_mul_ediv_left _ _ (by omega), Int.ediv_eq_zero_of_lt hx0 hxW, zero_add]

theorem cell_index_range (W H x y : Int) (hx0 : 0 ≤ x) (hxW : x < W) (hy0 : 0 ≤ y) (hyH : y < H) :
    0 ≤ x + W * y ∧ x + W * y < H * W := by
  have h1 : 0 ≤ W * y := mul_nonneg (by omega) hy0
  have h2 : W * (y + 1) ≤ W * H := by
    apply mul_le_mul_of_nonneg_left <;> omega
  constructor
  · omega
  · nlinarith

theorem emod_eq_iff_window (n a b : Int) (ha1 : -n ≤ a) (ha2 : a < 2 * n) (hb0 : 0 ≤ b)
    (hbn : b < n) : a % n = b ↔ (a = b ∨ a + n = b ∨ a - n = b) := by
  have e1 : (a + n) % n = a % n := Int.add_emod_self
  have e2 : (a - n) % n = a % n := by
    rw [show a - n = a + (-1) * n by ring, Int.add_mul_emod_self]
  by_cases h1 : a < 0
  · rw [← e1, Int.emod_eq_of_lt (by omega) (by omega)]; omega
  · by_cases h2 : a < n
    · rw [Int.emod_eq_of_lt (by omega) (by omega)]; omega
    · rw [← e2, Int.emod_eq_of_lt (by omega) (by omega)]; omega

theorem hits_of_unique (n r x x0 dx0 : Int) (h1 : -r ≤ dx0) (h2 : dx0 ≤ r)
    (hit : (x + dx0) % n = x0)
    (uniq : ∀ dx, -r ≤ dx → dx ≤ r → (x + dx) % n = x0 → dx = dx0) : hits n r x x0 = 1 := by
  unfold hits
  rw [Finset.sum_eq_single dx0, if_pos hit]
  · intro dx hdx hne
    rw [Finset.mem_Icc] at hdx
    rw [if_neg (fun hc => hne (uniq dx hdx.1 hdx.2 hc))]
  · intro hc
    exact absurd (Finset.mem_Icc.mpr ⟨h1, h2⟩) hc

theorem hits_of_none (n r x x0 : Int)
    (none : ∀ dx, -r ≤ dx → dx ≤ r → (x + dx) % n ≠ x0) : hits n r x x0 = 0 := by
  unfold hits
  refine Finset.sum_eq_zero fun dx hdx => ?_
  rw [Finset.mem_Icc] at hdx
  rw [if_neg (none dx hdx.1 hdx.2)]

theorem tdist_le_iff (n x x0 r : Int) (hx0 : 0 ≤ x) (hxn : x < n) (h0 : 0 ≤ x0) (h0n : x0 < n) :
    tdist n x x0 ≤ r ↔ ((x - x0 ≤ r ∧ x0 ≤ x) ∨ (x0 - x ≤ r ∧ x ≤ x0) ∨
      (x - x0 + n ≤ r ∧ x < x0) ∨ (x0 - x + n ≤ r ∧ x0 < x)) := by
  unfold tdist
  have e1 : (x - x0 + n) % n = (x - x0) % n := Int.add_emod_self
  have e2 : (x0 - x + n) % n = (x0 - x) % n := Int.add_emod_self
  rcases lt_trichotomy x x0 with h | h | h
  · rw [← e1, Int.emod_eq_of_lt (a := x - x0 + n) (by omega) (by omega),
      Int.emod_eq_of_lt (a := x0 - x) (by omega) (by omega)]
    omega
  · subst h
    simp only [sub_self, Int.zero_emod]
    omega
  · rw [← e2, Int.emod_eq_of_lt (a := x0 - x + n) (by omega) (by omega),
      Int.emod_eq_of_lt (a := x - x0) (by omega) (by omega)]
    omega

/-- When the window is no wider than the ring, exactly the columns within
distance `r` of `x0` see `x0`, and they see it once. -/
theorem hits_eq (n r x x0 : Int) (hx0 : 0 ≤ x) (hxn : x < n) (h0 : 0 ≤ x0) (h0n : x0 < n)
    (hr : 0 ≤ r) (h2r : 2 * r + 1 ≤ n) :
    hits n r x x0 = if tdist n x x0 ≤ r then 1 else 0 := by
  have key : ∀ dx, -r ≤ dx → dx ≤ r →
      ((x + dx) % n = x0 ↔ (x + dx = x0 ∨ x + dx + n = x0 ∨ x + dx - n = x0)) :=
    fun dx h1 h2 => emod_eq_iff_window n (x + dx) x0 (by omega) (by omega) h0 h0n
  by_cases h : tdist n x x0 ≤ r
  · rw [if_pos h]
    rw [tdist_le_iff n x x0 r hx0 hxn h0 h0n] at h
    obtain ⟨dx0, hd⟩ : ∃ dx0, dx0 = if x0 - x < -r then x0 - x + n else
        if x0 - x ≤ r then x0 - x else x0 - x - n := ⟨_, rfl⟩
    have hb : -r ≤ dx0 ∧ dx0 ≤ r := by rw [hd]; split_ifs <;> omega
    refine hits_of_unique n r x x0 dx0 hb.1 hb.2 ?_ ?_
    · rw [key dx0 hb.1 hb.2, hd]; split_ifs <;> omega
    · intro dx h1 h2 hh
      rw [key dx h1 h2] at hh
      rw [hd]; split_ifs <;> omega
  · rw [if_neg h]
    rw [tdist_le_iff n x x0 r hx0 hxn h0 h0n] at h
    refine hits_of_none n r x x0 fun dx h1 h2 hh => ?_
    rw [key dx h1 h2] at hh
    omega

/-- The window sums of a grid that holds `v` in channel `c` of the cell
`(x0, y0)` and 0 in that channel of every other cell. -/
theorem impulse_sum (pixbuf : Int → pixel3_t) (W H : Int) (c : Fin 3) (x0 y0 : Int) (v : Nat)
    (hW : 0 < W) (hH : 0 < H)
    (hsrc : ∀ i j, 0 ≤ i → i < W → 0 ≤ j → j < H →
      (pixbuf (i + W * j)).rgb c = if i = x0 ∧ j = y0 then v else 0) (x y r : Int) :
    ∑ dx ∈ Finset.Icc (-r) r, ∑ dy ∈ Finset.Icc (-r) r,
        ((pixbuf ((x + dx) % W + W * ((y + dy) % H))).rgb c : Int) =
      hits W r x x0 * hits H r y y0 * v := by
  unfold hits
  rw [Finset.sum_mul_sum, Finset.sum_mul]
  refine Finset.sum_congr rfl fun dx _ => ?_
  rw [Finset.sum_mul]
  refine Finset.sum_congr rfl fun dy _ => ?_
  rw [hsrc _ _ (Int.emod_nonneg _ (by omega)) (Int.emod_lt_of_pos _ hW)
    (Int.emod_nonneg _ (by omega)) (Int.emod_lt_of_pos _ hH)]
  by_cases h1 : (x + dx) % W = x0 <;> by_cases h2 : (y + dy) % H = y0 <;> simp [h1, h2]

theorem c_round_zero : c_round 0 = 0 := by
  unfold c_round
  rw [if_pos le_rfl, Int.floor_eq_iff]
  norm_num

theorem c_round_nearest (q : ℚ) :
    |(c_round q : ℚ) - q| ≤ 1 / 2 ∧ (|(c_round q : ℚ) - q| = 1 / 2 → |q| < |(c_round q : ℚ)|) := by
  unfold c_round
  by_cases hq : 0 ≤ q
  · rw [if_pos hq]
    have h1 := Int.floor_le (q + 1 / 2)
    have h2 := Int.lt_floor_add_one (q + 1 / 2)
    constructor
    · rw [abs_le]; constructor <;> linarith
    · intro h
      have hc : q < (⌊q + 1 / 2⌋ : ℚ) := by
        rcases abs_eq (by norm_num : (0 : ℚ) ≤ 1 / 2) |>.mp h with h' | h' <;> linarith
      rw [abs_of_nonneg hq, abs_of_nonneg (by linarith)]
      exact hc
  · rw [if_neg hq]
    push_neg at hq
    have h1 := Int.floor_le (-q + 1 / 2)
    have h2 := Int.lt_floor_add_one (-q + 1 / 2)
    push_cast
    constructor
    · rw [abs_le]; constructor <;> linarith
    · intro h
      have hc : -(⌊-q + 1 / 2⌋ : ℚ) < q := by
        rcases abs_eq (by norm_num : (0 : ℚ) ≤ 1 / 2) |>.mp h with h' | h' <;> linarith
      rw [abs_of_neg hq, abs_of_neg (by linarith)]
      linarith

theorem surrounding_sum_spec (pixbuf : Int → pixel3_t) (W H x y r : Int)
    (hx0 : 0 ≤ x) (hxW : x < W) (hy0 : 0 ≤ y) (hyH : y < H) (hr : 0 ≤ r)
    (wrap : Bool) (fuel : Nat) (hfuel : 4 * r.toNat + 1 ≤ fuel) :
    surrounding_sum fuel (fun _ => 0) pixbuf W H x y r wrap =
      some (fun c => spec_window_sum pixbuf W H wrap x y r c) := by
  cases wrap with
  | true =>
    rw [surrounding_sum_wrap pixbuf W H x y r (by omega) (by omega) hx0 hxW hy0 hyH hr _ fuel
      hfuel]
    simp [spec_window_sum]
  | false =>
    rw [surrounding_sum_nowrap pixbuf W H x y r hx0 hxW hy0 hyH hr _ fuel (by omega)]
    simp [spec_window_sum]

theorem f32_zero : f32 0 = 0 := by
  unfold f32
  rw [if_pos rfl]

/-- An integer within less than 1/2 is the rounded value. -/
theorem round_even_eq (q : ℚ) (n : Int) (h : |q - n| < 1 / 2) : round_even q = n := by
  rw [abs_lt] at h
  obtain ⟨h1, h2⟩ := h
  unfold round_even
  by_cases c : (n : ℚ) ≤ q
  · have hf : ⌊q⌋ = n := by
      rw [Int.floor_eq_iff]
      constructor <;> linarith
    rw [hf, if_pos (by linarith)]
  · have hf : ⌊q⌋ = n - 1 := by
      rw [Int.floor_eq_iff]
      push_cast
      constructor <;> linarith
    rw [hf, if_neg (by push_cast; linarith), if_pos (by push_cast; linarith)]
    ring

/-- The value of `f32` at a number of binary exponent `e` whose scaled value
lies within less than half a unit of the integer `n`. -/
theorem f32_eq (q : ℚ) (e n : Int) (he : -126 ≤ e) (h1 : (2 : ℚ) ^ e ≤ |q|)
    (h2 : |q| < (2 : ℚ) ^ (e + 1)) (hn : |q / 2 ^ (e - 23) - n| < 1 / 2) :
    f32 q = (n : ℚ) * 2 ^ (e - 23) := by
  have hpos : (0 : ℚ) < |q| := lt_of_lt_of_le (by positivity) h1
  have hq : q ≠ 0 := abs_pos.mp hpos
  have hlog : Int.log 2 |q| = e := by
    have a : e ≤ Int.log 2 |q| :=
      (Int.zpow_le_iff_le_log (by norm_num) hpos).mp (by exact_mod_cast h1)
    have b : Int.log 2 |q| < e + 1 :=
      (Int.lt_zpow_iff_log_lt (by norm_num) hpos).mp (by exact_mod_cast h2)
    omega
  unfold f32
  rw [if_neg hq]
  simp only
  rw [hlog, max_eq_left he, round_even_eq _ n hn]

/-- A natural number below `2^24` is a binary32 number. -/
theorem f32_natCast (m : Nat) (hm : m < 16777216) : f32 (m : ℚ) = (m : ℚ) := by
  rcases Nat.eq_zero_or_pos m with h0 | hpos
  · rw [h0, Nat.cast_zero, f32_zero]
  have hm0 : m ≠ 0 := by omega
  obtain ⟨e, he⟩ : ∃ e, e = Nat.log 2 m := ⟨_, rfl⟩
  have h1 : 2 ^ e ≤ m := he ▸ Nat.pow_log_le_self 2 hm0
  have h2 : m < 2 ^ (e + 1) := he ▸ Nat.lt_pow_succ_log_self (by norm_num) m
  have he23 : e ≤ 23 := by
    by_contra hc
    have : 2 ^ 24 ≤ 2 ^ e := Nat.pow_le_pow_right (by norm_num) (by omega)
    omega
  obtain ⟨k, hk⟩ : ∃ k : Nat, k + e = 23 := ⟨23 - e, by omega⟩
  have hz : ((e : Int) - 23) = -(k : Int) := by omega
  have hm_abs : |(m : ℚ)| = (m : ℚ) := abs_of_nonneg (by positivity)
  have hscale : (m : ℚ) / 2 ^ ((e : Int) - 23) = ((m * 2 ^ k : Nat) : ℚ) := by
    rw [hz, zpow_neg, zpow_natCast, div_inv_eq_mul]
    push_cast
    ring
  rw [f32_eq (m : ℚ) (e : Int) ((m * 2 ^ k : Nat) : Int) (by omega)
    (by rw [hm_abs, zpow_natCast]; exact_mod_cast h1)
    (by rw [hm_abs, show (e : Int) + 1 = ((e + 1 : Nat) : Int) by push_cast; ring, zpow_natCast]
        exact_mod_cast h2)
    (by rw [hscale]; simp)]
  rw [hz, zpow_neg, zpow_natCast]
  push_cast
  field_simp

/-- A non-negative integer below `2^24` is a binary32 number. -/
theorem f32_intCast (n : Int) (h0 : 0 ≤ n) (hn : n < 16777216) : f32 (n : ℚ) = (n : ℚ) := by
  have h := f32_natCast n.toNat (by omega)
  have e : ((n.toNat : Nat) : ℚ) = (n : ℚ) := by exact_mod_cast Int.toNat_of_nonneg h0
  rw [e] at h
  exact h

/-- The content of every grid cell after one `burn`, for either border mode. -/
theorem burn_cell (fuel : Nat) (srcbuf destbuf : Int → pixel3_t) (W H r : Int) (divider : ℚ)
    (wrap : Bool) (hW : 0 < W) (hH : 0 < H) (hr : 0 ≤ r) (hfuel : 4 * r.toNat + 1 ≤ fuel) :
    ∃ dest, burn fuel srcbuf destbuf W H r divider wrap = some dest ∧
      (∀ x y, 0 ≤ x → x < W → 0 ≤ y → y < H → dest (x + W * y) =
        burn_pixel (destbuf (x + W * y)) (fun c => spec_window_sum srcbuf W H wrap x y r c)
          divider) ∧
      ∀ k, ¬(0 ≤ k ∧ k < H * W) → dest k = destbuf k := by
  refine ⟨_, burn_eq fuel srcbuf destbuf W H r divider wrap
    (fun x y c => spec_window_sum srcbuf W H wrap x y r c) hW hH
    (fun x y h1 h2 h3 h4 => surrounding_sum_spec srcbuf W H x y r h1 h2 h3 h4 hr wrap fuel hfuel),
    ?_, ?_⟩
  · intro x y h1 h2 h3 h4
    have hi := cell_index W x y h1 h2
    rw [if_pos (cell_index_range W H x y h1 h2 h3 h4), hi.1, hi.2]
  · intro k hk
    rw [if_neg hk]

theorem burn_pixel_rgb (old : pixel3_t) (S : Fin 3 → Int) (d : ℚ) (c : Fin 3) :
    (((burn_pixel old S d).rgb c : Nat) : Int) = c_round (f32 (f32 (S c : ℚ) / d)) % 256 := by
  unfold burn_pixel
  exact Int.toNat_of_nonneg (Int.emod_nonneg _ (by norm_num))

/-- One `burn` of a grid whose channel `c` holds a single impulse, with wrap
enabled and a window that fits the grid: every cell holds what the channel
loop makes of the window sum `v` (within toroidal Chebyshev distance `r` of
the impulse) or 0 (elsewhere). -/
theorem burn_impulse_cell (fuel : Nat) (srcbuf destbuf : Int → pixel3_t)
    (W H r x0 y0 : Int) (c : Fin 3) (v : Nat) (d : ℚ) (hr : 0 ≤ r) (hrW : 2 * r + 1 ≤ W)
    (hrH : 2 * r + 1 ≤ H) (hx0 : 0 ≤ x0) (hxW : x0 < W) (hy0 : 0 ≤ y0) (hyH : y0 < H)
    (hsrc : ∀ i j, 0 ≤ i → i < W → 0 ≤ j → j < H →
      (srcbuf (i + W * j)).rgb c = if i = x0 ∧ j = y0 then v else 0)
    (hfuel : 4 * r.toNat + 1 ≤ fuel) :
    ∃ dest, burn fuel srcbuf destbuf W H r d true = some dest ∧
      ∀ x y, 0 ≤ x → x < W → 0 ≤ y → y < H →
        (((dest (x + W * y)).rgb c : Nat) : Int) =
          c_round (f32 (f32 ((if tdist W x x0 ≤ r ∧ tdist H y y0 ≤ r then (v : Int) else 0 : Int)
            : ℚ) / d)) % 256 := by
  obtain ⟨dest, h1, h2, _⟩ := burn_cell fuel srcbuf destbuf W H r d true (by omega) (by omega)
    hr hfuel
  refine ⟨dest, h1, fun x y hx0' hxW' hy0' hyH' => ?_⟩
  rw [h2 x y hx0' hxW' hy0' hyH', burn_pixel_rgb]
  have hS : spec_window_sum srcbuf W H true x y r c =
      (if tdist W x x0 ≤ r ∧ tdist H y y0 ≤ r then (v : Int) else 0) := by
    unfold spec_window_sum
    rw [if_pos rfl, impulse_sum srcbuf W H c x0 y0 v (by omega) (by omega) hsrc,
      hits_eq W r x x0 hx0' hxW' hx0 hxW hr hrW, hits_eq H r y y0 hy0' hyH' hy0 hyH hr hrH]
    by_cases a : tdist W x x0 ≤ r <;> by_cases b : tdist H y y0 ≤ r <;> simp [a, b]
  rw [hS]

/-- C8 as stated fails: on an 8x8 grid with the impulse `v = 1` at `(4,4)`,
radius 1, wrap enabled and the divider `d = 11184811 / 2^24` (the divider of
`main` for radius 1 and `underdampen = 4971027 / 2^26`), the cell `(4,4)`
holds 2 after one `burn`, while `round(v / d) = 1`: the binary32 quotient
`1 / d` is 1.5, the exact quotient is below 1.5. -/
theorem burn_impulse_rounds_up :
    main_divider 1 (4971027 / 67108864) = 11184811 / 16777216 ∧
    ∃ dest, burn 5 (impulse (4 + 8 * 4) 1) (fun _ => ⟨fun _ => 0, 0⟩) 8 8 1
        (11184811 / 16777216) true = some dest ∧
      (((dest (4 + 8 * 4)).rgb 0 : Nat) : Int) = 2 ∧
      c_round (((1 : Nat) : ℚ) / (11184811 / 16777216)) % 256 = 1 := by
  have h3 : f32 ((1 + 2 * 1 : Int) : ℚ) = 3 := by
    have := f32_natCast 3 (by norm_num)
    norm_num at this ⊢
    exact this
  have h9 : f32 (3 * 3) = 9 := by
    have := f32_natCast 9 (by norm_num)
    norm_num at this ⊢
    exact this
  have hd : f32 (9 * (4971027 / 67108864)) = 11184811 / 16777216 := by
    rw [f32_eq _ (-1) 11184811 (by norm_num) (by rw [abs_of_pos (by norm_num)]; norm_num)
      (by rw [abs_of_pos (by norm_num)]; norm_num) (by rw [abs_lt]; norm_num)]
    norm_num
  have h1 : f32 (((1 : Nat) : Int) : ℚ) = 1 := by
    have := f32_natCast 1 (by norm_num)
    norm_num at this ⊢
    exact this
  have hq : f32 (1 / (11184811 / 16777216)) = 3 / 2 := by
    rw [f32_eq _ 0 12582912 (by norm_num) (by rw [abs_of_pos (by norm_num)]; norm_num)
      (by rw [abs_of_pos (by norm_num)]; norm_num) (by rw [abs_lt]; norm_num)]
    norm_num
  have hr2 : c_round (3 / 2) = 2 := by
    unfold c_round
    rw [if_pos (by norm_num), Int.floor_eq_iff]
    norm_num
  have hr1 : c_round (((1 : Nat) : ℚ) / (11184811 / 16777216)) = 1 := by
    unfold c_round
    rw [if_pos (by norm_num), Int.floor_eq_iff]
    norm_num
  obtain ⟨dest, hb, hc⟩ := burn_impulse_cell 5 (impulse (4 + 8 * 4) 1)
    (fun _ => ⟨fun _ => 0, 0⟩) 8 8 1 4 4 0 1 (11184811 / 16777216) (by decide) (by decide)
    (by decide) (by decide) (by decide) (by decide) (by decide)
    (fun i j h1 h2 h3 h4 => by
      unfold impulse
      by_cases h : i = 4 ∧ j = 4
      · rw [if_pos h, if_pos (by omega)]
      · rw [if_neg h, if_neg (by omega)])
    (by decide)
  refine ⟨?_, dest, hb, ?_, ?_⟩
  · unfold main_divider
    simp only
    rw [h3, h9, hd]
  · rw [hc 4 4 (by decide) (by decide) (by decide) (by decide), if_pos (by decide), h1, hq, hr2]
    decide
  · rw [hr1]
    decide

/-- C8, amended: for a grid whose channel `c` is zero except for the value `v`
at the cell `(x0, y0)`, with wrap enabled, a radius `r` with `2r+1 ≤ min(W,H)`
and a divider `d`, one `burn` returns, and afterwards every cell whose
toroidal Chebyshev distance to `(x0, y0)` is at most `r` holds
`round(fl(fl(v) / d)) mod 256` in that channel, where `fl` rounds to the
nearest binary32 number (`fl(v) = v` for `v < 2^24`), and every other cell
holds 0. -/
theorem burn_impulse_response (fuel : Nat) (srcbuf destbuf : Int → pixel3_t)
    (W H r x0 y0 : Int) (c : Fin 3) (v : Nat) (d : ℚ) (hr : 0 ≤ r) (hrW : 2 * r + 1 ≤ W)
    (hrH : 2 * r + 1 ≤ H) (hx0 : 0 ≤ x0) (hxW : x0 < W) (hy0 : 0 ≤ y0) (hyH : y0 < H)
    (hsrc : ∀ i j, 0 ≤ i → i < W → 0 ≤ j → j < H →
      (srcbuf (i + W * j)).rgb c = if i = x0 ∧ j = y0 then v else 0)
    (hfuel : 4 * r.toNat + 1 ≤ fuel) :
    (∃ dest, burn fuel srcbuf destbuf W H r d true = some dest ∧
      ∀ x y, 0 ≤ x → x < W → 0 ≤ y → y < H →
        (dest (x + W * y)).rgb c =
          if tdist W x x0 ≤ r ∧ tdist H y y0 ≤ r then
            (c_round (f32 (f32 (v : ℚ) / d)) % 256).toNat
          else 0) ∧
    (v < 16777216 → f32 (v : ℚ) = (v : ℚ)) := by
  obtain ⟨dest, h1, h2⟩ := burn_impulse_cell fuel srcbuf destbuf W H r x0 y0 c v d hr hrW hrH
    hx0 hxW hy0 hyH hsrc hfuel
  refine ⟨⟨dest, h1, fun x y hx0' hxW' hy0' hyH' => ?_⟩, f32_natCast v⟩
  have h := h2 x y hx0' hxW' hy0' hyH'
  by_cases a : tdist W x x0 ≤ r ∧ tdist H y y0 ≤ r
  · rw [if_pos a] at h ⊢
    rw [show (((v : Nat) : Int) : ℚ) = (v : ℚ) by push_cast; rfl] at h
    omega
  · rw [if_neg a] at h ⊢
    rw [Int.cast_zero, f32_zero, zero_div, f32_zero, c_round_zero] at h
    omega

/-- Witness of C8, the scenario of the specification: grid 8x8, radius 1,
underdampening 1 (divider 9), impulse 128 at `(4,4)`: the cell `(4,4)` and its
neighbours `(3,3)` and `(5,4)` hold `round(fl(128/9)) = 14`, the cells `(4,6)`
and `(0,0)` hold 0. -/
theorem burn_impulse_response_witness :
    main_divider 1 1 = 9 ∧
    ∃ dest, burn 5 (impulse (4 + 8 * 4) 128) (fun _ => ⟨fun _ => 0, 0⟩) 8 8 1 9 true = some dest ∧
      (dest (4 + 8 * 4)).rgb 0 = 14 ∧ (dest (3 + 8 * 3)).rgb 0 = 14 ∧
      (dest (5 + 8 * 4)).rgb 0 = 14 ∧ (dest (4 + 8 * 6)).rgb 0 = 0 ∧
      (dest (0 + 8 * 0)).rgb 0 = 0 := by
  obtain ⟨⟨dest, h1, h2⟩, _⟩ := burn_impulse_response 5 (impulse (4 + 8 * 4) 128)
    (fun _ => ⟨fun _ => 0, 0⟩) 8 8 1 4 4 0 128 9 (by decide) (by decide) (by decide) (by decide)
    (by decide) (by decide) (by decide)
    (fun i j h1 h2 h3 h4 => by
      unfold impulse
      by_cases h : i = 4 ∧ j = 4
      · rw [if_pos h, if_pos (by omega)]
      · rw [if_neg h, if_neg (by omega)])
    (by decide)
  have h128 : f32 ((128 : Nat) : ℚ) = 128 := by
    have := f32_natCast 128 (by norm_num)
    norm_num at this ⊢
    exact this
  have hq : f32 (128 / 9) = 14913081 / 1048576 := by
    rw [f32_eq _ 3 14913081 (by norm_num) (by rw [abs_of_pos (by norm_num)]; norm_num)
      (by rw [abs_of_pos (by norm_num)]; norm_num) (by rw [abs_lt]; norm_num)]
    norm_num
  have e : (c_round (f32 (f32 ((128 : Nat) : ℚ) / 9)) % 256).toNat = 14 := by
    have : c_round (14913081 / 1048576) = 14 := by
      unfold c_round
      rw [if_pos (by norm_num), Int.floor_eq_iff]
      norm_num
    rw [h128, hq, this]; decide
  have h3 : f32 ((1 + 2 * 1 : Int) : ℚ) = 3 := by
    have := f32_natCast 3 (by norm_num)
    norm_num at this ⊢
    exact this
  have h9 : f32 (3 * 3) = 9 := by
    have := f32_natCast 9 (by norm_num)
    norm_num at this ⊢
    exact this
  have h91 : f32 (9 * 1) = 9 := by
    rw [mul_one]
    have := f32_natCast 9 (by norm_num)
    norm_num at this ⊢
    exact this
  refine ⟨by unfold main_divider; simp only; rw [h3, h9, h91], dest, h1, ?_, ?_, ?_, ?_, ?_⟩
  · rw [h2 4 4 (by decide) (by decide) (by decide) (by decide), if_pos (by decide), e]
  · rw [h2 3 3 (by decide) (by decide) (by decide) (by decide), if_pos (by decide), e]
  · rw [h2 5 4 (by decide) (by decide) (by decide) (by decide), if_pos (by decide), e]
  · rw [h2 4 6 (by decide) (by decide) (by decide) (by decide), if_neg (by decide)]
  · rw [h2 0 0 (by decide) (by decide) (by decide) (by decide), if_neg (by decide)]

set_option maxRecDepth 100000 in
theorem render_channel_table : ∀ v, v < 256 →
    (render_channel v = (if v < 128 then 2 * v else 2 * (255 - v)) ∧ render_channel v < 256 ∧
      render_channel ((v + 256) % 256) = render_channel v) := by
  decide

/-- C6: for every byte `v` in `[0, 255]` the display value that `render` of the
spatial engine computes for a channel holding `v` is `2*v` when `v < 128` and
`2*(255 - v)` when `v ≥ 128`, an 8-bit value; so it is 0 for `v = 0` and for
`v = 255`, and it is unchanged when `v` is replaced by `(v + 256) mod 256`. -/
theorem render_fold_mapping (p : pixel3_t) (c : Fin 3) (v : Nat) (hv : v < 256)
    (hp : p.rgb c = v) :
    (render_pixel p).rgb c = (if v < 128 then 2 * v else 2 * (255 - v)) ∧
    (render_pixel p).rgb c < 256 ∧
    render_channel 0 = 0 ∧ render_channel 255 = 0 ∧
    render_channel ((v + 256) % 256) = render_channel v := by
  have h := render_channel_table v hv
  refine ⟨?_, ?_, by decide, by decide, h.2.2⟩
  · show render_channel (p.rgb c) = _
    rw [hp]; exact h.1
  · show render_channel (p.rgb c) < 256
    rw [hp]; exact h.2.1

/-- Witness of C6 at the byte 200 in the first channel: the display value is
`2 * (255 - 200) = 110`. -/
theorem render_fold_mapping_witness :
    (render_pixel ⟨fun _ => 200, 0⟩).rgb 0 = 110 :=
  (render_fold_mapping ⟨fun _ => 200, 0⟩ 0 200 (by decide) rfl).1

/-- The window sum of a grid of bytes is at most `255 * (2r+1)^2`: for
`r ≤ 1450` it stays below `2^31`, the range of the `int` accumulators of
`rectangle_sum`. -/
theorem spec_window_sum_bound (pixbuf : Int → pixel3_t) (W H : Int) (wrap : Bool) (x y r : Int)
    (c : Fin 3) (hr : 0 ≤ r) (hbyte : ∀ k, (pixbuf k).rgb c ≤ 255) :
    0 ≤ spec_window_sum pixbuf W H wrap x y r c ∧
      spec_window_sum pixbuf W H wrap x y r c ≤ 255 * (2 * r + 1) ^ 2 := by
  have hcard : ∀ a b : Int, b - a ≤ 2 * r → ((Finset.Icc a b).card : Int) ≤ 2 * r + 1 := by
    intro a b h
    rw [Int.card_Icc]
    omega
  have hb : ∀ k, ((pixbuf k).rgb c : Int) ≤ 255 := fun k => by exact_mod_cast hbyte k
  have h2 : ∀ (s t : Finset Int) (f : Int → Int → Int), ((s.card : Int) ≤ 2 * r + 1) →
      ((t.card : Int) ≤ 2 * r + 1) →
      (0 ≤ ∑ i ∈ s, ∑ j ∈ t, ((pixbuf (f i j)).rgb c : Int)) ∧
      (∑ i ∈ s, ∑ j ∈ t, ((pixbuf (f i j)).rgb c : Int)) ≤ 255 * (2 * r + 1) ^ 2 := by
    intro s t f hs ht
    constructor
    · exact Finset.sum_nonneg fun i _ => Finset.sum_nonneg fun j _ => Int.natCast_nonneg _
    · have h1 : ∀ i ∈ s, ∑ j ∈ t, ((pixbuf (f i j)).rgb c : Int) ≤ 255 * (2 * r + 1) := by
        intro i _
        calc ∑ j ∈ t, ((pixbuf (f i j)).rgb c : Int) ≤ ∑ _j ∈ t, (255 : Int) :=
              Finset.sum_le_sum fun j _ => hb _
          _ = (t.card : Int) * 255 := by rw [Finset.sum_const, nsmul_eq_mul]
          _ ≤ 255 * (2 * r + 1) := by nlinarith
      calc ∑ i ∈ s, ∑ j ∈ t, ((pixbuf (f i j)).rgb c : Int)
          ≤ ∑ _i ∈ s, (255 * (2 * r + 1) : Int) := Finset.sum_le_sum h1
        _ = (s.card : Int) * (255 * (2 * r + 1)) := by rw [Finset.sum_const, nsmul_eq_mul]
        _ ≤ 255 * (2 * r + 1) ^ 2 := by nlinarith
  unfold spec_window_sum
  cases wrap with
  | true =>
    rw [if_pos rfl]
    exact h2 _ _ (fun dx dy => (x + dx) % W + W * ((y + dy) % H)) (hcard _ _ (by omega))
      (hcard _ _ (by omega))
  | false =>
    rw [if_neg (by decide)]
    exact h2 _ _ (fun i j => i + W * j)
      (hcard _ _ (by have := le_max_right 0 (x - r); have := min_le_right (W - 1) (x + r); omega))
      (hcard _ _ (by have := le_max_right 0 (y - r); have := min_le_right (H - 1) (y + r); omega))

/-- C15 (the defect): seeding the red value 128 twice into cell `(0, 0)` of an
empty 3x3 grid, as the seeding loop of `main` does when two random positions
coincide, leaves red at 0 and green at 1: the overflow of the red byte is
carried into the green byte by the 32-bit addition, where independent
channels would leave green at 0. -/
theorem seed_carries_between_channels :
    (seed main_empty_grid 3 3 0 0 (main_seed_val 0) false false (0 + 0 * 3)).rgb 0 = 128 ∧
    (seed main_empty_grid 3 3 0 0 (main_seed_val 0) false false (0 + 0 * 3)).rgb 1 = 0 ∧
    (seed (seed main_empty_grid 3 3 0 0 (main_seed_val 0) false false) 3 3 0 0 (main_seed_val 0)
      false false (0 + 0 * 3)).rgb 0 = 0 ∧
    (seed (seed main_empty_grid 3 3 0 0 (main_seed_val 0) false false) 3 3 0 0 (main_seed_val 0)
      false false (0 + 0 * 3)).rgb 1 = 1 ∧
    (seed (seed main_empty_grid 3 3 0 0 (main_seed_val 0) false false) 3 3 0 0 (main_seed_val 0)
      false false (0 + 0 * 3)).rgb 1 ≠ (0 + (main_seed_val 0).rgb 1) % 256 := by
  decide

/-- Where no byte overflows, the 32-bit addition of `seed` adds channel by
channel. -/
theorem add_v_without_overflow (p val : pixel3_t) (h : ∀ i, p.rgb i + val.rgb i < 256)
    (i : Fin 3) : (add_v p val).rgb i = p.rgb i + val.rgb i := by
  have h0 := h 0
  have h1 := h 1
  have h2 := h 2
  unfold add_v pixel_of_v pixel_v
  fin_cases i <;> simp only [Fin.zero_eta, Fin.mk_one, Fin.reduceFinMk, Fin.val_zero, Fin.val_one,
    Fin.val_two, pow_zero, pow_one, Nat.div_one] <;> omega

/-- The rounded value is within 1/2 of the number. -/
theorem round_even_nearest (q : ℚ) : |(round_even q : ℚ) - q| ≤ 1 / 2 := by
  have h1 := Int.floor_le q
  have h2 := Int.lt_floor_add_one q
  unfold round_even
  rw [abs_le]
  split_ifs with c1 c2 c3
  · constructor <;> linarith
  · push_cast
    constructor <;> linarith
  · constructor <;> linarith
  · push_cast
    constructor <;> linarith

/-- Rounding does not pass an integer bound. -/
theorem round_even_abs_le (q : ℚ) (N : Int) (h : |q| ≤ (N : ℚ)) : |round_even q| ≤ N := by
  have hn := round_even_nearest q
  have h3 : |(round_even q : ℚ)| ≤ (N : ℚ) + 1 / 2 := by
    have := abs_sub_abs_le_abs_sub (round_even q : ℚ) q
    linarith
  have h4 : ((|round_even q| : Int) : ℚ) < (N : ℚ) + 1 := by
    rw [Int.cast_abs]
    linarith
  have h5 : |round_even q| < N + 1 := by exact_mod_cast h4
  omega

/-- Rounding does not fall below an integer bound. -/
theorem round_even_abs_ge (q : ℚ) (N : Int) (h : (N : ℚ) ≤ |q|) : N ≤ |round_even q| := by
  have hn := round_even_nearest q
  have h3 : (N : ℚ) - 1 / 2 ≤ |(round_even q : ℚ)| := by
    have := abs_sub_abs_le_abs_sub q (round_even q : ℚ)
    rw [abs_sub_comm] at this
    linarith
  have h4 : (N : ℚ) - 1 < ((|round_even q| : Int) : ℚ) := by
    rw [Int.cast_abs]
    linarith
  have h5 : N - 1 < |round_even q| := by exact_mod_cast h4
  omega

/-- Rounding to binary32 does not pass a power of two. -/
theorem f32_abs_le (q : ℚ) (k : Int) (hk : -126 ≤ k) (h : |q| ≤ (2 : ℚ) ^ k) :
    |f32 q| ≤ (2 : ℚ) ^ k := by
  by_cases hq : q = 0
  · rw [hq, f32_zero, abs_zero]
    positivity
  have hpos : (0 : ℚ) < |q| := abs_pos.mpr hq
  have hL : Int.log 2 |q| < k + 1 :=
    (Int.lt_zpow_iff_log_lt (by norm_num) hpos).mp (by
      push_cast
      exact lt_of_le_of_lt h (zpow_lt_zpow_right₀ (by norm_num) (by omega)))
  obtain ⟨e, he⟩ : ∃ e, e = max (Int.log 2 |q|) (-126) := ⟨_, rfl⟩
  have hek : e ≤ k := by
    rw [he]
    exact max_le (by omega) hk
  obtain ⟨j, hj⟩ : ∃ j : Nat, (j : Int) = k - e + 23 := ⟨(k - e + 23).toNat, by omega⟩
  have hu : (0 : ℚ) < (2 : ℚ) ^ (e - 23) := by positivity
  have hN : (((2 ^ j : Nat) : Int) : ℚ) * (2 : ℚ) ^ (e - 23) = (2 : ℚ) ^ k := by
    push_cast
    rw [← zpow_natCast, hj, ← zpow_add₀ (by norm_num)]
    congr 1
    ring
  have hx : |q / (2 : ℚ) ^ (e - 23)| ≤ (((2 ^ j : Nat) : Int) : ℚ) := by
    rw [abs_div, abs_of_pos hu, div_le_iff₀ hu, hN]
    exact h
  have hn := round_even_abs_le _ _ hx
  have hnq : |(round_even (q / (2 : ℚ) ^ (e - 23)) : ℚ)| ≤ (((2 ^ j : Nat) : Int) : ℚ) := by
    rw [← Int.cast_abs]
    exact_mod_cast hn
  unfold f32
  rw [if_neg hq]
  simp only
  rw [← he, abs_mul, abs_of_pos hu, ← hN]
  exact mul_le_mul_of_nonneg_right hnq hu.le

/-- Rounding to binary32 does not fall below a power of two of the normal
range. -/
theorem f32_abs_ge (q : ℚ) (k : Int) (hk : -126 ≤ k) (h : (2 : ℚ) ^ k ≤ |q|) :
    (2 : ℚ) ^ k ≤ |f32 q| := by
  have hpos : (0 : ℚ) < |q| := lt_of_lt_of_le (by positivity) h
  have hq : q ≠ 0 := abs_pos.mp hpos
  have hL : k ≤ Int.log 2 |q| :=
    (Int.zpow_le_iff_le_log (by norm_num) hpos).mp (by exact_mod_cast h)
  obtain ⟨e, he⟩ : ∃ e, e = Int.log 2 |q| := ⟨_, rfl⟩
  have hmax : max (Int.log 2 |q|) (-126) = e := by
    rw [he]
    exact max_eq_left (by omega)
  have h2e : (2 : ℚ) ^ e ≤ |q| := by
    have := Int.zpow_log_le_self (b := 2) (by norm_num) hpos
    rw [he]
    exact_mod_cast this
  have hu : (0 : ℚ) < (2 : ℚ) ^ (e - 23) := by positivity
  have h23 : (((2 ^ 23 : Nat) : Int) : ℚ) = (2 : ℚ) ^ (23 : Int) := by norm_num
  have hN : (((2 ^ 23 : Nat) : Int) : ℚ) * (2 : ℚ) ^ (e - 23) = (2 : ℚ) ^ e := by
    rw [h23, ← zpow_add₀ (by norm_num)]
    congr 1
    ring
  have hx : (((2 ^ 23 : Nat) : Int) : ℚ) ≤ |q / (2 : ℚ) ^ (e - 23)| := by
    rw [abs_div, abs_of_pos hu, le_div_iff₀ hu, hN]
    exact h2e
  have hn := round_even_abs_ge _ _ hx
  have hnq : (((2 ^ 23 : Nat) : Int) : ℚ) ≤ |(round_even (q / (2 : ℚ) ^ (e - 23)) : ℚ)| := by
    rw [← Int.cast_abs]
    exact_mod_cast hn
  unfold f32
  rw [if_neg hq]
  simp only
  rw [hmax, abs_mul, abs_of_pos hu]
  calc (2 : ℚ) ^ k ≤ (2 : ℚ) ^ e := zpow_le_zpow_right₀ (by norm_num) (by omega)
    _ = (((2 ^ 23 : Nat) : Int) : ℚ) * (2 : ℚ) ^ (e - 23) := hN.symm
    _ ≤ _ := mul_le_mul_of_nonneg_right hnq hu.le

/-- With a radius that passed the startup clamp (`r <= 10000`) and an
underdampening factor that passed the startup check, the divider of `main`
is not 0 and the rounded binary32 quotient of `burn` is at most `2^19` in
absolute value: no operation overflows and the conversion `(int)` is
defined. -/
theorem burn_quotient_in_range (S r : Int) (u : ℚ) (hr : 0 ≤ r) (hr2 : r ≤ 10000)
    (hS0 : 0 ≤ S) (hS : S ≤ 255 * (2 * r + 1) ^ 2) (hu : minuscule ≤ |u|) :
    main_divider r u ≠ 0 ∧ |c_round (f32 (f32 (S : ℚ) / main_divider r u))| ≤ 524288 := by
  obtain ⟨M, hM⟩ : ∃ M : Nat, (M : Int) = (1 + 2 * r) * (1 + 2 * r) :=
    ⟨((1 + 2 * r) * (1 + 2 * r)).toNat, Int.toNat_of_nonneg (by nlinarith)⟩
  have hM1 : 1 ≤ M := by
    have : (1 : Int) ≤ (M : Int) := by rw [hM]; nlinarith
    exact_mod_cast this
  obtain ⟨k, hk⟩ : ∃ k, k = Nat.log 2 M := ⟨_, rfl⟩
  have hk1 : 2 ^ k ≤ M := hk ▸ Nat.pow_log_le_self 2 (by omega)
  have hk2 : M < 2 ^ (k + 1) := hk ▸ Nat.lt_pow_succ_log_self (by norm_num) M
  have hMq : ((1 + 2 * r : Int) : ℚ) * ((1 + 2 * r : Int) : ℚ) = (M : ℚ) := by
    rw [← Int.cast_mul, ← hM]
    norm_cast
  have h1 : f32 ((1 + 2 * r : Int) : ℚ) = ((1 + 2 * r : Int) : ℚ) :=
    f32_intCast _ (by omega) (by omega)
  have hd2 : (2 : ℚ) ^ (k : Int) ≤ |f32 (M : ℚ)| := by
    refine f32_abs_ge _ _ (by omega) ?_
    rw [abs_of_nonneg (by positivity), zpow_natCast]
    exact_mod_cast hk1
  have hmin : (2 : ℚ) ^ (-10 : Int) ≤ |u| := by
    refine le_trans ?_ hu
    unfold minuscule
    norm_num
  have hd3 : (2 : ℚ) ^ ((k : Int) - 10) ≤ |f32 (f32 (M : ℚ) * u)| := by
    refine f32_abs_ge _ _ (by omega) ?_
    rw [abs_mul, show (k : Int) - 10 = (k : Int) + (-10) by ring, zpow_add₀ (by norm_num)]
    exact mul_le_mul hd2 hmin (by positivity) (abs_nonneg _)
  have hdiv : main_divider r u = f32 (f32 (M : ℚ) * u) := by
    unfold main_divider
    simp only
    rw [h1, hMq]
  have hpos3 : (0 : ℚ) < |f32 (f32 (M : ℚ) * u)| := lt_of_lt_of_le (by positivity) hd3
  have hS2 : |f32 (S : ℚ)| ≤ (2 : ℚ) ^ ((k : Int) + 9) := by
    refine f32_abs_le _ _ (by omega) ?_
    rw [abs_of_nonneg (by exact_mod_cast hS0), show (k : Int) + 9 = ((k + 1 : Nat) : Int) + 8 by
      push_cast; ring, zpow_add₀ (by norm_num), zpow_natCast]
    have a1 : (S : ℚ) ≤ 255 * (M : ℚ) := by
      have : S ≤ 255 * (M : Int) := by rw [hM]; nlinarith
      exact_mod_cast this
    have a2 : (M : ℚ) ≤ (2 : ℚ) ^ (k + 1) := by exact_mod_cast hk2.le
    have a3 : (0 : ℚ) ≤ (M : ℚ) := by positivity
    norm_num
    linarith
  have hQ : |f32 (S : ℚ) / f32 (f32 (M : ℚ) * u)| ≤ (2 : ℚ) ^ (19 : Int) := by
    rw [abs_div, div_le_iff₀ hpos3]
    calc |f32 (S : ℚ)| ≤ (2 : ℚ) ^ ((k : Int) + 9) := hS2
      _ = (2 : ℚ) ^ (19 : Int) * (2 : ℚ) ^ ((k : Int) - 10) := by
        rw [← zpow_add₀ (by norm_num)]
        congr 1
        ring
      _ ≤ _ := mul_le_mul_of_nonneg_left hd3 (by positivity)
  have hfQ := f32_abs_le _ 19 (by norm_num) hQ
  refine ⟨by rw [hdiv]; exact abs_pos.mp hpos3, ?_⟩
  rw [hdiv]
  have hn := (c_round_nearest (f32 (f32 (S : ℚ) / f32 (f32 (M : ℚ) * u)))).1
  have h3 : |(c_round (f32 (f32 (S : ℚ) / f32 (f32 (M : ℚ) * u))) : ℚ)| ≤ 524288 + 1 / 2 := by
    have := abs_sub_abs_le_abs_sub
      (c_round (f32 (f32 (S : ℚ) / f32 (f32 (M : ℚ) * u))) : ℚ)
      (f32 (f32 (S : ℚ) / f32 (f32 (M : ℚ) * u)))
    norm_num at hfQ
    linarith
  have h5 : ((|c_round (f32 (f32 (S : ℚ) / f32 (f32 (M : ℚ) * u)))| : Int) : ℚ) < 524289 := by
    rw [Int.cast_abs]; linarith
  have h6 : |c_round (f32 (f32 (S : ℚ) / f32 (f32 (M : ℚ) * u)))| < 524289 := by
    exact_mod_cast h5
  omega

end Burnscope3

namespace BurnscopeFft

theorem skip_loop_plain {σ : Type} (n ov : Int) (body : Int → σ → Option σ) (f : Int → σ → σ)
    (hb : ∀ j s, 0 ≤ j → j < n → body j s = some (f j s)) :
    ∀ (k fuel : Nat) (i : Int) (s : σ), 0 ≤ i → (∀ j, i ≤ j → j < i + k → j < n ∧ j ≠ ov) →
      skip_loop n ov body (k + fuel) i s = skip_loop n ov body fuel (i + k) (seg f k i s) := by
  intro k
  induction k with
  | zero => intro fuel i s _ _; simp [seg]
  | succ k ih =>
    intro fuel i s h0 h
    have hi := h i (le_refl _) (by push_cast; omega)
    rw [show k + 1 + fuel = (k + fuel) + 1 by omega, skip_loop, if_pos hi.1, hb i s h0 hi.1,
      Option.some_bind]
    simp only [if_neg hi.2]
    rw [ih fuel (i + 1) _ (by omega) (fun j h1 h2 => h j (by omega) (by push_cast; omega)), seg]
    congr 1
    push_cast; ring

theorem skip_loop_done {σ : Type} (n ov : Int) (body : Int → σ → Option σ) (fuel : Nat) (i : Int)
    (s : σ) (hi : n ≤ i) : skip_loop n ov body (fuel + 1) i s = some s := by
  rw [skip_loop, if_neg (by omega)]

theorem seg_add {σ : Type} (f : Int → σ → σ) :
    ∀ (k1 k2 : Nat) (a : Int) (s : σ),
      seg f (k1 + k2) a s = seg f k2 (a + k1) (seg f k1 a s) := by
  intro k1
  induction k1 with
  | zero => intro k2 a s; simp [seg]
  | succ k1 ih =>
    intro k2 a s
    rw [show k1 + 1 + k2 = (k1 + k2) + 1 by omega, seg, ih, seg]
    congr 1
    push_cast; ring

/-- A loop of `make_apex` whose skip does not reach back returns after
`2 * overwrite_r + 1` iterations: the indices `0 .. overwrite_r`, then
`n - overwrite_r .. n - 1`. -/
theorem skip_loop_returns {σ : Type} (n ov : Int) (body : Int → σ → Option σ) (f : Int → σ → σ)
    (hb : ∀ j s, 0 ≤ j → j < n → body j s = some (f j s)) (h0 : 0 ≤ ov) (h2 : 2 * ov < n)
    (fuel : Nat) (hfuel : 2 * ov.toNat + 2 ≤ fuel) (s : σ) :
    skip_loop n ov body fuel 0 s =
      some (seg f ov.toNat (n - ov) (seg f (ov.toNat + 1) 0 s)) := by
  obtain ⟨m, hm⟩ : ∃ m : Nat, (m : Int) = ov := ⟨ov.toNat, Int.toNat_of_nonneg h0⟩
  have hmt : ov.toNat = m := by omega
  rw [hmt]
  obtain ⟨g, rfl⟩ : ∃ g, fuel = m + (1 + (m + (g + 1))) := ⟨fuel - (2 * m + 2), by omega⟩
  rw [skip_loop_plain n ov body f hb m _ 0 s (le_refl _) (fun j h1 h2 => by omega)]
  rw [show 1 + (m + (g + 1)) = (m + (g + 1)) + 1 by omega, skip_loop, if_pos (by omega),
    hb _ _ (by omega) (by omega), Option.some_bind]
  simp only [zero_add, hm, if_true]
  rw [show n - ov - 1 + 1 = n - ov by ring,
    skip_loop_plain n ov body f hb m _ (n - ov) _ (by omega) (fun j h1 h2 => by omega),
    skip_loop_done n ov body g _ _ (by omega), seg_add f m 1 0 s, zero_add, hm]
  rfl

/-- A loop of `make_apex` whose skip lands on `overwrite_r` again never
returns, whatever its body does. -/
theorem skip_loop_hangs {σ : Type} (n ov : Int) (body : Int → σ → Option σ)
    (h2 : 2 * ov = n) (hn : 0 < n) :
    ∀ (fuel : Nat) (i : Int) (s : σ), 0 ≤ i → i ≤ ov → skip_loop n ov body fuel i s = none := by
  intro fuel
  induction fuel with
  | zero => intro i s _ _; rfl
  | succ fuel ih =>
    intro i s hi0 hi
    rw [skip_loop, if_pos (by omega)]
    cases hb : body i s with
    | none => rfl
    | some s' =>
      rw [Option.some_bind]
      by_cases h : i = ov
      · simp only [if_pos h]
        exact ih _ _ (by omega) (by omega)
      · simp only [if_neg h]
        exact ih _ _ (by omega) (by omega)

/-- More fuel, and a body that returns at least where the old one did, do not
change a result of `skip_loop`. -/
theorem skip_loop_mono {σ : Type} (n ov : Int) (b b' : Int → σ → Option σ)
    (hb : ∀ j s r, b j s = some r → b' j s = some r) :
    ∀ (fuel : Nat) (i : Int) (s r : σ), skip_loop n ov b fuel i s = some r →
      ∀ fuel', fuel ≤ fuel' → skip_loop n ov b' fuel' i s = some r := by
  intro fuel
  induction fuel with
  | zero => intro i s r h; simp [skip_loop] at h
  | succ fuel ih =>
    intro i s r h fuel' hf
    obtain ⟨g, rfl⟩ : ∃ g, fuel' = g + 1 := ⟨fuel' - 1, by omega⟩
    rw [skip_loop] at h ⊢
    by_cases hi : i < n
    · rw [if_pos hi] at h ⊢
      cases hbi : b i s with
      | none => rw [hbi] at h; simp at h
      | some s' =>
        rw [hbi, Option.some_bind] at h
        rw [hb i s s' hbi, Option.some_bind]
        exact ih _ _ _ h g (by omega)
    · rw [if_neg hi] at h ⊢
      exact h

theorem sum_Ico_consec (f : Int → ℚ) {a b c : Int} (hab : a ≤ b) (hbc : b ≤ c) :
    ∑ i ∈ Finset.Ico a c, f i = ∑ i ∈ Finset.Ico a b, f i + ∑ i ∈ Finset.Ico b c, f i := by
  rw [← Finset.Ico_union_Ico_eq_Ico hab hbc,
    Finset.sum_union (Finset.Ico_disjoint_Ico_consecutive a b c)]

theorem sum_Ico_one (f : Int → ℚ) (a : Int) : ∑ i ∈ Finset.Ico a (a + 1), f i = f a := by
  have hs : Finset.Ico a (a + 1) = {a} := by
    ext k
    simp only [Finset.mem_Ico, Finset.mem_singleton]
    omega
  rw [hs, Finset.sum_singleton]

/-- Outside the Chebyshev window of radius `apex_r_i` the unscaled weight is 0
for every shape option. -/
theorem apex_cell_outside (W H : Int) (r2 : ℚ) (ri opt x y : Int)
    (h : ri < xx_of W x ∨ ri < xx_of H y) : apex_cell W H r2 ri opt x y = 0 := by
  have hb : apex_base W H r2 ri x y = 0 := by
    unfold xx_of at h
    unfold apex_base
    simp only [gt_iff_lt]
    rw [if_pos h]
  unfold apex_cell
  simp only [hb]
  split_ifs <;> simp

theorem flat_index (W x y : Int) (hx0 : 0 ≤ x) (hxW : x < W) :
    (x + y * W) % W = x ∧ (x + y * W) / W = y := by
  constructor
  · rw [Int.add_mul_emod_self, Int.emod_eq_of_lt hx0 hxW]
  · rw [Int.add_mul_ediv_right _ _ (by omega), Int.ediv_eq_zero_of_lt hx0 hxW, zero_add]

/-- The plain iterations `a .. a+k-1` of the inner loop of `make_apex` in
column `x`. -/
theorem seg_store (W H : Int) (r2 : ℚ) (ri opt x : Int) (hx0 : 0 ≤ x) (hxW : x < W) :
    ∀ (k : Nat) (a : Int) (s : ℚ × (Int → ℚ)),
      seg (fun y s => (s.1 + apex_cell W H r2 ri opt x y,
          Function.update s.2 (x + y * W) (apex_cell W H r2 ri opt x y))) k a s =
        (s.1 + ∑ j ∈ Finset.Ico a (a + k), apex_cell W H r2 ri opt x j,
          fun idx => if idx % W = x ∧ a ≤ idx / W ∧ idx / W < a + k then
            apex_cell W H r2 ri opt x (idx / W) else s.2 idx) := by
  intro k
  induction k with
  | zero =>
    intro a s
    rw [seg]
    refine Prod.ext ?_ ?_
    · simp
    · funext idx
      simp only
      rw [if_neg (by push_cast; omega)]
  | succ k ih =>
    intro a s
    rw [seg, ih]
    refine Prod.ext ?_ ?_
    · simp only
      rw [sum_Ico_consec _ (a := a) (b := a + 1) (c := a + ((k + 1 : Nat) : Int)) (by omega)
        (by push_cast; omega), sum_Ico_one,
        show a + 1 + (k : Int) = a + ((k + 1 : Nat) : Int) by push_cast; ring]
      ring
    · funext idx
      simp only
      have hf := flat_index W x a hx0 hxW
      by_cases hidx : idx = x + a * W
      · subst hidx
        rw [hf.1, hf.2, if_neg (by omega), if_pos (by push_cast; omega), Function.update_same]
      · have hne : ¬(idx % W = x ∧ idx / W = a) := by
          intro h
          apply hidx
          have := Int.emod_add_ediv idx W
          rw [h.1, h.2] at this
          linarith
        rw [Function.update_noteq hidx]
        by_cases c : idx % W = x ∧ a + 1 ≤ idx / W ∧ idx / W < a + 1 + k
        · rw [if_pos c, if_pos (by push_cast; omega)]
        · rw [if_neg c, if_neg (by push_cast; omega)]

theorem xx_of_unvisited (n ov q : Int) (h0 : 0 ≤ q) (hn : q < n) (h : ¬ vis n ov q) :
    ov < xx_of n q := by
  unfold vis at h
  unfold xx_of
  split_ifs <;> omega

/-- The inner loop of `make_apex` in column `x`: it returns, `apex_sum` grows
by the weights of the whole column, and the visited rows of the column hold
their weight. -/
theorem column_loop (W H : Int) (r2 : ℚ) (ri opt ov x : Int) (hx0 : 0 ≤ x) (hxW : x < W)
    (h0 : 0 ≤ ov) (h2 : 2 * ov < H) (hri : ri ≤ ov) (fuel : Nat)
    (hfuel : 2 * ov.toNat + 2 ≤ fuel) (s : ℚ × (Int → ℚ)) :
    skip_loop H ov (apex_store W H r2 ri opt x) fuel 0 s =
      some (s.1 + ∑ j ∈ Finset.Ico 0 H, apex_cell W H r2 ri opt x j,
        fun idx => if idx % W = x ∧ vis H ov (idx / W) then
          apex_cell W H r2 ri opt x (idx / W) else s.2 idx) := by
  rw [skip_loop_returns H ov (apex_store W H r2 ri opt x)
    (fun y s => (s.1 + apex_cell W H r2 ri opt x y,
      Function.update s.2 (x + y * W) (apex_cell W H r2 ri opt x y)))
    (fun j s _ _ => rfl) h0 h2 fuel hfuel s,
    seg_store W H r2 ri opt x hx0 hxW, seg_store W H r2 ri opt x hx0 hxW]
  have hm : ((ov.toNat : Nat) : Int) = ov := Int.toNat_of_nonneg h0
  congr 1
  refine Prod.ext ?_ ?_
  · simp only
    push_cast
    rw [hm, zero_add, show H - ov + ov = H by ring,
      sum_Ico_consec (fun j => apex_cell W H r2 ri opt x j) (a := 0) (b := ov + 1) (c := H)
        (by omega) (by omega),
      sum_Ico_consec (fun j => apex_cell W H r2 ri opt x j) (a := ov + 1) (b := H - ov) (c := H)
        (by omega) (by omega)]
    have hz : ∑ j ∈ Finset.Ico (ov + 1) (H - ov), apex_cell W H r2 ri opt x j = 0 := by
      refine Finset.sum_eq_zero fun j hj => ?_
      rw [Finset.mem_Ico] at hj
      refine apex_cell_outside W H r2 ri opt x j (Or.inr ?_)
      unfold xx_of
      split_ifs <;> omega
    rw [hz]; ring
  · funext idx
    simp only
    push_cast
    rw [hm]
    unfold vis
    by_cases c1 : idx % W = x
    · by_cases c2 : H - ov ≤ idx / W ∧ idx / W < H
      · rw [if_pos ⟨c1, by omega⟩, if_pos ⟨c1, by omega⟩]
      · rw [if_neg (by omega)]
        by_cases c3 : 0 ≤ idx / W ∧ idx / W ≤ ov
        · rw [if_pos ⟨c1, by omega⟩, if_pos ⟨c1, by omega⟩]
        · rw [if_neg (by omega), if_neg (by omega)]
    · rw [if_neg (fun h => c1 h.1), if_neg (fun h => c1 h.1), if_neg (fun h => c1 h.1)]

/-- The iterations `a .. a+k-1` of the outer loop of `make_apex`, every
iteration being a whole inner loop. -/
theorem seg_columns (W H : Int) (r2 : ℚ) (ri opt ov : Int) :
    ∀ (k : Nat) (a : Int) (s : ℚ × (Int → ℚ)),
      seg (fun x (s : ℚ × (Int → ℚ)) =>
          (s.1 + ∑ j ∈ Finset.Ico 0 H, apex_cell W H r2 ri opt x j,
            fun idx => if idx % W = x ∧ vis H ov (idx / W) then
              apex_cell W H r2 ri opt x (idx / W) else s.2 idx)) k a s =
        (s.1 + ∑ i ∈ Finset.Ico a (a + k), ∑ j ∈ Finset.Ico 0 H, apex_cell W H r2 ri opt i j,
          fun idx => if (a ≤ idx % W ∧ idx % W < a + k) ∧ vis H ov (idx / W) then
            apex_cell W H r2 ri opt (idx % W) (idx / W) else s.2 idx) := by
  intro k
  induction k with
  | zero =>
    intro a s
    rw [seg]
    refine Prod.ext ?_ ?_
    · simp
    · funext idx
      simp only
      rw [if_neg (by push_cast; omega)]
  | succ k ih =>
    intro a s
    rw [seg, ih]
    refine Prod.ext ?_ ?_
    · simp only
      rw [sum_Ico_consec _ (a := a) (b := a + 1) (c := a + ((k + 1 : Nat) : Int)) (by omega)
        (by push_cast; omega), sum_Ico_one,
        show a + 1 + (k : Int) = a + ((k + 1 : Nat) : Int) by push_cast; ring]
      ring
    · funext idx
      simp only
      by_cases c : vis H ov (idx / W)
      · by_cases c1 : a + 1 ≤ idx % W ∧ idx % W < a + 1 + k
        · rw [if_pos ⟨c1, c⟩, if_pos ⟨by push_cast; omega, c⟩]
        · rw [if_neg (fun h => c1 h.1)]
          by_cases c2 : idx % W = a
          · rw [if_pos ⟨c2, c⟩, if_pos ⟨by push_cast; omega, c⟩, c2]
          · rw [if_neg (fun h => c2 h.1), if_neg (fun h => by
              have := h.1
              push_cast at this
              omega)]
      · rw [if_neg (fun h => c h.2), if_neg (fun h => c h.2), if_neg (fun h => c h.2)]

/-- The two nested loops of `make_apex`: they return, `apex_sum` is the sum of
the unscaled weights of all cells, and the visited cells hold their weight. -/
theorem grid_loop (W H : Int) (r2 : ℚ) (ri opt ov : Int) (h0 : 0 ≤ ov) (h2W : 2 * ov < W)
    (h2H : 2 * ov < H) (hri : ri ≤ ov) (fuel : Nat) (hfuel : 2 * ov.toNat + 2 ≤ fuel)
    (s : ℚ × (Int → ℚ)) :
    skip_loop W ov (fun x s => skip_loop H ov (apex_store W H r2 ri opt x) fuel 0 s) fuel 0 s =
      some (s.1 + ∑ i ∈ Finset.Ico 0 W, ∑ j ∈ Finset.Ico 0 H, apex_cell W H r2 ri opt i j,
        fun idx => if vis W ov (idx % W) ∧ vis H ov (idx / W) then
          apex_cell W H r2 ri opt (idx % W) (idx / W) else s.2 idx) := by
  rw [skip_loop_returns W ov _
    (fun x (s : ℚ × (Int → ℚ)) =>
      (s.1 + ∑ j ∈ Finset.Ico 0 H, apex_cell W H r2 ri opt x j,
        fun idx => if idx % W = x ∧ vis H ov (idx / W) then
          apex_cell W H r2 ri opt x (idx / W) else s.2 idx))
    (fun j s hj0 hjW => column_loop W H r2 ri opt ov j hj0 hjW h0 h2H hri fuel hfuel s)
    h0 h2W fuel hfuel s, seg_columns, seg_columns]
  have hm : ((ov.toNat : Nat) : Int) = ov := Int.toNat_of_nonneg h0
  congr 1
  refine Prod.ext ?_ ?_
  · simp only
    push_cast
    rw [hm, zero_add, show W - ov + ov = W by ring,
      sum_Ico_consec (fun i => ∑ j ∈ Finset.Ico 0 H, apex_cell W H r2 ri opt i j)
        (a := 0) (b := ov + 1) (c := W) (by omega) (by omega),
      sum_Ico_consec (fun i => ∑ j ∈ Finset.Ico 0 H, apex_cell W H r2 ri opt i j)
        (a := ov + 1) (b := W - ov) (c := W) (by omega) (by omega)]
    have hz : ∑ i ∈ Finset.Ico (ov + 1) (W - ov),
        ∑ j ∈ Finset.Ico 0 H, apex_cell W H r2 ri opt i j = 0 := by
      refine Finset.sum_eq_zero fun i hi => Finset.sum_eq_zero fun j _ => ?_
      rw [Finset.mem_Ico] at hi
      refine apex_cell_outside W H r2 ri opt i j (Or.inl ?_)
      unfold xx_of
      split_ifs <;> omega
    rw [hz]; ring
  · funext idx
    simp only
    push_cast
    rw [hm]
    by_cases c : vis H ov (idx / W)
    · by_cases c2 : W - ov ≤ idx % W ∧ idx % W < W
      · rw [if_pos ⟨by omega, c⟩, if_pos ⟨Or.inr c2, c⟩]
      · rw [if_neg (fun h => c2 ⟨h.1.1, by omega⟩)]
        by_cases c3 : 0 ≤ idx % W ∧ idx % W ≤ ov
        · rw [if_pos ⟨by omega, c⟩, if_pos ⟨Or.inl c3, c⟩]
        · rw [if_neg (fun h => c3 ⟨h.1.1, by omega⟩), if_neg (fun h => by
            rcases h.1 with h' | h'
            · exact c3 h'
            · exact c2 h')]
    · rw [if_neg (fun h => c h.2), if_neg (fun h => c h.2), if_neg (fun h => c h.2)]

theorem scale_loop_eq (mul : ℚ) :
    ∀ (n : Nat) (x : Int) (apex : Int → ℚ),
      scale_loop mul n x apex =
        fun idx => if x ≤ idx ∧ idx < x + n then apex idx * mul else apex idx := by
  intro n
  induction n with
  | zero =>
    intro x apex
    rw [scale_loop]
    funext idx
    rw [if_neg (by push_cast; omega)]
  | succ n ih =>
    intro x apex
    rw [scale_loop, ih]
    funext idx
    by_cases h : idx = x
    · subst h
      rw [if_neg (by omega), if_pos (by push_cast; omega), Function.update_same]
    · rw [Function.update_noteq h]
      by_cases c : x + 1 ≤ idx ∧ idx < x + 1 + n
      · rw [if_pos c, if_pos (by push_cast; omega)]
      · rw [if_neg c, if_neg (by push_cast; omega)]

theorem make_apex_eq (W H : Int) (st : apex_state) (R B : ℚ) (opt : Int) (fuel : Nat)
    (h0 : 0 ≤ max (c_trunc (apex_clamp W H R)) st.last_apex_r)
    (h2W : 2 * max (c_trunc (apex_clamp W H R)) st.last_apex_r < W)
    (h2H : 2 * max (c_trunc (apex_clamp W H R)) st.last_apex_r < H)
    (hfuel : 2 * (max (c_trunc (apex_clamp W H R)) st.last_apex_r).toNat + 2 ≤ fuel) :
    make_apex fuel W H st R B opt =
      if apex_total W H (apex_clamp W H R * apex_clamp W H R) (c_trunc (apex_clamp W H R)) opt = 0
      then none
      else some ⟨fun idx =>
        if 0 ≤ idx ∧ idx < 0 + ((W * H).toNat : Int) then
          (if vis W (max (c_trunc (apex_clamp W H R)) st.last_apex_r) (idx % W) ∧
              vis H (max (c_trunc (apex_clamp W H R)) st.last_apex_r) (idx / W) then
            apex_cell W H (apex_clamp W H R * apex_clamp W H R) (c_trunc (apex_clamp W H R)) opt
              (idx % W) (idx / W)
          else st.apex idx) *
          (B / ((W * H : Int) : ℚ) /
            apex_total W H (apex_clamp W H R * apex_clamp W H R) (c_trunc (apex_clamp W H R)) opt)
        else
          (if vis W (max (c_trunc (apex_clamp W H R)) st.last_apex_r) (idx % W) ∧
              vis H (max (c_trunc (apex_clamp W H R)) st.last_apex_r) (idx / W) then
            apex_cell W H (apex_clamp W H R * apex_clamp W H R) (c_trunc (apex_clamp W H R)) opt
              (idx % W) (idx / W)
          else st.apex idx),
        c_trunc (apex_clamp W H R)⟩ := by
  unfold make_apex
  simp only []
  rw [show min R ((min (W / 2) (H / 2) : Int) : ℚ) = apex_clamp W H R from rfl,
    grid_loop W H _ _ opt _ h0 h2W h2H (le_max_left _ _) fuel hfuel, Option.some_bind]
  simp only [zero_add]
  rw [show (∑ i ∈ Finset.Ico 0 W, ∑ j ∈ Finset.Ico 0 H,
      apex_cell W H (apex_clamp W H R * apex_clamp W H R) (c_trunc (apex_clamp W H R)) opt i j) =
      apex_total W H (apex_clamp W H R * apex_clamp W H R) (c_trunc (apex_clamp W H R)) opt
    from rfl]
  by_cases hS : apex_total W H (apex_clamp W H R * apex_clamp W H R)
      (c_trunc (apex_clamp W H R)) opt = 0
  · rw [if_pos hS, if_pos hS]
  · rw [if_neg hS, if_neg hS, scale_loop_eq]
    simp only [zero_add]

theorem make_apex_mono (W H : Int) (st st' : apex_state) (R B : ℚ) (opt : Int) (fuel fuel' : Nat)
    (h : make_apex fuel W H st R B opt = some st') (hf : fuel ≤ fuel') :
    make_apex fuel' W H st R B opt = some st' := by
  unfold make_apex at h ⊢
  simp only [] at h ⊢
  cases hl : skip_loop W (max (c_trunc (min R ((min (W / 2) (H / 2) : Int) : ℚ))) st.last_apex_r)
      (fun x s => skip_loop H (max (c_trunc (min R ((min (W / 2) (H / 2) : Int) : ℚ)))
        st.last_apex_r) (apex_store W H (min R ((min (W / 2) (H / 2) : Int) : ℚ) *
          min R ((min (W / 2) (H / 2) : Int) : ℚ))
          (c_trunc (min R ((min (W / 2) (H / 2) : Int) : ℚ))) opt x) fuel 0 s) fuel 0
      (0, st.apex) with
  | none => rw [hl] at h; simp at h
  | some r =>
    rw [hl, Option.some_bind] at h
    rw [skip_loop_mono W _ _ _ (fun j s r hr => skip_loop_mono H _ _ _ (fun _ _ _ hh => hh)
      fuel 0 s r hr fuel' hf) fuel 0 _ r hl fuel' hf, Option.some_bind]
    exact h

theorem make_apex_hangs (W H : Int) (st : apex_state) (R B : ℚ) (opt : Int) (hW : 0 < W)
    (hH : 0 < H)
    (h2 : 2 * max (c_trunc (apex_clamp W H R)) st.last_apex_r = W ∨
      2 * max (c_trunc (apex_clamp W H R)) st.last_apex_r = H) (fuel : Nat) :
    make_apex fuel W H st R B opt = none := by
  unfold make_apex
  simp only []
  rw [show min R ((min (W / 2) (H / 2) : Int) : ℚ) = apex_clamp W H R from rfl]
  by_cases hw : 2 * max (c_trunc (apex_clamp W H R)) st.last_apex_r = W
  · rw [skip_loop_hangs W _ _ hw hW fuel 0 _ (le_refl _) (by omega)]
    rfl
  · have hh : 2 * max (c_trunc (apex_clamp W H R)) st.last_apex_r = H := by
      rcases h2 with h | h
      · exact absurd h hw
      · exact h
    cases fuel with
    | zero => rfl
    | succ fuel =>
      rw [skip_loop, if_pos hW,
        skip_loop_hangs H _ _ hh hH (fuel + 1) 0 _ (le_refl _) (by omega)]
      rfl

theorem c_trunc_bounds (q : ℚ) (m : Int) (h0 : 0 ≤ q) (hm : q ≤ (m : ℚ)) :
    0 ≤ c_trunc q ∧ c_trunc q ≤ m ∧ (c_trunc q : ℚ) ≤ q ∧ q < (c_trunc q : ℚ) + 1 := by
  unfold c_trunc
  rw [if_pos h0]
  refine ⟨Int.floor_nonneg.mpr h0, ?_, Int.floor_le q, Int.lt_floor_add_one q⟩
  have := Int.floor_mono hm
  rwa [Int.floor_intCast] at this

theorem apex_clamp_bounds (W H : Int) (R : ℚ) (hW : 1 ≤ W) (hH : 1 ≤ H) (hR : 0 ≤ R) :
    0 ≤ apex_clamp W H R ∧ 0 ≤ c_trunc (apex_clamp W H R) ∧
      2 * c_trunc (apex_clamp W H R) ≤ W ∧ 2 * c_trunc (apex_clamp W H R) ≤ H := by
  have hm : (0 : Int) ≤ min (W / 2) (H / 2) := by
    rw [le_min_iff]; omega
  have h0 : 0 ≤ apex_clamp W H R := by
    unfold apex_clamp
    exact le_min hR (by exact_mod_cast hm)
  have hb := c_trunc_bounds (apex_clamp W H R) (min (W / 2) (H / 2)) h0
    (by unfold apex_clamp; exact min_le_right _ _)
  have h1 : min (W / 2) (H / 2) ≤ W / 2 := min_le_left _ _
  have h2 : min (W / 2) (H / 2) ≤ H / 2 := min_le_right _ _
  refine ⟨h0, hb.1, ?_, ?_⟩ <;> omega

theorem cell_in_buffer (W H x y : Int) (hx0 : 0 ≤ x) (hxW : x < W) (hy0 : 0 ≤ y) (hyH : y < H) :
    0 ≤ x + y * W ∧ x + y * W < 0 + (((W * H).toNat : Nat) : Int) := by
  have h1 : 0 ≤ y * W := mul_nonneg hy0 (by omega)
  have h2 : (y + 1) * W ≤ H * W := by
    apply mul_le_mul_of_nonneg_right <;> omega
  have h3 : 0 ≤ W * H := mul_nonneg (by omega) (by omega)
  rw [Int.toNat_of_nonneg h3]
  constructor
  · omega
  · nlinarith

theorem apex_inv_zeroed (W H : Int) (hW : 1 ≤ W) (hH : 1 ≤ H) : apex_inv W H apex_zeroed := by
  refine ⟨le_refl _, ?_, ?_, fun _ _ _ _ _ _ _ => rfl⟩
  · show 2 * (0 : Int) < W
    omega
  · show 2 * (0 : Int) < H
    omega

/-- One returning call of `make_apex`, from a buffer as the earlier calls leave
it: every cell holds its unscaled weight times `apex_mul`, and the buffer is
again as a call leaves it. -/
theorem make_apex_returns (W H : Int) (st : apex_state) (R B : ℚ) (opt : Int) (fuel : Nat)
    (hW : 1 ≤ W) (hH : 1 ≤ H) (hR : 0 ≤ R) (hinv : apex_inv W H st)
    (hnW : 2 * c_trunc (apex_clamp W H R) < W) (hnH : 2 * c_trunc (apex_clamp W H R) < H)
    (hS : apex_total W H (apex_clamp W H R * apex_clamp W H R) (c_trunc (apex_clamp W H R)) opt
      ≠ 0)
    (hfuel : W.toNat + 1 ≤ fuel) :
    ∃ st', make_apex fuel W H st R B opt = some st' ∧
      st'.last_apex_r = c_trunc (apex_clamp W H R) ∧
      (∀ x y, 0 ≤ x → x < W → 0 ≤ y → y < H → st'.apex (x + y * W) =
        apex_cell W H (apex_clamp W H R * apex_clamp W H R) (c_trunc (apex_clamp W H R)) opt x y *
          (B / ((W * H : Int) : ℚ) / apex_total W H (apex_clamp W H R * apex_clamp W H R)
            (c_trunc (apex_clamp W H R)) opt)) ∧
      apex_inv W H st' := by
  obtain ⟨hl0, hlW, hlH, hz⟩ := hinv
  have hb := apex_clamp_bounds W H R hW hH hR
  obtain ⟨ov, hov⟩ : ∃ ov, ov = max (c_trunc (apex_clamp W H R)) st.last_apex_r := ⟨_, rfl⟩
  have hov1 : c_trunc (apex_clamp W H R) ≤ ov := hov ▸ le_max_left _ _
  have hov2 : st.last_apex_r ≤ ov := hov ▸ le_max_right _ _
  have hov3 : ov = c_trunc (apex_clamp W H R) ∨ ov = st.last_apex_r := by
    rw [hov]; rcases max_choice (c_trunc (apex_clamp W H R)) st.last_apex_r with h | h
    · exact Or.inl h
    · exact Or.inr h
  have h0 : 0 ≤ ov := by omega
  have h2W : 2 * ov < W := by omega
  have h2H : 2 * ov < H := by omega
  have hcell : ∀ x y, 0 ≤ x → x < W → 0 ≤ y → y < H →
      (if 0 ≤ x + y * W ∧ x + y * W < 0 + (((W * H).toNat : Nat) : Int) then
        (if vis W ov ((x + y * W) % W) ∧ vis H ov ((x + y * W) / W) then
          apex_cell W H (apex_clamp W H R * apex_clamp W H R) (c_trunc (apex_clamp W H R)) opt
            ((x + y * W) % W) ((x + y * W) / W)
        else st.apex (x + y * W)) *
        (B / ((W * H : Int) : ℚ) / apex_total W H (apex_clamp W H R * apex_clamp W H R)
          (c_trunc (apex_clamp W H R)) opt)
      else
        (if vis W ov ((x + y * W) % W) ∧ vis H ov ((x + y * W) / W) then
          apex_cell W H (apex_clamp W H R * apex_clamp W H R) (c_trunc (apex_clamp W H R)) opt
            ((x + y * W) % W) ((x + y * W) / W)
        else st.apex (x + y * W))) =
      apex_cell W H (apex_clamp W H R * apex_clamp W H R) (c_trunc (apex_clamp W H R)) opt x y *
        (B / ((W * H : Int) : ℚ) / apex_total W H (apex_clamp W H R * apex_clamp W H R)
          (c_trunc (apex_clamp W H R)) opt) := by
    intro x y hx0 hxW hy0 hyH
    have hf := flat_index W x y hx0 hxW
    rw [if_pos (cell_in_buffer W H x y hx0 hxW hy0 hyH), hf.1, hf.2]
    by_cases hv : vis W ov x ∧ vis H ov y
    · rw [if_pos hv]
    · rw [if_neg hv]
      have hout : ov < xx_of W x ∨ ov < xx_of H y := by
        by_cases hvx : vis W ov x
        · exact Or.inr (xx_of_unvisited H ov y hy0 hyH (fun h => hv ⟨hvx, h⟩))
        · exact Or.inl (xx_of_unvisited W ov x hx0 hxW hvx)
      rw [hz x y hx0 hxW hy0 hyH (by omega), apex_cell_outside W H _ _ opt x y (by omega)]
  subst hov
  have heq := make_apex_eq W H st R B opt fuel h0 h2W h2H (by omega)
  rw [if_neg hS] at heq
  refine ⟨_, heq, rfl, fun x y hx0 hxW hy0 hyH => hcell x y hx0 hxW hy0 hyH, hb.2.1, hnW, hnH, ?_⟩
  intro x y hx0 hxW hy0 hyH hout
  show (if _ then _ else _) = (0 : ℚ)
  rw [hcell x y hx0 hxW hy0 hyH, apex_cell_outside W H _ _ opt x y hout, zero_mul]

/-- A call of `make_apex` that returns did so with loops that skip forward and
a non-zero `apex_sum`, and leaves the buffer as `make_apex_returns` says. -/
theorem make_apex_sound (W H : Int) (st st' : apex_state) (R B : ℚ) (opt : Int) (fuel : Nat)
    (hW : 1 ≤ W) (hH : 1 ≤ H) (hR : 0 ≤ R) (hinv : apex_inv W H st)
    (h : make_apex fuel W H st R B opt = some st') :
    apex_total W H (apex_clamp W H R * apex_clamp W H R) (c_trunc (apex_clamp W H R)) opt ≠ 0 ∧
      (∀ x y, 0 ≤ x → x < W → 0 ≤ y → y < H → st'.apex (x + y * W) =
        apex_cell W H (apex_clamp W H R * apex_clamp W H R) (c_trunc (apex_clamp W H R)) opt x y *
          (B / ((W * H : Int) : ℚ) / apex_total W H (apex_clamp W H R * apex_clamp W H R)
            (c_trunc (apex_clamp W H R)) opt)) ∧
      apex_inv W H st' := by
  have hb := apex_clamp_bounds W H R hW hH hR
  obtain ⟨hl0, hlW, hlH, hz⟩ := hinv
  obtain ⟨ov, hov⟩ : ∃ ov, ov = max (c_trunc (apex_clamp W H R)) st.last_apex_r := ⟨_, rfl⟩
  have hov1 : c_trunc (apex_clamp W H R) ≤ ov := hov ▸ le_max_left _ _
  have hov3 : ov = c_trunc (apex_clamp W H R) ∨ ov = st.last_apex_r := by
    rw [hov]; rcases max_choice (c_trunc (apex_clamp W H R)) st.last_apex_r with h | h
    · exact Or.inl h
    · exact Or.inr h
  have hnot : ¬(2 * ov = W ∨ 2 * ov = H) := by
    intro hc
    rw [hov] at hc
    rw [make_apex_hangs W H st R B opt (by omega) (by omega) hc fuel] at h
    simp at h
  have h2W : 2 * ov < W := by omega
  have h2H : 2 * ov < H := by omega
  have hm := make_apex_mono W H st st' R B opt fuel (max fuel (W.toNat + 1)) h (le_max_left _ _)
  have hS : apex_total W H (apex_clamp W H R * apex_clamp W H R) (c_trunc (apex_clamp W H R))
      opt ≠ 0 := by
    intro hc
    rw [make_apex_eq W H st R B opt _ (hov ▸ (by omega : 0 ≤ ov)) (hov ▸ h2W) (hov ▸ h2H)
      (by rw [← hov]; have := le_max_right fuel (W.toNat + 1); omega), if_pos hc] at hm
    simp at hm
  obtain ⟨st'', h1, _, h3, h4⟩ := make_apex_returns W H st R B opt (max fuel (W.toNat + 1)) hW hH
    hR ⟨hl0, hlW, hlH, hz⟩ (by omega) (by omega) hS (le_max_right _ _)
  rw [hm] at h1
  obtain rfl : st' = st'' := Option.some.inj h1
  exact ⟨hS, h3, h4⟩

/-- Every buffer that a returning sequence of `make_apex` calls leaves is as a
call leaves it. -/
theorem make_apex_calls_inv (W H : Int) (hW : 1 ≤ W) (hH : 1 ≤ H) (fuel : Nat) :
    ∀ (calls : List (ℚ × ℚ × Int)) (st st' : apex_state), (∀ c ∈ calls, 0 ≤ c.1) →
      apex_inv W H st → make_apex_calls fuel W H st calls = some st' → apex_inv W H st' := by
  intro calls
  induction calls with
  | nil =>
    intro st st' _ hinv h
    rw [make_apex_calls] at h
    obtain rfl : st = st' := Option.some.inj h
    exact hinv
  | cons c cs ih =>
    intro st st' hc hinv h
    rw [make_apex_calls] at h
    cases h1 : make_apex fuel W H st c.1 c.2.1 c.2.2 with
    | none => rw [h1] at h; simp at h
    | some st1 =>
      rw [h1, Option.some_bind] at h
      exact ih st1 st' (fun c' hc' => hc c' (List.mem_cons_of_mem _ hc'))
        (make_apex_sound W H st st1 c.1 c.2.1 c.2.2 fuel hW hH
          (hc c (List.mem_cons_self _ _)) hinv h1).2.2 h

/-- Kernel energy: a call of `make_apex` that returns leaves a kernel whose
`W * H` weights sum to `burn_factor / (W * H)`. -/
theorem make_apex_energy (W H : Int) (st st' : apex_state) (R B : ℚ) (opt : Int) (fuel : Nat)
    (hW : 1 ≤ W) (hH : 1 ≤ H) (hR : 0 ≤ R) (hinv : apex_inv W H st)
    (h : make_apex fuel W H st R B opt = some st') :
    ∑ i ∈ Finset.Ico 0 W, ∑ j ∈ Finset.Ico 0 H, st'.apex (i + j * W) =
      B / ((W * H : Int) : ℚ) := by
  obtain ⟨hS, hc, _⟩ := make_apex_sound W H st st' R B opt fuel hW hH hR hinv h
  have e : ∑ i ∈ Finset.Ico 0 W, ∑ j ∈ Finset.Ico 0 H, st'.apex (i + j * W) =
      apex_total W H (apex_clamp W H R * apex_clamp W H R) (c_trunc (apex_clamp W H R)) opt *
        (B / ((W * H : Int) : ℚ) / apex_total W H (apex_clamp W H R * apex_clamp W H R)
          (c_trunc (apex_clamp W H R)) opt) := by
    unfold apex_total
    rw [Finset.sum_mul]
    refine Finset.sum_congr rfl fun i hi => ?_
    rw [Finset.sum_mul]
    refine Finset.sum_congr rfl fun j hj => ?_
    rw [Finset.mem_Ico] at hi hj
    exact hc i j hi.1 hi.2 hj.1 hj.2
  rw [e, mul_div_cancel₀ _ hS]

theorem spec_weight_outside (W H : Int) (Rc : ℚ) (x y : Int) (hR : 0 ≤ Rc)
    (h : ⌊Rc⌋ < spec_dist W x ∨ ⌊Rc⌋ < spec_dist H y) : spec_weight W H Rc x y = 0 := by
  unfold spec_weight
  apply max_eq_left
  have h1 := Int.lt_floor_add_one Rc
  have key : ∀ d : Int, ⌊Rc⌋ < d → Rc ^ 2 < (d : ℚ) ^ 2 := by
    intro d hd
    have : (⌊Rc⌋ : ℚ) + 1 ≤ (d : ℚ) := by exact_mod_cast hd
    nlinarith
  rcases h with h | h
  · have := key _ h
    have := sq_nonneg (spec_dist H y : ℚ)
    linarith
  · have := key _ h
    have := sq_nonneg (spec_dist W x : ℚ)
    linarith

/-- The weight before the shape option, as `make_apex` computes it from the
clamped radius, is the weight of the specification; the Chebyshev cut of the
code removes nothing that the parabola keeps. -/
theorem apex_base_eq_spec (W H : Int) (Rc : ℚ) (x y : Int) (hR : 0 ≤ Rc) :
    apex_base W H (Rc * Rc) (c_trunc Rc) x y = spec_weight W H Rc x y := by
  have ht : c_trunc Rc = ⌊Rc⌋ := by unfold c_trunc; rw [if_pos hR]
  have hx : (if x ≥ W / 2 then W - x else x) = spec_dist W x := by
    unfold spec_dist; split_ifs <;> omega
  have hy : (if y ≥ H / 2 then H - y else y) = spec_dist H y := by
    unfold spec_dist; split_ifs <;> omega
  unfold apex_base
  simp only [hx, hy, ht, gt_iff_lt]
  by_cases h : ⌊Rc⌋ < spec_dist W x ∨ ⌊Rc⌋ < spec_dist H y
  · rw [if_pos h, spec_weight_outside W H Rc x y hR h]
  · rw [if_neg h]
    unfold spec_weight
    push_cast
    have e : Rc * Rc - ((spec_dist W x : ℚ) * (spec_dist W x : ℚ) +
        (spec_dist H y : ℚ) * (spec_dist H y : ℚ)) =
        Rc ^ 2 - ((spec_dist W x : ℚ) ^ 2 + (spec_dist H y : ℚ) ^ 2) := by ring
    rw [e]
    by_cases hv : Rc ^ 2 - ((spec_dist W x : ℚ) ^ 2 + (spec_dist H y : ℚ) ^ 2) < 0
    · rw [if_pos hv, max_eq_left (le_of_lt hv)]
    · rw [if_neg hv, max_eq_right (not_lt.mp hv)]

theorem apex_cell_shape0 (W H : Int) (Rc : ℚ) (x y : Int) (hR : 0 ≤ Rc) :
    apex_cell W H (Rc * Rc) (c_trunc Rc) 0 x y = spec_weight W H Rc x y := by
  unfold apex_cell
  simp only [apex_base_eq_spec W H Rc x y hR]
  rw [if_neg (by decide), if_neg (by decide), if_neg (by decide), if_neg (by decide)]

theorem apex_total_shape0 (W H : Int) (Rc : ℚ) (hR : 0 ≤ Rc) :
    apex_total W H (Rc * Rc) (c_trunc Rc) 0 = spec_total W H Rc := by
  unfold apex_total spec_total
  exact Finset.sum_congr rfl fun i _ => Finset.sum_congr rfl fun j _ =>
    apex_cell_shape0 W H Rc i j hR

theorem spec_total_pos (W H : Int) (Rc : ℚ) (hW : 3 ≤ W) (hH : 3 ≤ H) (hR : 0 < Rc) :
    0 < spec_total W H Rc := by
  unfold spec_total
  have hnn : ∀ i j, 0 ≤ spec_weight W H Rc i j := fun i j => le_max_left _ _
  have h00 : spec_weight W H Rc 0 0 = Rc ^ 2 := by
    unfold spec_weight spec_dist
    rw [if_pos (by omega), if_pos (by omega)]
    simp only [Int.cast_zero]
    rw [max_eq_right]
    · ring
    · have := sq_nonneg Rc
      linarith
  have h1 : ∑ j ∈ Finset.Ico 0 H, spec_weight W H Rc 0 j ≤
      ∑ i ∈ Finset.Ico 0 W, ∑ j ∈ Finset.Ico 0 H, spec_weight W H Rc i j :=
    Finset.single_le_sum (f := fun i => ∑ j ∈ Finset.Ico 0 H, spec_weight W H Rc i j)
      (fun i _ => Finset.sum_nonneg fun j _ => hnn i j) (Finset.mem_Ico.mpr ⟨le_refl _, by omega⟩)
  have h2 : spec_weight W H Rc 0 0 ≤ ∑ j ∈ Finset.Ico 0 H, spec_weight W H Rc 0 j :=
    Finset.single_le_sum (f := fun j => spec_weight W H Rc 0 j)
      (fun j _ => hnn 0 j) (Finset.mem_Ico.mpr ⟨le_refl _, by omega⟩)
  have h3 : 0 < Rc ^ 2 := by positivity
  linarith

/-- C3 (the defect): on a 4x4 grid the call `make_apex(2, 1, 0)` on the zeroed
buffer, with the valid radius `min(W,H)/2`, never returns, whatever the fuel:
`overwrite_r = 2 = H - overwrite_r`, so the skip of the inner loop lands on
row 2 again and the inner loop of column 0 runs forever.  The call
`make_apex(8.01, 1.005, 0)` of `fft_init` on that grid does the same, and so
does `make_apex(100, 1.005, 0)` on the default 320x200 grid after `fft_init`
(`last_apex_r = 8`, any buffer content). -/
theorem make_apex_never_returns :
    (∀ fuel s, skip_loop 4 2 (apex_store 4 4 (2 * 2) 2 0 0) fuel 0 s = none) ∧
    (∀ fuel, make_apex fuel 4 4 apex_zeroed 2 1 0 = none) ∧
    (∀ fuel, make_apex fuel 4 4 apex_zeroed (801 / 100) (201 / 200) 0 = none) ∧
    (∀ apex fuel, make_apex fuel 320 200 ⟨apex, 8⟩ 100 (201 / 200) 0 = none) := by
  refine ⟨fun fuel s => ?_, fun fuel => ?_, fun fuel => ?_, fun apex fuel => ?_⟩
  · exact skip_loop_hangs 4 2 _ (by decide) (by decide) fuel 0 s (le_refl _) (by decide)
  · refine make_apex_hangs 4 4 apex_zeroed 2 1 0 (by decide) (by decide) (Or.inl ?_) fuel
    norm_num [apex_clamp, c_trunc, apex_zeroed]
  · refine make_apex_hangs 4 4 apex_zeroed (801 / 100) (201 / 200) 0 (by decide) (by decide)
      (Or.inl ?_) fuel
    norm_num [apex_clamp, c_trunc, apex_zeroed]
  · refine make_apex_hangs 320 200 ⟨apex, 8⟩ 100 (201 / 200) 0 (by decide) (by decide)
      (Or.inr ?_) fuel
    norm_num [apex_clamp, c_trunc]

/-- C9: for shape option 0, from the buffer that any returning sequence of
`make_apex` calls (radii growing or shrinking, any shape) leaves of the zeroed
buffer, the call `make_apex(R, B, 0)` whose loops skip forward returns, and
afterwards every kernel cell `(x, y)` equals
`(B / (W*H*sum)) * max(0, Rc^2 - (dx^2 + dy^2))` with `Rc = min(R, W/2, H/2)`,
`dx = x` if `x < W/2` else `W - x`, `dy` likewise and `sum` the sum of these
weights over the grid; the cell is 0 whenever `dx` or `dy` exceeds `floor(Rc)`:
nothing of an earlier call survives. -/
theorem make_apex_shape0_history_free (W H : Int) (hW : 3 ≤ W) (hH : 3 ≤ H) (fuel0 : Nat)
    (calls : List (ℚ × ℚ × Int)) (hcalls : ∀ c ∈ calls, 0 ≤ c.1) (st : apex_state)
    (hst : make_apex_calls fuel0 W H apex_zeroed calls = some st) (R B : ℚ) (hR : 0 < R)
    (hnW : 2 * ⌊apex_clamp W H R⌋ < W) (hnH : 2 * ⌊apex_clamp W H R⌋ < H)
    (fuel : Nat) (hfuel : W.toNat + 1 ≤ fuel) :
    ∃ st', make_apex fuel W H st R B 0 = some st' ∧
      ∀ x y, 0 ≤ x → x < W → 0 ≤ y → y < H →
        st'.apex (x + y * W) =
          B / ((W : ℚ) * (H : ℚ) * spec_total W H (apex_clamp W H R)) *
            spec_weight W H (apex_clamp W H R) x y ∧
        ((⌊apex_clamp W H R⌋ < spec_dist W x ∨ ⌊apex_clamp W H R⌋ < spec_dist H y) →
          st'.apex (x + y * W) = 0) := by
  have hinv := make_apex_calls_inv W H (by omega) (by omega) fuel0 calls apex_zeroed st hcalls
    (apex_inv_zeroed W H (by omega) (by omega)) hst
  have hc0 : 0 < apex_clamp W H R := by
    unfold apex_clamp
    refine lt_min hR ?_
    have : (1 : Int) ≤ min (W / 2) (H / 2) := by
      rw [le_min_iff]; omega
    exact_mod_cast this
  have ht : c_trunc (apex_clamp W H R) = ⌊apex_clamp W H R⌋ := by
    unfold c_trunc; rw [if_pos hc0.le]
  have hS : apex_total W H (apex_clamp W H R * apex_clamp W H R) (c_trunc (apex_clamp W H R)) 0
      ≠ 0 := by
    rw [apex_total_shape0 W H _ hc0.le]
    exact (spec_total_pos W H _ hW hH hc0).ne'
  obtain ⟨st', h1, _, h3, _⟩ := make_apex_returns W H st R B 0 fuel (by omega) (by omega) hR.le
    hinv (ht ▸ hnW) (ht ▸ hnH) hS hfuel
  refine ⟨st', h1, fun x y hx0 hxW hy0 hyH => ?_⟩
  have hv : st'.apex (x + y * W) =
      B / ((W : ℚ) * (H : ℚ) * spec_total W H (apex_clamp W H R)) *
        spec_weight W H (apex_clamp W H R) x y := by
    rw [h3 x y hx0 hxW hy0 hyH, apex_cell_shape0 W H _ x y hc0.le,
      apex_total_shape0 W H _ hc0.le, div_div]
    push_cast
    ring
  refine ⟨hv, fun hout => ?_⟩
  rw [hv, spec_weight_outside W H _ x y hc0.le hout, mul_zero]

/-- C10 (refuted as stated): on an 8x8 grid with radius 2 and shape option 1
the cells `(0,0)`, `(7,0)` and `(7,7)`, which lie in three different quadrants,
all carry `-1.85` times their weight (4, 3 and 2), while `(0,7)` keeps its
weight 3: the inverted cells are not the cells of one quadrant. -/
theorem shape_inverts_three_quadrants :
    apex_cell 8 8 4 2 1 0 0 = -(37 / 20) * 4 ∧ apex_cell 8 8 4 2 1 7 0 = -(37 / 20) * 3 ∧
    apex_cell 8 8 4 2 1 7 7 = -(37 / 20) * 2 ∧ apex_cell 8 8 4 2 1 0 7 = 3 := by
  refine ⟨?_, ?_, ?_, ?_⟩ <;> norm_num [apex_cell, apex_base]

/-- C10 (amended): for each shape option 1..4 the kernel cells whose unscaled
weight is replaced by `-1.85 * max(0, R^2 - distance^2)` are exactly the cells
outside one designated quadrant of the grid (option 1: `x ≤ W/2` and
`y ≥ H/2`; 2: `x ≥ W/2` and `y ≥ H/2`; 3: `x ≥ W/2` and `y ≤ H/2`; 4:
`x ≤ W/2` and `y ≤ H/2`), that is the cells of the other three quadrants; the
cells of the designated quadrant keep the non-negative weight
`max(0, R^2 - distance^2)`. -/
theorem shape_keeps_one_quadrant (W H : Int) (Rc : ℚ) (opt x y : Int) (hR : 0 ≤ Rc)
    (hopt : 1 ≤ opt ∧ opt ≤ 4) :
    apex_cell W H (Rc * Rc) (c_trunc Rc) opt x y =
      (if kept_quadrant opt W H x y then spec_weight W H Rc x y
        else -(1.85 : ℚ) * spec_weight W H Rc x y) ∧
    0 ≤ spec_weight W H Rc x y := by
  refine ⟨?_, le_max_left _ _⟩
  unfold apex_cell kept_quadrant
  simp only [apex_base_eq_spec W H Rc x y hR]
  obtain ⟨h1, h4⟩ := hopt
  have hcases : opt = 1 ∨ opt = 2 ∨ opt = 3 ∨ opt = 4 := by omega
  rcases hcases with h | h | h | h <;> subst h <;> norm_num <;>
    split_ifs <;> first | ring1 | (exfalso; omega)

/-- Witness of C10 at shape option 3 on an 8x8 grid with radius 2: the cell
`(0,0)` lies outside the kept quadrant and carries `-1.85 * 4`. -/
theorem shape_keeps_one_quadrant_witness :
    apex_cell 8 8 (2 * 2) (c_trunc 2) 3 0 0 = -(1.85 : ℚ) * spec_weight 8 8 2 0 0 := by
  have h := (shape_keeps_one_quadrant 8 8 2 3 0 0 (by norm_num) (by decide)).1
  rw [if_neg (by decide)] at h
  exact h

/-- Witness of C9 on a 9x9 grid: after `make_apex(3, 1, 0)` the call
`make_apex(1, 1, 0)` returns and the cell `(2,2)`, which carried weight under
radius 3, holds 0. -/
theorem make_apex_shape0_history_free_witness :
    ∃ st st', make_apex_calls 10 9 9 apex_zeroed [(3, 1, 0)] = some st ∧
      make_apex 10 9 9 st 1 1 0 = some st' ∧ st'.apex (2 + 2 * 9) = 0 := by
  have e3 : apex_clamp 9 9 3 = 3 := by norm_num [apex_clamp]
  have e1 : apex_clamp 9 9 1 = 1 := by norm_num [apex_clamp]
  have t3 : c_trunc (3 : ℚ) = 3 := by norm_num [c_trunc]
  have hS : apex_total 9 9 (apex_clamp 9 9 3 * apex_clamp 9 9 3) (c_trunc (apex_clamp 9 9 3)) 0
      ≠ 0 := by
    rw [apex_total_shape0 9 9 _ (by rw [e3]; norm_num)]
    exact (spec_total_pos 9 9 _ (by decide) (by decide) (by rw [e3]; norm_num)).ne'
  obtain ⟨st, h1, _⟩ := make_apex_returns 9 9 apex_zeroed 3 1 0 10 (by decide) (by decide)
    (by norm_num) (apex_inv_zeroed 9 9 (by decide) (by decide))
    (by rw [e3, t3]; decide) (by rw [e3, t3]; decide) hS (by decide)
  have hst : make_apex_calls 10 9 9 apex_zeroed [(3, 1, 0)] = some st := by
    rw [make_apex_calls, h1]
    rfl
  obtain ⟨st', h2, h3⟩ := make_apex_shape0_history_free 9 9 (by decide) (by decide) 10
    [(3, 1, 0)] (fun c hc => by
      rw [List.mem_singleton] at hc
      rw [hc]
      norm_num) st hst 1 1 (by norm_num)
    (by rw [e1]; norm_num) (by rw [e1]; norm_num) 10 (by decide)
  refine ⟨st, st', hst, h2, (h3 2 2 (by decide) (by decide) (by decide) (by decide)).2
    (Or.inl ?_)⟩
  rw [e1]
  norm_num [spec_dist]

theorem toNat_cast_complex (n : Int) (hn : 0 ≤ n) : ((n.toNat : ℕ) : ℂ) = (n : ℂ) := by
  rw [← Int.cast_natCast, Int.toNat_of_nonneg hn]

theorem omega_primitive (n : Int) (hn : 0 < n) : IsPrimitiveRoot (omega n) n.toNat := by
  have h := Complex.isPrimitiveRoot_exp n.toNat (by omega)
  unfold omega
  rw [← toNat_cast_complex n hn.le]
  exact h

theorem omega_ne_zero (n : Int) : omega n ≠ 0 := Complex.exp_ne_zero _

theorem omega_zpow_eq_one (n : Int) (hn : 0 < n) (m : Int) : omega n ^ m = 1 ↔ n ∣ m := by
  rw [(omega_primitive n hn).zpow_eq_one_iff_dvd, Int.toNat_of_nonneg hn.le]

theorem omega_conj (n : Int) : (starRingEnd ℂ) (omega n) = (omega n)⁻¹ := by
  have e : 2 * (Real.pi : ℂ) * Complex.I / (n : ℂ) =
      ((2 * Real.pi / (n : ℝ) : ℝ) : ℂ) * Complex.I := by
    push_cast; ring
  unfold omega
  rw [e, ← Complex.exp_conj, map_mul, Complex.conj_ofReal, Complex.conj_I, ← Complex.exp_neg]
  congr 1
  ring

theorem omega_zpow_conj (n m : Int) : (starRingEnd ℂ) (omega n ^ m) = omega n ^ (-m) := by
  rw [map_zpow₀, omega_conj, inv_zpow, zpow_neg]

/-- Orthogonality of the characters of `Z/n`. -/
theorem omega_sum (n : Int) (hn : 0 < n) (m : Int) :
    ∑ k ∈ Finset.Ico 0 n, omega n ^ (k * m) = if n ∣ m then (n : ℂ) else 0 := by
  by_cases h : n ∣ m
  · rw [if_pos h]
    rw [Finset.sum_congr rfl (fun k _ => (omega_zpow_eq_one n hn (k * m)).mpr
      (Dvd.dvd.mul_left h k))]
    simp [toNat_cast_complex n hn.le]
  · rw [if_neg h]
    have hz : omega n ^ m ≠ 1 := fun hc => h ((omega_zpow_eq_one n hn m).mp hc)
    have hsum : ∑ k ∈ Finset.Ico 0 n, omega n ^ (k * m) =
        ∑ k ∈ Finset.range n.toNat, (omega n ^ m) ^ k := by
      have hI : Finset.Ico (0 : Int) n = (Finset.range n.toNat).map Nat.castEmbedding := by
        ext k
        simp only [Finset.mem_Ico, Finset.mem_map, Finset.mem_range, Nat.castEmbedding_apply]
        constructor
        · intro hk
          exact ⟨k.toNat, by omega, by omega⟩
        · rintro ⟨a, ha, rfl⟩
          omega
      rw [hI, Finset.sum_map]
      refine Finset.sum_congr rfl fun k _ => ?_
      simp only [Nat.castEmbedding_apply]
      rw [mul_comm, zpow_mul, zpow_natCast]
    rw [hsum]
    have hg := mul_geom_sum (omega n ^ m) n.toNat
    have hp : (omega n ^ m) ^ n.toNat = 1 := by
      rw [← zpow_natCast, ← zpow_mul, omega_zpow_eq_one n hn, Int.toNat_of_nonneg hn.le]
      exact Dvd.intro_left m rfl
    rw [hp, sub_self] at hg
    rcases mul_eq_zero.mp hg with h1 | h1
    · exact absurd (sub_eq_zero.mp h1) hz
    · exact h1

theorem multiply_loop_eq :
    ∀ (n : Nat) (x : Int) (pf af : Int → ℂ),
      multiply_loop n x pf af =
        fun idx => if x ≤ idx ∧ idx < x + n then pf idx * af idx else pf idx := by
  intro n
  induction n with
  | zero =>
    intro x pf af
    rw [multiply_loop]
    funext idx
    rw [if_neg (by push_cast; omega)]
  | succ n ih =>
    intro x pf af
    rw [multiply_loop, ih]
    funext idx
    by_cases h : idx = x
    · subst h
      rw [if_neg (by omega), if_pos (by push_cast; omega), Function.update_same]
      apply Complex.ext
      · simp [Complex.mul_re]
      · simp [Complex.mul_im]; ring
    · rw [Function.update_noteq h]
      by_cases c : x + 1 ≤ idx ∧ idx < x + 1 + n
      · rw [if_pos c, if_pos (by push_cast; omega)]
      · rw [if_neg c, if_neg (by push_cast; omega)]

theorem omega_zpow_congr (n : Int) (hn : 0 < n) (a b : Int) (h : n ∣ a - b) :
    omega n ^ a = omega n ^ b := by
  have : omega n ^ a = omega n ^ b * omega n ^ (a - b) := by
    rw [← zpow_add₀ (omega_ne_zero n)]
    congr 1
    ring
  rw [this, (omega_zpow_eq_one n hn _).mpr h, mul_one]

theorem dft2_congr (W H : Int) (hW : 0 < W) (hH : 0 < H) (f : Int → ℚ) (k0 k1 k0' k1' : Int)
    (h0 : H ∣ k0 - k0') (h1 : W ∣ k1 - k1') : dft2 W H f k0 k1 = dft2 W H f k0' k1' := by
  unfold dft2
  refine Finset.sum_congr rfl fun j0 _ => Finset.sum_congr rfl fun j1 _ => ?_
  rw [omega_zpow_congr H hH (-(j0 * k0)) (-(j0 * k0')) (by
      have : -(j0 * k0) - -(j0 * k0') = (k0 - k0') * (-j0) := by ring
      rw [this]; exact Dvd.dvd.mul_right h0 _),
    omega_zpow_congr W hW (-(j1 * k1)) (-(j1 * k1')) (by
      have : -(j1 * k1) - -(j1 * k1') = (k1 - k1') * (-j1) := by ring
      rw [this]; exact Dvd.dvd.mul_right h1 _)]

theorem dft2_conj (W H : Int) (f : Int → ℚ) (k0 k1 : Int) :
    (starRingEnd ℂ) (dft2 W H f k0 k1) = dft2 W H f (-k0) (-k1) := by
  unfold dft2
  rw [map_sum]
  refine Finset.sum_congr rfl fun j0 _ => ?_
  rw [map_sum]
  refine Finset.sum_congr rfl fun j1 _ => ?_
  rw [map_mul, map_mul, omega_zpow_conj, omega_zpow_conj, map_ratCast]
  congr 2 <;> ring_nf

/-- The convolution theorem in its bare form: characters `e`, a twist `t` and
an orthogonality relation that singles out the index `σ a`. -/
theorem conv_of_orthogonal {ι : Type} [DecidableEq ι] (S : Finset ι) (e : ι → ι → ℂ) (t : ι → ℂ)
    (σ : ι → ι) (N : ℂ) (hσ : ∀ a ∈ S, σ a ∈ S)
    (horth : ∀ a ∈ S, ∀ b ∈ S, ∑ k ∈ S, t k * e k a * e k b = if b = σ a then N else 0)
    (u v : ι → ℂ) :
    ∑ k ∈ S, (∑ a ∈ S, u a * e k a) * (∑ b ∈ S, v b * e k b) * t k =
      N * ∑ a ∈ S, u a * v (σ a) := by
  have h1 : ∀ k ∈ S, (∑ a ∈ S, u a * e k a) * (∑ b ∈ S, v b * e k b) * t k =
      ∑ a ∈ S, ∑ b ∈ S, u a * v b * (t k * e k a * e k b) := by
    intro k _
    rw [Finset.sum_mul_sum, Finset.sum_mul]
    refine Finset.sum_congr rfl fun a _ => ?_
    rw [Finset.sum_mul]
    refine Finset.sum_congr rfl fun b _ => ?_
    ring
  rw [Finset.sum_congr rfl h1, Finset.sum_comm, Finset.mul_sum]
  refine Finset.sum_congr rfl fun a ha => ?_
  rw [Finset.sum_comm]
  have h2 : ∀ b ∈ S, ∑ k ∈ S, u a * v b * (t k * e k a * e k b) =
      if b = σ a then u a * v b * N else 0 := by
    intro b hb
    rw [← Finset.mul_sum, horth a ha b hb]
    split_ifs <;> simp
  rw [Finset.sum_congr rfl h2, Finset.sum_ite_eq' S (σ a) (fun b => u a * v b * N),
    if_pos (hσ a ha)]
  ring

theorem dvd_sub_iff_eq_emod (n c b : Int) (hb0 : 0 ≤ b) (hbn : b < n) :
    n ∣ c - b ↔ b = c % n := by
  constructor
  · intro h
    have h1 : c % n = b % n := Int.emod_eq_emod_iff_emod_sub_eq_zero.mpr
      (Int.emod_eq_zero_of_dvd h)
    rw [h1, Int.emod_eq_of_lt hb0 hbn]
  · intro h
    rw [h]
    exact Int.dvd_sub_of_emod_eq rfl

/-- Orthogonality of the characters of the `H` x `W` torus, at the output cell
`(x, y)`. -/
theorem torus_orthogonal (W H : Int) (hW : 0 < W) (hH : 0 < H) (x y : Int) (a b : Int × Int)
    (hb : b ∈ Finset.Ico (0 : Int) H ×ˢ Finset.Ico (0 : Int) W) :
    ∑ k ∈ Finset.Ico (0 : Int) H ×ˢ Finset.Ico (0 : Int) W,
        (omega H ^ (k.1 * y) * omega W ^ (k.2 * x)) *
          (omega H ^ (-(a.1 * k.1)) * omega W ^ (-(a.2 * k.2))) *
          (omega H ^ (-(b.1 * k.1)) * omega W ^ (-(b.2 * k.2))) =
      if b = ((y - a.1) % H, (x - a.2) % W) then ((H : ℂ) * (W : ℂ)) else 0 := by
  have hterm : ∀ k : Int × Int,
      (omega H ^ (k.1 * y) * omega W ^ (k.2 * x)) *
          (omega H ^ (-(a.1 * k.1)) * omega W ^ (-(a.2 * k.2))) *
          (omega H ^ (-(b.1 * k.1)) * omega W ^ (-(b.2 * k.2))) =
        omega H ^ (k.1 * (y - a.1 - b.1)) * omega W ^ (k.2 * (x - a.2 - b.2)) := by
    intro k
    have e1 : omega H ^ (k.1 * (y - a.1 - b.1)) =
        omega H ^ (k.1 * y) * omega H ^ (-(a.1 * k.1)) * omega H ^ (-(b.1 * k.1)) := by
      rw [← zpow_add₀ (omega_ne_zero H), ← zpow_add₀ (omega_ne_zero H)]
      congr 1; ring
    have e2 : omega W ^ (k.2 * (x - a.2 - b.2)) =
        omega W ^ (k.2 * x) * omega W ^ (-(a.2 * k.2)) * omega W ^ (-(b.2 * k.2)) := by
      rw [← zpow_add₀ (omega_ne_zero W), ← zpow_add₀ (omega_ne_zero W)]
      congr 1; ring
    rw [e1, e2]; ring
  rw [Finset.sum_congr rfl (fun k _ => hterm k),
    Finset.sum_product' (Finset.Ico (0 : Int) H) (Finset.Ico (0 : Int) W)
      (fun k0 k1 => omega H ^ (k0 * (y - a.1 - b.1)) * omega W ^ (k1 * (x - a.2 - b.2))),
    ← Finset.sum_mul_sum, omega_sum H hH, omega_sum W hW]
  rw [Finset.mem_product, Finset.mem_Ico, Finset.mem_Ico] at hb
  have d0 := dvd_sub_iff_eq_emod H (y - a.1) b.1 hb.1.1 hb.1.2
  have d1 := dvd_sub_iff_eq_emod W (x - a.2) b.2 hb.2.1 hb.2.2
  by_cases c0 : H ∣ y - a.1 - b.1
  · by_cases c1 : W ∣ x - a.2 - b.2
    · rw [if_pos c0, if_pos c1, if_pos (Prod.ext (d0.mp c0) (d1.mp c1))]
    · rw [if_neg c1, mul_zero, if_neg]
      intro hc
      exact c1 (d1.mpr (congrArg Prod.snd hc))
  · rw [if_neg c0, zero_mul, if_neg]
    intro hc
    exact c0 (d0.mpr (congrArg Prod.fst hc))

theorem dft2_eq_sum_product (W H : Int) (f : Int → ℚ) (k : Int × Int) :
    dft2 W H f k.1 k.2 =
      ∑ a ∈ Finset.Ico (0 : Int) H ×ˢ Finset.Ico (0 : Int) W,
        (f (a.2 + a.1 * W) : ℂ) * (omega H ^ (-(a.1 * k.1)) * omega W ^ (-(a.2 * k.2))) := by
  unfold dft2
  rw [Finset.sum_product' (Finset.Ico (0 : Int) H) (Finset.Ico (0 : Int) W)
    (fun j0 j1 => (f (j1 + j0 * W) : ℂ) * (omega H ^ (-(j0 * k.1)) * omega W ^ (-(j1 * k.2))))]
  exact Finset.sum_congr rfl fun j0 _ => Finset.sum_congr rfl fun j1 _ => by ring

/-- The convolution theorem for the `H` x `W` torus: the inverse transform of
the product of two transforms is `W * H` times the circular convolution. -/
theorem dft2_convolution (W H : Int) (hW : 0 < W) (hH : 0 < H) (g k : Int → ℚ) (x y : Int) :
    ∑ k0 ∈ Finset.Ico 0 H, ∑ k1 ∈ Finset.Ico 0 W,
        dft2 W H g k0 k1 * dft2 W H k k0 k1 * omega H ^ (k0 * y) * omega W ^ (k1 * x) =
      (((W * H : Int) : ℚ) * ∑ i ∈ Finset.Ico 0 W, ∑ j ∈ Finset.Ico 0 H,
        g (i + j * W) * k ((x - i) % W + ((y - j) % H) * W) : ℚ) := by
  have hl : ∑ k0 ∈ Finset.Ico 0 H, ∑ k1 ∈ Finset.Ico 0 W,
        dft2 W H g k0 k1 * dft2 W H k k0 k1 * omega H ^ (k0 * y) * omega W ^ (k1 * x) =
      ∑ q ∈ Finset.Ico (0 : Int) H ×ˢ Finset.Ico (0 : Int) W,
        (∑ a ∈ Finset.Ico (0 : Int) H ×ˢ Finset.Ico (0 : Int) W,
          (g (a.2 + a.1 * W) : ℂ) * (omega H ^ (-(a.1 * q.1)) * omega W ^ (-(a.2 * q.2)))) *
        (∑ b ∈ Finset.Ico (0 : Int) H ×ˢ Finset.Ico (0 : Int) W,
          (k (b.2 + b.1 * W) : ℂ) * (omega H ^ (-(b.1 * q.1)) * omega W ^ (-(b.2 * q.2)))) *
        (omega H ^ (q.1 * y) * omega W ^ (q.2 * x)) := by
    rw [Finset.sum_product' (Finset.Ico (0 : Int) H) (Finset.Ico (0 : Int) W)
      (fun k0 k1 =>
        (∑ a ∈ Finset.Ico (0 : Int) H ×ˢ Finset.Ico (0 : Int) W,
          (g (a.2 + a.1 * W) : ℂ) * (omega H ^ (-(a.1 * k0)) * omega W ^ (-(a.2 * k1)))) *
        (∑ b ∈ Finset.Ico (0 : Int) H ×ˢ Finset.Ico (0 : Int) W,
          (k (b.2 + b.1 * W) : ℂ) * (omega H ^ (-(b.1 * k0)) * omega W ^ (-(b.2 * k1)))) *
        (omega H ^ (k0 * y) * omega W ^ (k1 * x)))]
    refine Finset.sum_congr rfl fun k0 _ => Finset.sum_congr rfl fun k1 _ => ?_
    rw [dft2_eq_sum_product W H g (k0, k1), dft2_eq_sum_product W H k (k0, k1)]
    ring
  rw [hl, conv_of_orthogonal (Finset.Ico (0 : Int) H ×ˢ Finset.Ico (0 : Int) W)
    (fun q a => omega H ^ (-(a.1 * q.1)) * omega W ^ (-(a.2 * q.2)))
    (fun q => omega H ^ (q.1 * y) * omega W ^ (q.2 * x))
    (fun a => ((y - a.1) % H, (x - a.2) % W)) ((H : ℂ) * (W : ℂ))
    (fun a _ => by
      rw [Finset.mem_product, Finset.mem_Ico, Finset.mem_Ico]
      exact ⟨⟨Int.emod_nonneg _ (by omega), Int.emod_lt_of_pos _ hH⟩,
        ⟨Int.emod_nonneg _ (by omega), Int.emod_lt_of_pos _ hW⟩⟩)
    (fun a _ b hb => torus_orthogonal W H hW hH x y a b hb)]
  rw [Finset.sum_product' (Finset.Ico (0 : Int) H) (Finset.Ico (0 : Int) W)
    (fun j i => (g (i + j * W) : ℂ) * (k ((x - i) % W + ((y - j) % H) * W) : ℂ)),
    Finset.sum_comm]
  push_cast
  ring

theorem cell_in_spectrum (W H x y : Int) (hx0 : 0 ≤ x) (hxW : x < W) (hy0 : 0 ≤ y) (hyH : y < H) :
    0 ≤ x + y * W ∧ x + y * W < 0 + (((H * W).toNat : Nat) : Int) := by
  have h1 : 0 ≤ y * W := mul_nonneg hy0 (by omega)
  have h2 : (y + 1) * W ≤ H * W := by
    apply mul_le_mul_of_nonneg_right <;> omega
  have h3 : 0 ≤ H * W := mul_nonneg (by omega) (by omega)
  rw [Int.toNat_of_nonneg h3]
  constructor
  · omega
  · nlinarith

/-- The full spectrum that the backward transform reads from the multiplied
half array is the product of the two full transforms. -/
theorem hermitian_full_product (W H : Int) (hW : 0 < W) (hH : 0 < H) (g k : Int → ℚ)
    (k0 k1 : Int) (h00 : 0 ≤ k0) (h0H : k0 < H) (h10 : 0 ≤ k1) (h1W : k1 < W) :
    hermitian_full W H (multiply_loop (H * (W / 2 + 1)).toNat 0 (fftw_r2c W H g)
        (fftw_r2c W H k)) k0 k1 =
      dft2 W H g k0 k1 * dft2 W H k k0 k1 := by
  unfold hermitian_full
  rw [multiply_loop_eq]
  by_cases hk : k1 < W / 2 + 1
  · rw [if_pos hk]
    simp only
    rw [if_pos (cell_in_spectrum (W / 2 + 1) H k1 k0 h10 hk h00 h0H)]
    unfold fftw_r2c
    rw [(flat_index (W / 2 + 1) k1 k0 h10 hk).1, (flat_index (W / 2 + 1) k1 k0 h10 hk).2]
  · rw [if_neg hk]
    simp only
    have m0 : 0 ≤ (H - k0) % H := Int.emod_nonneg _ (by omega)
    have mH : (H - k0) % H < H := Int.emod_lt_of_pos _ hH
    have w0 : 0 ≤ W - k1 := by omega
    have wh : W - k1 < W / 2 + 1 := by omega
    rw [if_pos (cell_in_spectrum (W / 2 + 1) H (W - k1) ((H - k0) % H) w0 wh m0 mH)]
    unfold fftw_r2c
    rw [(flat_index (W / 2 + 1) (W - k1) ((H - k0) % H) w0 wh).1,
      (flat_index (W / 2 + 1) (W - k1) ((H - k0) % H) w0 wh).2, map_mul, dft2_conj, dft2_conj]
    have d0 : H ∣ -((H - k0) % H) - k0 := by
      rw [Int.emod_def]
      exact ⟨(H - k0) / H - 1, by ring⟩
    have d1 : W ∣ -(W - k1) - k1 := ⟨-1, by ring⟩
    rw [dft2_congr W H hW hH g _ _ k0 k1 d0 d1, dft2_congr W H hW hH k _ _ k0 k1 d0 d1]

/-- One generation of the frequency engine is `W * H` times the circular
convolution of the grid with the kernel. -/
theorem fft_generation_eq (W H : Int) (hW : 0 < W) (hH : 0 < H) (pixbuf apex : Int → ℚ)
    (x y : Int) (hx0 : 0 ≤ x) (hxW : x < W) :
    fft_generation W H pixbuf apex (x + y * W) =
      (((W * H : Int) : ℚ) * ∑ i ∈ Finset.Ico 0 W, ∑ j ∈ Finset.Ico 0 H,
        pixbuf (i + j * W) * apex ((x - i) % W + ((y - j) % H) * W) : ℚ) := by
  unfold fft_generation fftw_c2r
  rw [(flat_index W x y hx0 hxW).1, (flat_index W x y hx0 hxW).2]
  have hs : ∑ k0 ∈ Finset.Ico 0 H, ∑ k1 ∈ Finset.Ico 0 W,
      hermitian_full W H (multiply_loop (H * (W / 2 + 1)).toNat 0 (fftw_r2c W H pixbuf)
        (fftw_r2c W H apex)) k0 k1 * omega H ^ (k0 * y) * omega W ^ (k1 * x) =
      ∑ k0 ∈ Finset.Ico 0 H, ∑ k1 ∈ Finset.Ico 0 W,
        dft2 W H pixbuf k0 k1 * dft2 W H apex k0 k1 * omega H ^ (k0 * y) * omega W ^ (k1 * x) := by
    refine Finset.sum_congr rfl fun k0 h0 => Finset.sum_congr rfl fun k1 h1 => ?_
    rw [Finset.mem_Ico] at h0 h1
    rw [hermitian_full_product W H hW hH pixbuf apex k0 k1 h0.1 h0.2 h1.1 h1.2]
  rw [hs, dft2_convolution W H hW hH pixbuf apex x y, Complex.ratCast_re]

theorem sum_mul_hits (n r x : Int) (hn : 0 < n) (f : Int → ℚ) :
    ∑ i ∈ Finset.Ico 0 n, f i * (Burnscope3.hits n r x i : ℚ) =
      ∑ dx ∈ Finset.Icc (-r) r, f ((x + dx) % n) := by
  unfold Burnscope3.hits
  have h1 : ∀ i ∈ Finset.Ico 0 n,
      f i * ((∑ dx ∈ Finset.Icc (-r) r, if (x + dx) % n = i then (1 : Int) else 0 : Int) : ℚ) =
      ∑ dx ∈ Finset.Icc (-r) r, if (x + dx) % n = i then f i else 0 := by
    intro i _
    push_cast
    rw [Finset.mul_sum]
    refine Finset.sum_congr rfl fun dx _ => ?_
    split_ifs <;> simp
  rw [Finset.sum_congr rfl h1, Finset.sum_comm]
  refine Finset.sum_congr rfl fun dx _ => ?_
  rw [Finset.sum_ite_eq (Finset.Ico 0 n) ((x + dx) % n) f,
    if_pos (Finset.mem_Ico.mpr ⟨Int.emod_nonneg _ (by omega), Int.emod_lt_of_pos _ hn⟩)]

theorem box_indicator (n r x i : Int) (hx0 : 0 ≤ x) (hxn : x < n) (hi0 : 0 ≤ i) (hin : i < n)
    (hr : 0 ≤ r) (h2r : 2 * r + 1 ≤ n) :
    (if (x - i) % n ≤ r ∨ n - r ≤ (x - i) % n then (1 : ℚ) else 0) =
      (Burnscope3.hits n r x i : ℚ) := by
  rw [Burnscope3.hits_eq n r x i hx0 hxn hi0 hin hr h2r]
  have ht := Burnscope3.tdist_le_iff n x i r hx0 hxn hi0 hin
  have hm : (x - i) % n = if i ≤ x then x - i else x - i + n := by
    split_ifs with h
    · exact Int.emod_eq_of_lt (by omega) (by omega)
    · rw [← Int.add_emod_self]
      exact Int.emod_eq_of_lt (by omega) (by omega)
  by_cases h : Burnscope3.tdist n x i ≤ r
  · rw [if_pos h, if_pos]
    · simp
    · rw [hm]; rw [ht] at h; split_ifs <;> omega
  · rw [if_neg h, if_neg]
    · simp
    · rw [hm]; rw [ht] at h; split_ifs <;> omega

/-- The circular convolution with the box kernel is the toroidal window sum
divided by the divider. -/
theorem box_convolution (W H r : Int) (d : ℚ) (g : Int → ℚ) (x y : Int) (hx0 : 0 ≤ x)
    (hxW : x < W) (hy0 : 0 ≤ y) (hyH : y < H) (hr : 0 ≤ r) (hrW : 2 * r + 1 ≤ W)
    (hrH : 2 * r + 1 ≤ H) :
    ((W * H : Int) : ℚ) * ∑ i ∈ Finset.Ico 0 W, ∑ j ∈ Finset.Ico 0 H,
        g (i + j * W) * box_kernel W H r d ((x - i) % W + ((y - j) % H) * W) =
      (∑ dx ∈ Finset.Icc (-r) r, ∑ dy ∈ Finset.Icc (-r) r,
        g ((x + dx) % W + ((y + dy) % H) * W)) / d := by
  have hWH : (((W * H : Int) : ℚ)) ≠ 0 := by
    have : (0 : Int) < W * H := mul_pos (by omega) (by omega)
    exact_mod_cast this.ne'
  have hcell : ∀ i ∈ Finset.Ico 0 W, ∀ j ∈ Finset.Ico 0 H,
      g (i + j * W) * box_kernel W H r d ((x - i) % W + ((y - j) % H) * W) =
        (g (i + j * W) * (Burnscope3.hits H r y j : ℚ)) * (Burnscope3.hits W r x i : ℚ) *
          (1 / (((W * H : Int) : ℚ) * d)) := by
    intro i hi j hj
    rw [Finset.mem_Ico] at hi hj
    have hf := flat_index W ((x - i) % W) ((y - j) % H) (Int.emod_nonneg _ (by omega))
      (Int.emod_lt_of_pos _ (by omega))
    unfold box_kernel
    simp only [hf.1, hf.2]
    rw [← box_indicator W r x i hx0 hxW hi.1 hi.2 hr hrW,
      ← box_indicator H r y j hy0 hyH hj.1 hj.2 hr hrH]
    by_cases a : (x - i) % W ≤ r ∨ W - r ≤ (x - i) % W
    · by_cases b : (y - j) % H ≤ r ∨ H - r ≤ (y - j) % H
      · rw [if_pos ⟨a, b⟩, if_pos a, if_pos b]; ring
      · rw [if_neg (fun h => b h.2), if_pos a, if_neg b]; ring
    · rw [if_neg (fun h => a h.1), if_neg a]; ring
  rw [Finset.sum_congr rfl fun i hi => Finset.sum_congr rfl fun j hj => hcell i hi j hj]
  have hinner : ∀ i ∈ Finset.Ico 0 W,
      ∑ j ∈ Finset.Ico 0 H, (g (i + j * W) * (Burnscope3.hits H r y j : ℚ)) *
          (Burnscope3.hits W r x i : ℚ) * (1 / (((W * H : Int) : ℚ) * d)) =
        (∑ dy ∈ Finset.Icc (-r) r, g (i + ((y + dy) % H) * W)) *
          (Burnscope3.hits W r x i : ℚ) * (1 / (((W * H : Int) : ℚ) * d)) := by
    intro i _
    rw [← Finset.sum_mul, ← Finset.sum_mul,
      sum_mul_hits H r y (by omega) (fun j => g (i + j * W))]
  rw [Finset.sum_congr rfl hinner, ← Finset.sum_mul,
    sum_mul_hits W r x (by omega) (fun i => ∑ dy ∈ Finset.Icc (-r) r, g (i + ((y + dy) % H) * W))]
  push_cast at hWH ⊢
  rw [mul_one_div, ← mul_div_assoc, mul_div_mul_left _ _ hWH]

/-- C4: one generation of the frequency engine (forward real-to-complex
transform of the grid, the loop over all `H*(W/2+1)` coefficients that stores
the complex product with the kernel transform, backward transform) yields,
over exact reals, `new[x,y] = W*H * sum over (i,j) of grid[i,j] *
kernel[(x-i) mod W, (y-j) mod H]`; hence for the uniform box kernel with the
normalisation of the spatial engine it is the spatial engine's toroidal window
sum divided by the divider, before rounding. -/
theorem fft_generation_circular_convolution (W H : Int) (hW : 1 ≤ W) (hH : 1 ≤ H)
    (pixbuf apex : Int → ℚ) (x y : Int) (hx0 : 0 ≤ x) (hxW : x < W) (hy0 : 0 ≤ y) (hyH : y < H) :
    (∀ (pf af : Int → ℂ) (idx : Int), 0 ≤ idx → idx < H * (W / 2 + 1) →
      multiply_loop (H * (W / 2 + 1)).toNat 0 pf af idx = pf idx * af idx) ∧
    fft_generation W H pixbuf apex (x + y * W) =
      (((W * H : Int) : ℚ) * ∑ i ∈ Finset.Ico 0 W, ∑ j ∈ Finset.Ico 0 H,
        pixbuf (i + j * W) * apex ((x - i) % W + ((y - j) % H) * W) : ℚ) ∧
    ∀ (src : Int → Burnscope3.pixel3_t) (c : Fin 3) (r : Int) (d : ℚ),
      0 ≤ r → 2 * r + 1 ≤ W → 2 * r + 1 ≤ H →
      fft_generation W H (fun k => ((src k).rgb c : ℚ)) (box_kernel W H r d) (x + y * W) =
        ((Burnscope3.spec_window_sum src W H true x y r c : ℚ) / d : ℚ) := by
  refine ⟨fun pf af idx h0 h1 => ?_, fft_generation_eq W H (by omega) (by omega) pixbuf apex x y
    hx0 hxW, fun src c r d hr hrW hrH => ?_⟩
  · rw [multiply_loop_eq]
    have hn : 0 ≤ H * (W / 2 + 1) := by omega
    simp only
    rw [if_pos ⟨h0, by rw [Int.toNat_of_nonneg hn]; omega⟩]
  · have hb := box_convolution W H r d (fun k => ((src k).rgb c : ℚ)) x y hx0 hxW hy0 hyH hr hrW
      hrH
    simp only at hb
    rw [fft_generation_eq W H (by omega) (by omega) _ _ x y hx0 hxW, hb]
    congr 2
    unfold Burnscope3.spec_window_sum
    rw [if_pos rfl]
    push_cast
    refine Finset.sum_congr rfl fun dx _ => Finset.sum_congr rfl fun dy _ => ?_
    rw [mul_comm ((y + dy) % H) W]

/-- Witness of C4 on a 3x3 grid of ones with the kernel of nine weights 1/81:
the cell `(0,0)` of the next generation is `9 * (9 * (1/81)) = 1`. -/
theorem fft_generation_circular_convolution_witness :
    fft_generation 3 3 (fun _ => 1) (fun _ => 1 / 81) (0 + 0 * 3) = ((1 : ℚ) : ℝ) := by
  rw [(fft_generation_circular_convolution 3 3 (by decide) (by decide) (fun _ => 1)
    (fun _ => 1 / 81) 0 0 (by decide) (by decide) (by decide) (by decide)).2.1]
  congr 1
  simp
  norm_num

theorem c_min_eq_min (a b : ℚ) : c_min a b = min a b := by
  unfold c_min
  by_cases h : a > b
  · rw [if_pos h, min_eq_right (le_of_lt h)]
  · rw [if_neg h, min_eq_left (not_lt.mp h)]

/-- An inner loop of `mirror_x` that is to run more iterations than there are
cells to the left of the fold leaves the buffer. -/
theorem mirror_x_row_leaves_buffer (n : Int) :
    ∀ (k : Nat) (pixbuf : Int → ℚ) (pos_to pos_from : Int), pos_from ≤ (k : Int) - 1 →
      mirror_x_row n (k + 1) (pixbuf, pos_to, pos_from) = none := by
  intro k
  induction k with
  | zero =>
    intro pixbuf pos_to pos_from h
    rw [mirror_x_row, if_neg (by push_cast at h; omega)]
  | succ k ih =>
    intro pixbuf pos_to pos_from h
    rw [mirror_x_row]
    by_cases c : 0 ≤ pos_to ∧ pos_to < n ∧ 0 ≤ pos_from ∧ pos_from < n
    · rw [if_pos c]
      exact ih _ _ _ (by push_cast at h ⊢; omega)
    · rw [if_neg c]

/-- For every odd width `mirror_x` dereferences a cell outside the buffer in
its first row. -/
theorem mirror_x_odd_width (pixbuf : Int → ℚ) (W H : Int) (hW : 1 ≤ W) (hodd : W % 2 = 1)
    (hH : 1 ≤ H) : mirror_x pixbuf W H = none := by
  unfold mirror_x
  simp only
  obtain ⟨h, hh⟩ : ∃ h : Nat, H.toNat = h + 1 := ⟨H.toNat - 1, by omega⟩
  obtain ⟨k, hk⟩ : ∃ k : Nat, (W - W / 2).toNat = k + 1 := ⟨(W - W / 2).toNat - 1, by omega⟩
  rw [hh, mirror_x_rows, hk, mirror_x_row_leaves_buffer (W * H) k _ _ _ (by omega)]
  rfl

/-- The inner loop of `mirror_x` while it stays inside the buffer: the `k`
cells from `pos_to` upwards and the `k` cells from `pos_from` downwards are
replaced by the minimum of the mirrored pair. -/
theorem mirror_x_row_eq (n : Int) :
    ∀ (k : Nat) (pixbuf : Int → ℚ) (pos_to pos_from : Int), (k : Int) ≤ pos_from + 1 →
      pos_to + k ≤ n → pos_from < pos_to →
      mirror_x_row n k (pixbuf, pos_to, pos_from) =
        some (fun idx => if (pos_to ≤ idx ∧ idx < pos_to + k) ∨ (pos_from - k < idx ∧ idx ≤ pos_from)
            then min (pixbuf idx) (pixbuf (pos_to + pos_from - idx)) else pixbuf idx,
          pos_to + k, pos_from - k) := by
  intro k
  induction k with
  | zero =>
    intro pixbuf pos_to pos_from _ _ _
    rw [mirror_x_row]
    congr 2
    · funext idx
      rw [if_neg (by push_cast; omega)]
    · simp
  | succ k ih =>
    intro pixbuf pos_to pos_from h1 h2 h3
    push_cast at h1 h2
    rw [mirror_x_row, if_pos (by omega)]
    simp only
    rw [ih _ _ _ (by omega) (by omega) (by omega)]
    congr 2
    · funext idx
      by_cases c : (pos_to + 1 ≤ idx ∧ idx < pos_to + 1 + k) ∨
          (pos_from - 1 - k < idx ∧ idx ≤ pos_from - 1)
      · rw [if_pos c, if_pos (by push_cast; omega),
          Function.update_noteq (by omega), Function.update_noteq (by omega),
          Function.update_noteq (by omega), Function.update_noteq (by omega)]
        congr 2; ring
      · rw [if_neg c]
        by_cases c1 : idx = pos_from
        · subst c1
          rw [Function.update_same, if_pos (by push_cast; omega), c_min_eq_min, min_comm]
          congr 2; ring
        · rw [Function.update_noteq c1]
          by_cases c2 : idx = pos_to
          · subst c2
            rw [Function.update_same, if_pos (by push_cast; omega), c_min_eq_min]
            congr 2; ring
          · rw [Function.update_noteq c2, if_neg (by push_cast; omega)]
    · refine Prod.ext ?_ ?_
      · simp only; push_cast; ring
      · simp only; push_cast; ring

/-- The rows `y .. y+k-1` of `mirror_x` for an even width: every cell of these
rows is replaced by the minimum of itself and its mirror image in the row. -/
theorem mirror_x_rows_eq (W H m : Int) (hm : 1 ≤ m) (hWm : W = 2 * m) :
    ∀ (k : Nat) (y : Int) (pixbuf : Int → ℚ), 0 ≤ y → y + k ≤ H →
      mirror_x_rows (W * H) W m (W - m) (W + m) k (pixbuf, y * W + m, y * W + m - 1) =
        some (fun idx => if y * W ≤ idx ∧ idx < (y + k) * W then
            min (pixbuf idx) (pixbuf ((W - 1 - idx % W) + (idx / W) * W)) else pixbuf idx,
          (y + k) * W + m, (y + k) * W + m - 1) := by
  intro k
  induction k with
  | zero =>
    intro y pixbuf _ _
    rw [mirror_x_rows]
    congr 2
    · funext idx
      rw [if_neg (by push_cast; rw [add_zero]; omega)]
    · simp
  | succ k ih =>
    intro y pixbuf hy0 hyH
    push_cast at hyH
    have hmn : ((W - m).toNat : Int) = m := by omega
    have hW0 : 0 < W := by omega
    have eA1 : (y + 1) * W = y * W + W := by ring
    have eA2 : (y + 1 + (k : Int)) * W = y * W + W + k * W := by ring
    have eA3 : (y + ((k + 1 : Nat) : Int)) * W = y * W + W + k * W := by push_cast; ring
    have hK : 0 ≤ (k : Int) * W := mul_nonneg (by omega) (by omega)
    have hA : 0 ≤ y * W := mul_nonneg hy0 (by omega)
    have hyW : y * W + W + k * W ≤ W * H := by
      have : (y + 1 + (k : Int)) * W ≤ H * W := by
        apply mul_le_mul_of_nonneg_right <;> omega
      rw [eA2] at this
      rw [mul_comm W H]
      exact this
    obtain ⟨R, hR⟩ : ∃ R : Int → ℚ, R = fun idx =>
        if (y * W + m ≤ idx ∧ idx < y * W + m + m) ∨
          (y * W + m - 1 - m < idx ∧ idx ≤ y * W + m - 1)
        then min (pixbuf idx) (pixbuf (y * W + m + (y * W + m - 1) - idx)) else pixbuf idx :=
      ⟨_, rfl⟩
    have hRin : ∀ i, y * W ≤ i → i < y * W + W →
        R i = min (pixbuf i) (pixbuf (y * W + m + (y * W + m - 1) - i)) := by
      intro i h1 h2
      rw [hR]
      simp only
      rw [if_pos (by omega)]
    have hRout : ∀ i, (i < y * W ∨ y * W + W ≤ i) → R i = pixbuf i := by
      intro i h1
      rw [hR]
      simp only
      rw [if_neg (by omega)]
    rw [mirror_x_rows, mirror_x_row_eq (W * H) (W - m).toNat pixbuf _ _ (by rw [hmn]; omega)
      (by rw [hmn]; omega) (by omega), Option.some_bind]
    simp only [hmn]
    rw [← hR, show y * W + m + m + (W - m) = (y + 1) * W + m by rw [hWm]; ring,
      show y * W + m - 1 - m + (W + m) = (y + 1) * W + m - 1 by rw [hWm]; ring,
      ih (y + 1) R (by omega) (by omega)]
    congr 2
    · funext idx
      have hq : ∀ q : Int, (q * W ≤ idx ↔ q ≤ idx / W) := fun q =>
        (Int.le_ediv_iff_mul_le hW0).symm
      have hmod : idx / W * W = idx - idx % W := by
        have := Int.emod_add_ediv idx W
        linarith
      have hm0 := Int.emod_nonneg idx (by omega : W ≠ 0)
      have hmW := Int.emod_lt_of_pos idx hW0
      rw [eA1, eA2, eA3]
      by_cases c : y * W + W ≤ idx ∧ idx < y * W + W + k * W
      · have hge : y * W + W ≤ idx / W * W := by
          have h1 : y + 1 ≤ idx / W := (hq (y + 1)).mp (by rw [eA1]; exact c.1)
          have h2 : (y + 1) * W ≤ idx / W * W := mul_le_mul_of_nonneg_right h1 (by omega)
          rw [eA1] at h2
          exact h2
        rw [if_pos c, if_pos (by omega), hRout idx (by omega), hRout _ (by omega)]
      · rw [if_neg c]
        by_cases c1 : y * W ≤ idx ∧ idx < y * W + W
        · have hy : idx / W = y := by
            have h1 : y ≤ idx / W := (hq y).mp c1.1
            have h2 : ¬ (y + 1 ≤ idx / W) := fun hc => by
              have := (hq (y + 1)).mpr hc
              rw [eA1] at this
              omega
            omega
          have e : y * W + m + (y * W + m - 1) - idx = W - 1 - idx % W + idx / W * W := by
            have hmod2 : y * W = idx - idx % W := by rw [← hy]; exact hmod
            rw [hmod]
            omega
          rw [if_pos (by omega), hRin idx c1.1 c1.2, e]
        · rw [if_neg (by omega), hRout idx (by omega)]
    · refine Prod.ext ?_ ?_
      · simp only; push_cast; ring
      · simp only; push_cast; ring

/-- For an even width `mirror_x` returns, and every cell of the grid holds the
minimum of the pre-fold values of itself and of its mirror image, so the
result is symmetric. -/
theorem mirror_x_even_width (pixbuf : Int → ℚ) (W H : Int) (hW : 2 ≤ W) (heven : W % 2 = 0)
    (hH : 0 ≤ H) :
    ∃ out, mirror_x pixbuf W H = some out ∧
      ∀ x y, 0 ≤ x → x < W → 0 ≤ y → y < H →
        out (x + y * W) = min (pixbuf (x + y * W)) (pixbuf ((W - 1 - x) + y * W)) ∧
        out (x + y * W) = out ((W - 1 - x) + y * W) := by
  have hWm : W = 2 * (W / 2) := by omega
  have hk : ((H.toNat : Nat) : Int) = H := Int.toNat_of_nonneg hH
  have h := mirror_x_rows_eq W H (W / 2) (by omega) hWm H.toNat 0 pixbuf (le_refl _) (by omega)
  rw [zero_mul, zero_add, hk, zero_add] at h
  have hcell : ∀ x y, 0 ≤ x → x < W → 0 ≤ y → y < H →
      (if 0 ≤ x + y * W ∧ x + y * W < H * W then
        min (pixbuf (x + y * W)) (pixbuf ((W - 1 - (x + y * W) % W) + ((x + y * W) / W) * W))
        else pixbuf (x + y * W)) =
      min (pixbuf (x + y * W)) (pixbuf ((W - 1 - x) + y * W)) := by
    intro x y hx0 hxW hy0 hyH
    have hf := flat_index W x y hx0 hxW
    have h1 : 0 ≤ y * W := mul_nonneg hy0 (by omega)
    have h2 : (y + 1) * W ≤ H * W := by
      apply mul_le_mul_of_nonneg_right <;> omega
    rw [if_pos ⟨by omega, by nlinarith⟩, hf.1, hf.2]
  refine ⟨fun idx => if 0 ≤ idx ∧ idx < H * W then
      min (pixbuf idx) (pixbuf ((W - 1 - idx % W) + (idx / W) * W)) else pixbuf idx, ?_,
    fun x y hx0 hxW hy0 hyH => ⟨hcell x y hx0 hxW hy0 hyH, ?_⟩⟩
  · unfold mirror_x
    simp only
    rw [show W - W / 2 = W / 2 by omega] at h ⊢
    rw [h]
    rfl
  · have h1 := hcell x y hx0 hxW hy0 hyH
    have h2 := hcell (W - 1 - x) y (by omega) (by omega) hy0 hyH
    rw [show W - 1 - (W - 1 - x) = x by ring] at h2
    simp only
    rw [h1, h2, min_comm]

/-- C5 (the defect): for the odd width 3 the inner loop of `mirror_x` runs two
iterations per row instead of one; in row 0 the second iteration dereferences
`pixbuf - 1`, whatever the grid holds. -/
theorem mirror_x_odd_width_leaves_buffer (pixbuf : Int → ℚ) : mirror_x pixbuf 3 3 = none :=
  mirror_x_odd_width pixbuf 3 3 (by decide) (by decide) (by decide)

/-- What one call of `seed1` adds to the buffer cell `idx`. -/
theorem seed1_apply (pixbuf : Int → ℚ) (W H x y : Int) (val : ℚ) (idx : Int) :
    seed1 pixbuf W H x y val idx =
      pixbuf idx + if (0 ≤ x ∧ x < W ∧ 0 ≤ y ∧ y < H) ∧ x + y * W = idx then val else 0 := by
  unfold seed1
  by_cases hg : x < 0 ∨ x ≥ W ∨ y < 0 ∨ y ≥ H
  · rw [if_pos hg, if_neg (by omega), add_zero]
  · rw [if_neg hg]
    by_cases hi : x + y * W = idx
    · rw [if_pos ⟨by omega, hi⟩, ← hi, Function.update_same]
    · rw [if_neg (fun h => hi h.2), Function.update_noteq (Ne.symm hi), add_zero]

/-- A loop whose body adds `c i` to the cell `idx` adds the sum of the `c i`
over its iterations. -/
theorem seg_adds (f : Int → (Int → ℚ) → (Int → ℚ)) (c : Int → ℚ) (idx : Int)
    (hf : ∀ i p, f i p idx = p idx + c i) :
    ∀ (k : Nat) (a : Int) (p : Int → ℚ),
      seg f k a p idx = p idx + ∑ i ∈ Finset.Ico a (a + k), c i := by
  intro k
  induction k with
  | zero => intro a p; simp [seg]
  | succ k ih =>
    intro a p
    rw [seg, ih, hf, sum_Ico_consec c (show a ≤ a + 1 by omega)
      (show a + 1 ≤ a + ((k + 1 : Nat) : Int) by push_cast; omega), sum_Ico_one]
    rw [show a + 1 + (k : Int) = a + ((k + 1 : Nat) : Int) by push_cast; ring, add_assoc]

/-- What `seed` adds to the buffer cell `idx`: one term per window position. -/
theorem seed_apply (pixbuf : Int → ℚ) (W H x y : Int) (val : ℚ) (r idx : Int) :
    seed pixbuf W H x y val r idx = pixbuf idx +
      ∑ ry ∈ Finset.Ico (-r) (-r + ((2 * r + 1).toNat : Int)),
        ∑ rx ∈ Finset.Ico (-r) (-r + ((2 * r + 1).toNat : Int)),
          if (0 ≤ x + rx ∧ x + rx < W ∧ 0 ≤ y + ry ∧ y + ry < H) ∧ (x + rx) + (y + ry) * W = idx
          then val else 0 := by
  unfold seed
  refine seg_adds _ _ idx (fun ry p => ?_) _ _ _
  exact seg_adds _ _ idx (fun rx p => seed1_apply p W H (x + rx) (y + ry) val idx) _ _ _

/-- A sum over an interval of a term that is `val` at one index `a` and 0
elsewhere. -/
theorem sum_Ico_single (lo hi a : Int) (P : Prop) [Decidable P] (val : ℚ) :
    (∑ k ∈ Finset.Ico lo hi, if k = a ∧ P then val else 0) =
      if (lo ≤ a ∧ a < hi) ∧ P then val else 0 := by
  by_cases hP : P
  · simp only [hP, and_true]
    rw [Finset.sum_ite_eq']
    simp only [Finset.mem_Ico]
  · simp [hP]

/-- C12: `seed` adds `val` exactly once to every grid cell `(i, j)` with
`|i - x| <= r` and `|j - y| <= r`, for every centre `(x, y)`, inside the grid
or not; every other cell of the grid, and everything outside the buffer, is
unchanged: window positions outside the grid are dropped, not wrapped. -/
theorem seed_adds_to_clipped_window (pixbuf : Int → ℚ) (W H x y : Int) (val : ℚ) (r : Int)
    (hW : 1 ≤ W) (hr : 0 ≤ r) :
    (∀ i j, 0 ≤ i → i < W → 0 ≤ j → j < H →
      seed pixbuf W H x y val r (i + j * W) =
        pixbuf (i + j * W) + if |i - x| ≤ r ∧ |j - y| ≤ r then val else 0) ∧
    (∀ idx, idx < 0 ∨ W * H ≤ idx → seed pixbuf W H x y val r idx = pixbuf idx) := by
  have hn : ((2 * r + 1).toNat : Int) = 2 * r + 1 := Int.toNat_of_nonneg (by omega)
  constructor
  · intro i j hi0 hiW hj0 hjH
    rw [seed_apply, hn]
    congr 1
    have hin : ∀ ry rx : Int,
        (if (0 ≤ x + rx ∧ x + rx < W ∧ 0 ≤ y + ry ∧ y + ry < H) ∧
            (x + rx) + (y + ry) * W = i + j * W then val else (0 : ℚ)) =
          if rx = i - x ∧ ry = j - y then val else 0 := by
      intro ry rx
      by_cases h : rx = i - x ∧ ry = j - y
      · rw [if_pos h, if_pos]
        obtain ⟨h1, h2⟩ := h
        subst h1 h2
        refine ⟨⟨by omega, by omega, by omega, by omega⟩, ?_⟩
        rw [show x + (i - x) = i by ring, show y + (j - y) = j by ring]
      · rw [if_neg h, if_neg]
        rintro ⟨⟨g1, g2, _, _⟩, he⟩
        have f1 := flat_index W (x + rx) (y + ry) g1 g2
        have f2 := flat_index W i j hi0 hiW
        rw [he] at f1
        apply h
        constructor
        · have := f1.1.symm.trans f2.1
          omega
        · have := f1.2.symm.trans f2.2
          omega
    simp only [hin]
    simp only [sum_Ico_single]
    have hc : ∀ k : Int, ((-r ≤ i - x ∧ i - x < -r + (2 * r + 1)) ∧ k = j - y) ↔
        (k = j - y ∧ (-r ≤ i - x ∧ i - x < -r + (2 * r + 1))) := fun k => and_comm
    simp only [hc]
    rw [sum_Ico_single]
    by_cases h : |i - x| ≤ r ∧ |j - y| ≤ r
    · rw [if_pos h, if_pos]
      obtain ⟨h1, h2⟩ := h
      rw [abs_le] at h1 h2
      omega
    · rw [if_neg h, if_neg]
      intro g
      apply h
      rw [abs_le, abs_le]
      omega
  · intro idx hidx
    rw [seed_apply]
    rw [Finset.sum_eq_zero, add_zero]
    intro ry _
    apply Finset.sum_eq_zero
    intro rx _
    rw [if_neg]
    rintro ⟨⟨g1, g2, g3, g4⟩, he⟩
    have hb := cell_in_buffer W H (x + rx) (y + ry) g1 g2 g3 g4
    rw [Int.toNat_of_nonneg (mul_nonneg (by omega) (by omega))] at hb
    omega

/-- The clipped-window theorem of `seed` at a centre outside a 4x3 grid. -/
theorem seed_adds_to_clipped_window_witness :
    (1 : Int) ≤ 4 ∧ (0 : Int) ≤ 1 ∧
    (∀ i j : Int, 0 ≤ i → i < 4 → 0 ≤ j → j < 3 →
      seed (fun _ => 7) 4 3 (-1) 3 (1 / 2) 1 (i + j * 4) =
        (fun _ => (7 : ℚ)) (i + j * 4) + if |i - (-1)| ≤ 1 ∧ |j - 3| ≤ 1 then 1 / 2 else 0) ∧
    (∀ idx : Int, idx < 0 ∨ 4 * 3 ≤ idx →
      seed (fun _ => 7) 4 3 (-1) 3 (1 / 2) 1 idx = (fun _ => (7 : ℚ)) idx) :=
  ⟨by decide, by decide,
    seed_adds_to_clipped_window (fun _ => 7) 4 3 (-1) 3 (1 / 2) 1 (by decide) (by decide)⟩

/-- C13 (the defect): on a 3x3 grid a 2x2 image stamped at `(2, 0)` reaches
over the right edge by one column.  The samples `img[1,0]` and `img[1,1]`,
whose target column is `3 >= W`, are not discarded: they are added to the
cells `(0, 1)` and `(0, 2)` at the start of the following rows. -/
theorem seed_image_wraps_into_next_row (pixbuf img : Int → ℚ) :
    ∃ out, seed_image pixbuf 3 3 2 0 img 2 2 = some out ∧
      out (2 + 0 * 3) = pixbuf (2 + 0 * 3) + img (0 + 0 * 2) * 2048 ∧
      out (2 + 1 * 3) = pixbuf (2 + 1 * 3) + img (0 + 1 * 2) * 2048 ∧
      out (0 + 1 * 3) = pixbuf (0 + 1 * 3) + img (1 + 0 * 2) * 2048 ∧
      out (0 + 2 * 3) = pixbuf (0 + 2 * 3) + img (1 + 1 * 2) * 2048 := by
  refine ⟨_, rfl, ?_, ?_, ?_, ?_⟩ <;> simp [Function.update, c_max_int]

/-- C14 as stated fails: for the cell value `-1/2`, palette length 4096 and
colour shift 0, `render` selects the index 0 (the value is truncated toward
zero), not `(floor(-1/2) + 0) mod 4096 = 4095`; and for the cell value `-1`
the conversion to `unsigned int` has no defined result. -/
theorem render_index_truncates_negative :
    render_cell 4096 0 (-1 / 2) = some (-1 / 2, 0) ∧
    (⌊(-1 / 2 : ℚ)⌋ + 0) % 4096 = 4095 ∧
    render_cell 4096 0 (-1) = none := by
  have hc : ⌈(-(1 / 2) : ℚ)⌉ = 0 := by
    rw [Int.ceil_eq_iff]
    norm_num
  refine ⟨?_, ?_, ?_⟩
  · norm_num [render_cell, to_uint, c_trunc, hc]
  · norm_num
  · norm_num [render_cell, to_uint, c_trunc]

/-- The truncation of a value in `(-1, 0)` is 0. -/
theorem c_trunc_small_neg (q : ℚ) (h1 : -1 < q) (h0 : q < 0) : c_trunc q = 0 := by
  unfold c_trunc
  rw [if_neg (not_le.mpr h0), Int.ceil_eq_iff]
  push_cast
  constructor <;> linarith

/-- C14, amended: for a palette of `N` colours, a colour shift `0 <= s < 2^31`
and every cell value `v` with `-1 < v < 2^32` (and `v / N < 2^31`), `render`
selects the palette index `(trunc(v) + s) mod N`, where `trunc` rounds toward
zero, which is in `[0, N)`; a cell value `v >= N` is first reduced to
`v - N * trunc(v / N)`. -/
theorem render_index_truncated (N : Nat) (s : Int) (v : ℚ) (hN : 1 ≤ N) (hN2 : N ≤ 2147483648)
    (hs0 : 0 ≤ s) (hs : s < 2147483648) (hv : -1 < v) (hv1 : v < 4294967296)
    (hv2 : v / (N : ℚ) < 2147483648) :
    ∃ pix, render_cell N s v = some (pix, ((c_trunc v + s) % (N : Int)).toNat) ∧
      ((c_trunc v + s) % (N : Int)).toNat < N ∧
      pix = (if v ≥ (N : ℚ) then v - (N : ℚ) * (c_trunc (v / (N : ℚ)) : ℚ) else v) := by
  have hNq : (0 : ℚ) < (N : ℚ) := by exact_mod_cast hN
  have hNz : (N : Int) ≠ 0 := by omega
  have hlt : ((c_trunc v + s) % (N : Int)).toNat < N := by
    have h1 := Int.emod_nonneg (c_trunc v + s) hNz
    have h2 := Int.emod_lt_of_pos (c_trunc v + s) (show (0 : Int) < N by omega)
    omega
  have hs' : (s % 4294967296).toNat = s.toNat := by
    rw [Int.emod_eq_of_lt hs0 (by omega)]
  unfold render_cell
  rw [if_neg (by omega)]
  by_cases hge : v ≥ (N : ℚ)
  · rw [if_pos hge, if_pos hge]
    obtain ⟨k, hk⟩ : ∃ k : Int, k = ⌊v / (N : ℚ)⌋ := ⟨_, rfl⟩
    have hq1 : (1 : ℚ) ≤ v / (N : ℚ) := by
      rw [le_div_iff₀ hNq]
      linarith
    have hk1 : (k : ℚ) ≤ v / (N : ℚ) := hk ▸ Int.floor_le _
    have hk2 : v / (N : ℚ) < (k : ℚ) + 1 := hk ▸ Int.lt_floor_add_one _
    have hk3 : 1 ≤ k := hk ▸ Int.le_floor.mpr (by exact_mod_cast hq1)
    have hk4 : k < 2147483648 := hk ▸ Int.floor_lt.mpr (by exact_mod_cast hv2)
    have hk5 : (k : ℚ) * (N : ℚ) ≤ v := (le_div_iff₀ hNq).mp hk1
    have hk6 : v < ((k : ℚ) + 1) * (N : ℚ) := (div_lt_iff₀ hNq).mp hk2
    have htk : c_trunc (v / (N : ℚ)) = k := by
      unfold c_trunc
      rw [if_pos (by linarith), hk]
    have htv : c_trunc v = ⌊v⌋ := by
      unfold c_trunc
      rw [if_pos (by linarith)]
    have hkn : ((k.toNat : Nat) : Int) = k := Int.toNat_of_nonneg (by omega)
    have hkq : ((k.toNat : Nat) : ℚ) = (k : ℚ) := by exact_mod_cast hkn
    have hprod : N * k.toNat < 4294967296 := by
      have : ((N * k.toNat : Nat) : ℚ) < 4294967296 := by
        push_cast
        rw [hkq]
        linarith
      exact_mod_cast this
    have hpix : v - (((N * (k % 4294967296).toNat) % 4294967296 : Nat) : ℚ) =
        v - (N : ℚ) * (k : ℚ) := by
      rw [Int.emod_eq_of_lt (by omega) (by omega), Nat.mod_eq_of_lt hprod]
      push_cast
      rw [hkq]
    refine ⟨v - (N : ℚ) * (k : ℚ), ?_, hlt, by rw [htk]⟩
    unfold to_int
    rw [if_pos ⟨by linarith, hv2⟩, Option.map_some', Option.some_bind, htk, hpix]
    have hp0 : 0 ≤ v - (N : ℚ) * (k : ℚ) := by linarith
    have hpN : v - (N : ℚ) * (k : ℚ) < (N : ℚ) := by linarith
    unfold to_uint
    rw [if_pos ⟨by linarith, by linarith⟩, Option.map_some']
    have htp : c_trunc (v - (N : ℚ) * (k : ℚ)) = ⌊v⌋ - (N : Int) * k := by
      unfold c_trunc
      rw [if_pos hp0, show (N : ℚ) * (k : ℚ) = (((N : Int) * k : Int) : ℚ) by push_cast; ring,
        Int.floor_sub_int]
    have hu0 : 0 ≤ ⌊v⌋ - (N : Int) * k := by
      rw [← htp]
      unfold c_trunc
      rw [if_pos hp0]
      exact Int.floor_nonneg.mpr hp0
    have huN : ⌊v⌋ - (N : Int) * k < (N : Int) := by
      rw [← htp]
      unfold c_trunc
      rw [if_pos hp0, Int.floor_lt]
      exact_mod_cast hpN
    congr 2
    rw [htp, hs', htv]
    have e1 : (⌊v⌋ - (N : Int) * k).toNat + s.toNat < 4294967296 := by omega
    rw [Nat.mod_eq_of_lt e1]
    zify
    rw [Int.toNat_of_nonneg hu0, Int.toNat_of_nonneg hs0,
      Int.toNat_of_nonneg (Int.emod_nonneg _ hNz),
      show ⌊v⌋ - (N : Int) * k + s = ⌊v⌋ + s + (N : Int) * (-k) by ring,
      Int.add_mul_emod_self_left]
  · rw [if_neg hge, if_neg hge]
    refine ⟨v, ?_, hlt, rfl⟩
    rw [Option.some_bind]
    unfold to_uint
    rw [if_pos ⟨hv, hv1⟩, Option.map_some']
    have hvN : v < (N : ℚ) := not_le.mp hge
    have ht0 : 0 ≤ c_trunc v := by
      by_cases h0 : 0 ≤ v
      · unfold c_trunc
        rw [if_pos h0]
        exact Int.floor_nonneg.mpr h0
      · rw [c_trunc_small_neg v hv (not_le.mp h0)]
    have htN : c_trunc v < (N : Int) := by
      by_cases h0 : 0 ≤ v
      · unfold c_trunc
        rw [if_pos h0, Int.floor_lt]
        exact_mod_cast hvN
      · rw [c_trunc_small_neg v hv (not_le.mp h0)]
        omega
    congr 2
    rw [hs']
    have e1 : (c_trunc v).toNat + s.toNat < 4294967296 := by omega
    rw [Nat.mod_eq_of_lt e1]
    zify
    rw [Int.toNat_of_nonneg ht0, Int.toNat_of_nonneg hs0,
      Int.toNat_of_nonneg (Int.emod_nonneg _ hNz)]

/-- The amended palette mapping at the program's palette length 4096, for a
cell value above the palette range. -/
theorem render_index_truncated_witness :
    ∃ pix, render_cell 4096 100 (10000 + 1 / 2) =
        some (pix, ((c_trunc (10000 + 1 / 2) + 100) % ((4096 : Nat) : Int)).toNat) ∧
      ((c_trunc (10000 + 1 / 2) + 100) % ((4096 : Nat) : Int)).toNat < 4096 ∧
      pix = (if (10000 + 1 / 2 : ℚ) ≥ ((4096 : Nat) : ℚ) then
        (10000 + 1 / 2 : ℚ) - ((4096 : Nat) : ℚ) *
          (c_trunc ((10000 + 1 / 2) / ((4096 : Nat) : ℚ)) : ℚ) else 10000 + 1 / 2) :=
  render_index_truncated 4096 100 (10000 + 1 / 2) (by norm_num) (by norm_num) (by norm_num)
    (by norm_num) (by norm_num) (by norm_num) (by norm_num)

/-- The inner loop of `mirror_p` (and `mirror_x`) continues a scan, whether
the two pointers have met or not. -/
theorem mirror_x_row_scan (n c a : Int) (orig : Int → ℚ) :
    ∀ (k : Nat) (b : Int), a ≤ b → 0 ≤ b → b + k ≤ n → c < n → b + k ≤ c + 1 →
      mirror_x_row n k (scanned orig c a b, b, c - b) =
        some (scanned orig c a (b + k), b + k, c - b - k) := by
  intro k
  induction k with
  | zero =>
    intro b _ _ _ _ _
    rw [mirror_x_row]
    simp
  | succ k ih =>
    intro b hab hb0 hbn hcn hbc
    push_cast at hbn hbc
    rw [mirror_x_row, if_pos (by omega)]
    simp only
    have hv : c_min (scanned orig c a b b) (scanned orig c a b (c - b)) =
        min (orig b) (orig (c - b)) := by
      rw [c_min_eq_min]
      unfold scanned
      by_cases hP : a ≤ c - b ∧ c - b < b
      · rw [if_pos (Or.inr hP), if_pos (Or.inl hP), show c - (c - b) = b by ring,
          min_comm (orig (c - b)), min_self]
      · rw [if_neg (by omega), if_neg (by rw [show c - (c - b) = b by ring]; omega)]
    rw [hv]
    have hst : Function.update (Function.update (scanned orig c a b) b (min (orig b) (orig (c - b))))
        (c - b) (min (orig b) (orig (c - b))) = scanned orig c a (b + 1) := by
      funext idx
      by_cases c1 : idx = c - b
      · subst c1
        rw [Function.update_same]
        unfold scanned
        rw [if_pos (by rw [show c - (c - b) = b by ring]; omega), show c - (c - b) = b by ring,
          min_comm]
      · rw [Function.update_noteq c1]
        by_cases c2 : idx = b
        · subst c2
          rw [Function.update_same]
          unfold scanned
          rw [if_pos (by omega)]
        · rw [Function.update_noteq c2]
          unfold scanned
          by_cases hq : (a ≤ idx ∧ idx < b) ∨ (a ≤ c - idx ∧ c - idx < b)
          · rw [if_pos hq, if_pos (by omega)]
          · rw [if_neg hq, if_neg (by omega)]
    rw [hst, show c - b - 1 = c - (b + 1) by ring,
      ih (b + 1) (by omega) (by omega) (by omega) hcn (by omega)]
    have e1 : b + 1 + (k : Int) = b + ((k + 1 : Nat) : Int) := by push_cast; ring
    have e2 : c - (b + 1) - (k : Int) = c - b - ((k + 1 : Nat) : Int) := by push_cast; ring
    rw [e1, e2]

/-- The loop of `mirror_p` with `j` rows left to scan returns, and the scan
has reached the end of the buffer. -/
theorem mirror_p_loop_scan (W n c a : Int) (orig : Int → ℚ) (hW : 1 ≤ W) (hcn : c = n - 1) :
    ∀ (j : Nat) (fuel : Nat) (b : Int), a ≤ b → 0 ≤ b → b + j * W = n → j + 1 ≤ fuel →
      mirror_p_loop W n fuel (scanned orig c a b, b, c - b) =
        some (scanned orig c a n, n, c - n) := by
  intro j
  induction j with
  | zero =>
    intro fuel b _ _ hbn hfuel
    obtain ⟨f, rfl⟩ : ∃ f, fuel = f + 1 := ⟨fuel - 1, by omega⟩
    have hb : b = n := by simpa using hbn
    subst hb
    rw [mirror_p_loop, if_neg (by simp)]
  | succ j ih =>
    intro fuel b hab hb0 hbn hfuel
    obtain ⟨f, rfl⟩ : ∃ f, fuel = f + 1 := ⟨fuel - 1, by omega⟩
    push_cast at hbn
    have hjW : 0 ≤ (j : Int) * W := mul_nonneg (by omega) (by omega)
    have hWn : ((W.toNat : Nat) : Int) = W := Int.toNat_of_nonneg (by omega)
    have e : (↑j + 1) * W = ↑j * W + W := by ring
    rw [mirror_p_loop, if_pos (by simp only; omega)]
    rw [mirror_x_row_scan n c a orig W.toNat b hab hb0 (by omega) (by omega) (by omega),
      Option.some_bind, hWn, show c - b - W = c - (b + W) by ring]
    exact ih f (b + W) (by omega) (by omega) (by omega) (by omega)

/-- The point fold: `mirror_p` returns, and every cell holds the minimum of
itself and its image under the point reflection. -/
theorem mirror_p_eq (pixbuf : Int → ℚ) (W H : Int) (hW : 1 ≤ W) (hH : 1 ≤ H) (fuel : Nat)
    (hfuel : H.toNat + 1 ≤ fuel) :
    ∃ out, mirror_p fuel pixbuf W H = some out ∧
      ∀ x y, 0 ≤ x → x < W → 0 ≤ y → y < H →
        out (x + y * W) = min (pixbuf (x + y * W)) (pixbuf ((W - 1 - x) + (H - 1 - y) * W)) := by
  obtain ⟨yf, hyf⟩ : ∃ yf, yf = H / 2 + H % 2 := ⟨_, rfl⟩
  have hyf1 : 1 ≤ yf := by omega
  have hyf2 : yf ≤ H := by omega
  have hyf3 : H ≤ 2 * yf := by omega
  have e1 : (yf - 1) * W + (W - 1) = (W * H - 1) - (H - yf) * W := by ring
  have e2 : (H - yf) * W + (yf.toNat : Int) * W = W * H := by
    rw [Int.toNat_of_nonneg (by omega)]
    ring
  have ha0 : 0 ≤ (H - yf) * W := mul_nonneg (by omega) (by omega)
  have hyW : yf * W ≥ (H - yf) * W := by
    apply mul_le_mul_of_nonneg_right <;> omega
  have hs0 : scanned pixbuf (W * H - 1) ((H - yf) * W) ((H - yf) * W) = pixbuf := by
    funext idx
    unfold scanned
    rw [if_neg (by omega)]
  have hl := mirror_p_loop_scan W (W * H) (W * H - 1) ((H - yf) * W) pixbuf hW rfl yf.toNat fuel
    ((H - yf) * W) (le_refl _) ha0 e2 (by omega)
  rw [hs0] at hl
  refine ⟨scanned pixbuf (W * H - 1) ((H - yf) * W) (W * H), ?_, ?_⟩
  · unfold mirror_p
    simp only
    rw [← hyf, e1, hl]
    rfl
  · intro x y hx0 hxW hy0 hyH
    have hb := cell_in_buffer W H x y hx0 hxW hy0 hyH
    rw [Int.toNat_of_nonneg (mul_nonneg (by omega) (by omega))] at hb
    have e3 : W * H - 1 - (x + y * W) = (W - 1 - x) + (H - 1 - y) * W := by ring
    have e4 : (H - yf) * W + yf * W = W * H := by ring
    unfold scanned
    rw [if_pos (by omega), e3]

/-- The inner loop of `mirror_y` on two rows that do not overlap: the `k`
cells from `pos_to` and the `k` cells from `pos_from` are replaced by the
minimum of the pair. -/
theorem mirror_y_row_eq (n : Int) :
    ∀ (k : Nat) (pixbuf : Int → ℚ) (pos_to pos_from : Int), 0 ≤ pos_from →
      pos_from + k ≤ pos_to → pos_to + k ≤ n →
      mirror_y_row n k (pixbuf, pos_to, pos_from) =
        some (fun idx =>
          if pos_to ≤ idx ∧ idx < pos_to + k then
            min (pixbuf idx) (pixbuf (idx - pos_to + pos_from))
          else if pos_from ≤ idx ∧ idx < pos_from + k then
            min (pixbuf idx) (pixbuf (idx - pos_from + pos_to))
          else pixbuf idx, pos_to + k, pos_from + k) := by
  intro k
  induction k with
  | zero =>
    intro pixbuf pos_to pos_from _ _ _
    rw [mirror_y_row]
    congr 2
    · funext idx
      rw [if_neg (by push_cast; omega), if_neg (by push_cast; omega)]
    · simp
  | succ k ih =>
    intro pixbuf pos_to pos_from h0 h1 h2
    push_cast at h1 h2
    rw [mirror_y_row, if_pos (by omega)]
    simp only
    rw [ih _ _ _ (by omega) (by omega) (by omega)]
    have e1 : pos_to + 1 + (k : Int) = pos_to + ((k + 1 : Nat) : Int) := by push_cast; ring
    have e2 : pos_from + 1 + (k : Int) = pos_from + ((k + 1 : Nat) : Int) := by push_cast; ring
    rw [e1, e2]
    congr 2
    funext idx
    by_cases c1 : pos_to + 1 ≤ idx ∧ idx < pos_to + ((k + 1 : Nat) : Int)
    · rw [if_pos c1, if_pos (by omega)]
      push_cast at c1
      rw [Function.update_noteq (by omega), Function.update_noteq (by omega),
        Function.update_noteq (by omega), Function.update_noteq (by omega)]
      congr 2; ring
    · rw [if_neg c1]
      by_cases c2 : pos_from + 1 ≤ idx ∧ idx < pos_from + ((k + 1 : Nat) : Int)
      · rw [if_pos c2]
        push_cast at c1 c2
        rw [if_neg (by push_cast; omega), if_pos (by push_cast; omega),
          Function.update_noteq (by omega), Function.update_noteq (by omega),
          Function.update_noteq (by omega), Function.update_noteq (by omega)]
        congr 2; ring
      · rw [if_neg c2]
        push_cast at c1 c2
        by_cases c3 : idx = pos_from
        · subst c3
          rw [Function.update_same, if_neg (by push_cast; omega), if_pos (by push_cast; omega),
            c_min_eq_min, min_comm]
          congr 2; ring
        · rw [Function.update_noteq c3]
          by_cases c4 : idx = pos_to
          · subst c4
            rw [Function.update_same, if_pos (by push_cast; omega), c_min_eq_min]
            congr 2; ring
          · rw [Function.update_noteq c4, if_neg (by push_cast; omega),
              if_neg (by push_cast; omega)]

/-- The column of a cell of the row that starts at the offset `b`. -/
theorem emod_of_row (W b idx : Int) (hb : W ∣ b) (h1 : b ≤ idx) (h2 : idx < b + W) :
    idx % W = idx - b := by
  obtain ⟨q, rfl⟩ := hb
  rw [show idx = (idx - W * q) + W * q by ring, Int.add_mul_emod_self_left,
    Int.emod_eq_of_lt (by omega) (by omega)]
  ring

/-- The loop of `mirror_y` with `j` rows left to fold returns, with all rows
folded. -/
theorem mirror_y_loop_fold (W n c a : Int) (orig : Int → ℚ) (hW : 1 ≤ W) (hc : c = n - W)
    (hWc : W ∣ c) (hca : c - a + W ≤ a) :
    ∀ (j : Nat) (fuel : Nat) (b : Int), a ≤ b → W ∣ b → b + j * W = n → j + 1 ≤ fuel →
      mirror_y_loop W n (-2 * W) fuel (folded orig W c a b, b, c - b) =
        some (folded orig W c a n, n, c - n) := by
  intro j
  induction j with
  | zero =>
    intro fuel b _ _ hbn hfuel
    obtain ⟨f, rfl⟩ : ∃ f, fuel = f + 1 := ⟨fuel - 1, by omega⟩
    have hb : b = n := by simpa using hbn
    subst hb
    rw [mirror_y_loop, if_neg (by simp)]
  | succ j ih =>
    intro fuel b hab hWb hbn hfuel
    obtain ⟨f, rfl⟩ : ∃ f, fuel = f + 1 := ⟨fuel - 1, by omega⟩
    push_cast at hbn
    have hjW : 0 ≤ (j : Int) * W := mul_nonneg (by omega) (by omega)
    have hWn : ((W.toNat : Nat) : Int) = W := Int.toNat_of_nonneg (by omega)
    have e : (↑j + 1) * W = ↑j * W + W := by ring
    rw [mirror_y_loop, if_pos (by simp only; omega)]
    rw [mirror_y_row_eq n W.toNat _ b (c - b) (by omega) (by omega) (by omega),
      Option.some_bind, hWn]
    simp only
    have hst : (fun idx =>
        if b ≤ idx ∧ idx < b + W then
          min (folded orig W c a b idx) (folded orig W c a b (idx - b + (c - b)))
        else if c - b ≤ idx ∧ idx < c - b + W then
          min (folded orig W c a b idx) (folded orig W c a b (idx - (c - b) + b))
        else folded orig W c a b idx) = folded orig W c a (b + W) := by
      funext idx
      by_cases c1 : b ≤ idx ∧ idx < b + W
      · have hm := emod_of_row W b idx hWb c1.1 c1.2
        rw [if_pos c1]
        unfold folded
        rw [if_neg (by omega), if_neg (by omega), if_pos (by omega), hm]
        congr 2; ring
      · rw [if_neg c1]
        by_cases c2 : c - b ≤ idx ∧ idx < c - b + W
        · have hm := emod_of_row W (c - b) idx (Int.dvd_sub hWc hWb) c2.1 c2.2
          rw [if_pos c2]
          unfold folded
          rw [if_neg (by omega), if_neg (by omega), if_pos (by omega), hm]
          congr 2; ring
        · rw [if_neg c2]
          unfold folded
          by_cases hq : (a ≤ idx ∧ idx < b) ∨ (c - b + W ≤ idx ∧ idx < c - a + W)
          · rw [if_pos hq, if_pos (by omega)]
          · rw [if_neg hq, if_neg (by omega)]
    rw [hst, show c - b + W + -2 * W = c - (b + W) by ring]
    exact ih f (b + W) (by omega) (Int.dvd_add hWb (dvd_refl W)) (by omega) (by omega)

/-- The row of a cell against the offset of the start of row `r`. -/
theorem cell_row_lt (W x y r : Int) (hx0 : 0 ≤ x) (hxW : x < W) :
    x + y * W < r * W ↔ y < r := by
  constructor
  · intro h
    by_contra hn
    have : r * W ≤ y * W := mul_le_mul_of_nonneg_right (by omega) (by omega)
    omega
  · intro h
    have : (y + 1) * W ≤ r * W := mul_le_mul_of_nonneg_right (by omega) (by omega)
    have e : (y + 1) * W = y * W + W := by ring
    omega

/-- The axis-y fold: `mirror_y` returns, and every cell holds the minimum of
itself and its image in the mirrored row. -/
theorem mirror_y_eq (pixbuf : Int → ℚ) (W H : Int) (hW : 1 ≤ W) (hH : 1 ≤ H) (fuel : Nat)
    (hfuel : H.toNat + 1 ≤ fuel) :
    ∃ out, mirror_y fuel pixbuf W H = some out ∧
      ∀ x y, 0 ≤ x → x < W → 0 ≤ y → y < H →
        out (x + y * W) = min (pixbuf (x + y * W)) (pixbuf (x + (H - 1 - y) * W)) := by
  obtain ⟨yf, hyf⟩ : ∃ yf, yf = H / 2 := ⟨_, rfl⟩
  have hyf1 : 0 ≤ yf := by omega
  have hyf3 : 2 * yf ≤ H := by omega
  have hyf4 : H ≤ 2 * yf + 1 := by omega
  have e1 : (yf - 1) * W = (W * H - W) - (H - yf) * W := by ring
  have e2 : (H - yf) * W + (yf.toNat : Int) * W = W * H := by
    rw [Int.toNat_of_nonneg (by omega)]
    ring
  have hyW : yf * W ≤ (H - yf) * W := by
    apply mul_le_mul_of_nonneg_right <;> omega
  have e3 : W * H - W - (H - yf) * W + W = yf * W := by ring
  have hWc : W ∣ W * H - W := Dvd.intro (H - 1) (by ring)
  have hWa : W ∣ (H - yf) * W := Dvd.intro_left (H - yf) rfl
  have hs0 : folded pixbuf W (W * H - W) ((H - yf) * W) ((H - yf) * W) = pixbuf := by
    funext idx
    unfold folded
    rw [if_neg (by omega)]
  have hl := mirror_y_loop_fold W (W * H) (W * H - W) ((H - yf) * W) pixbuf hW rfl hWc
    (by omega) yf.toNat fuel ((H - yf) * W) (le_refl _) hWa e2 (by omega)
  rw [hs0] at hl
  refine ⟨folded pixbuf W (W * H - W) ((H - yf) * W) (W * H), ?_, ?_⟩
  · unfold mirror_y
    simp only
    rw [← hyf, e1, hl]
    rfl
  · intro x y hx0 hxW hy0 hyH
    have hb := cell_in_buffer W H x y hx0 hxW hy0 hyH
    rw [Int.toNat_of_nonneg (mul_nonneg (by omega) (by omega))] at hb
    have hm := (flat_index W x y hx0 hxW).1
    have e4 : W * H - W - (x + y * W) + 2 * x = x + (H - 1 - y) * W := by ring
    have l1 := cell_row_lt W x y (H - yf) hx0 hxW
    have l2 := cell_row_lt W x y yf hx0 hxW
    unfold folded
    rw [hm, e4]
    by_cases hmid : yf ≤ y ∧ y < H - yf
    · have hy : H - 1 - y = y := by omega
      rw [if_neg (by omega), hy, min_self]
    · rw [if_pos (by omega)]

/-- C16: for every grid of `W >= 1` columns and `H >= 1` rows, `mirror_y` and
`mirror_p` return (given fuel for the `H/2 + 1` tests of their `while` loops)
and every cell holds the minimum of its own value and the value of its mirror
cell before the fold: `(x, H-1-y)` for `mirror_y`, `(W-1-x, H-1-y)` for
`mirror_p`.  Each result is symmetric under its reflection, and `mirror_y`
leaves the middle row of an odd `H` unchanged. -/
theorem mirror_y_mirror_p_fold_to_min (pixbuf : Int → ℚ) (W H : Int) (hW : 1 ≤ W) (hH : 1 ≤ H)
    (fuel : Nat) (hfuel : H.toNat + 1 ≤ fuel) :
    (∃ out, mirror_y fuel pixbuf W H = some out ∧
      (∀ x y, 0 ≤ x → x < W → 0 ≤ y → y < H →
        out (x + y * W) = min (pixbuf (x + y * W)) (pixbuf (x + (H - 1 - y) * W)) ∧
        out (x + y * W) = out (x + (H - 1 - y) * W)) ∧
      (∀ x, 0 ≤ x → x < W → H % 2 = 1 → out (x + H / 2 * W) = pixbuf (x + H / 2 * W))) ∧
    (∃ out, mirror_p fuel pixbuf W H = some out ∧
      ∀ x y, 0 ≤ x → x < W → 0 ≤ y → y < H →
        out (x + y * W) =
          min (pixbuf (x + y * W)) (pixbuf ((W - 1 - x) + (H - 1 - y) * W)) ∧
        out (x + y * W) = out ((W - 1 - x) + (H - 1 - y) * W)) := by
  obtain ⟨oy, hy1, hy2⟩ := mirror_y_eq pixbuf W H hW hH fuel hfuel
  obtain ⟨op, hp1, hp2⟩ := mirror_p_eq pixbuf W H hW hH fuel hfuel
  refine ⟨⟨oy, hy1, fun x y hx0 hxW hy0 hyH => ⟨hy2 x y hx0 hxW hy0 hyH, ?_⟩,
    fun x hx0 hxW hodd => ?_⟩, op, hp1, fun x y hx0 hxW hy0 hyH => ⟨hp2 x y hx0 hxW hy0 hyH, ?_⟩⟩
  · rw [hy2 x y hx0 hxW hy0 hyH, hy2 x (H - 1 - y) hx0 hxW (by omega) (by omega),
      show H - 1 - (H - 1 - y) = y by ring, min_comm]
  · rw [hy2 x (H / 2) hx0 hxW (by omega) (by omega), show H - 1 - H / 2 = H / 2 by omega,
      min_self]
  · rw [hp2 x y hx0 hxW hy0 hyH,
      hp2 (W - 1 - x) (H - 1 - y) (by omega) (by omega) (by omega) (by omega),
      show W - 1 - (W - 1 - x) = x by ring, show H - 1 - (H - 1 - y) = y by ring, min_comm]

/-- The fold theorem on a 3x3 grid, whose middle row `mirror_p` visits twice. -/
theorem mirror_y_mirror_p_fold_to_min_witness :
    (∃ out, mirror_y 4 (fun idx => (idx : ℚ) * (4 - idx)) 3 3 = some out ∧
      (∀ x y, 0 ≤ x → x < 3 → 0 ≤ y → y < 3 →
        out (x + y * 3) = min ((fun idx : Int => (idx : ℚ) * (4 - idx)) (x + y * 3))
          ((fun idx : Int => (idx : ℚ) * (4 - idx)) (x + (3 - 1 - y) * 3)) ∧
        out (x + y * 3) = out (x + (3 - 1 - y) * 3)) ∧
      (∀ x, 0 ≤ x → x < 3 → (3 : Int) % 2 = 1 →
        out (x + 3 / 2 * 3) = (fun idx : Int => (idx : ℚ) * (4 - idx)) (x + 3 / 2 * 3))) ∧
    (∃ out, mirror_p 4 (fun idx => (idx : ℚ) * (4 - idx)) 3 3 = some out ∧
      ∀ x y, 0 ≤ x → x < 3 → 0 ≤ y → y < 3 →
        out (x + y * 3) = min ((fun idx : Int => (idx : ℚ) * (4 - idx)) (x + y * 3))
          ((fun idx : Int => (idx : ℚ) * (4 - idx)) ((3 - 1 - x) + (3 - 1 - y) * 3)) ∧
        out (x + y * 3) = out ((3 - 1 - x) + (3 - 1 - y) * 3)) :=
  mirror_y_mirror_p_fold_to_min (fun idx => (idx : ℚ) * (4 - idx)) 3 3 (by decide) (by decide) 4
    (by decide)

/-- The truncation of a whole number is the number. -/
theorem c_trunc_intCast (n : Int) : c_trunc (n : ℚ) = n := by
  unfold c_trunc
  by_cases h : (0 : ℚ) ≤ (n : ℚ)
  · rw [if_pos h, Int.floor_intCast]
  · rw [if_neg h, Int.ceil_intCast]

/-- C11 (the defect): on every grid whose smaller side is even, every
requested radius `R >= min(W,H)/2` makes `make_apex` run forever, whatever the
burn factor, the shape and the earlier kernel (`last_apex_r` at most the
largest radius an earlier call can have left): the radius is clamped to
`min(W/2, H/2)`, `overwrite_r` is half the smaller side, and the skip over the
zero band sets the loop counter back to `overwrite_r`. -/
theorem make_apex_hangs_at_clamped_radius (W H : Int) (st : apex_state) (R B : ℚ) (opt : Int)
    (hW : 3 ≤ W) (hH : 3 ≤ H) (heven : min W H % 2 = 0) (hR : ((min W H : Int) : ℚ) / 2 ≤ R)
    (hl : st.last_apex_r ≤ min (W / 2) (H / 2)) (fuel : Nat) :
    make_apex fuel W H st R B opt = none := by
  have hc : apex_clamp W H R = ((min (W / 2) (H / 2) : Int) : ℚ) := by
    unfold apex_clamp
    apply min_eq_right
    refine le_trans ?_ hR
    rw [le_div_iff₀ (by norm_num)]
    have : min (W / 2) (H / 2) * 2 ≤ min W H := by
      rcases le_total W H with h | h
      · rw [min_eq_left h, min_eq_left (by omega)]
        omega
      · rw [min_eq_right h, min_eq_right (by omega)]
        omega
    exact_mod_cast this
  have hm : max (c_trunc (apex_clamp W H R)) st.last_apex_r = min (W / 2) (H / 2) := by
    rw [hc, c_trunc_intCast]
    exact max_eq_left hl
  refine make_apex_hangs W H st R B opt (by omega) (by omega) ?_ fuel
  rw [hm]
  rcases le_total W H with h | h
  · rw [min_eq_left h] at heven
    rw [min_eq_left (by omega)]
    left
    omega
  · rw [min_eq_right h] at heven
    rw [min_eq_right (by omega)]
    right
    omega

/-- The default 320x200 grid after `fft_init` (`last_apex_r = 8`), with the
radius 150 requested (`burnscope -a 150`). -/
theorem make_apex_hangs_at_clamped_radius_witness :
    make_apex 100000 320 200 ⟨fun _ => 0, 8⟩ 150 (201 / 200) 0 = none :=
  make_apex_hangs_at_clamped_radius 320 200 ⟨fun _ => 0, 8⟩ 150 (201 / 200) 0
    (by decide) (by decide) (by decide) (by norm_num) (by decide) 100000

/-- C18 as stated fails: on the default 320x200 grid the requested radius 250
stays 250 in both engines, above `min(W,H) = 200`; the stated formula gives
200. -/
theorem startup_radius_above_smaller_side :
    main_startup 320 200 250 (201 / 200) = Except.ok (250, 201 / 200) ∧
    (250 : ℚ) ≠ max 1 (min 250 ((min 320 200 : Int) : ℚ)) ∧
    Burnscope3.main_startup 320 200 250 (1969 / 2000) = Except.ok (250, 1969 / 2000) ∧
    (250 : Int) ≠ max 1 (min 250 (min 320 200)) := by
  refine ⟨?_, ?_, ?_, ?_⟩
  · norm_num [main_startup, Burnscope3.minuscule, c_max_int, c_min, c_max]
  · norm_num
  · norm_num [Burnscope3.main_startup, Burnscope3.minuscule, Burnscope3.c_max_int,
      Burnscope3.c_min_int]
  · decide

/-- C18, amended: for every grid size in `[3, 10000]`, every requested radius
`R` and every accepted damping factor, the radius in effect after the startup
check is `max(1, min(R, max(W,H)))` in both engines, so it lies in
`[1, max(W,H)]`. -/
theorem startup_radius_clamp (W H : Int) (R : ℚ) (Ri : Int) (B : ℚ) (hW : 3 ≤ W)
    (hW2 : W ≤ 10000) (hH : 3 ≤ H) (hH2 : H ≤ 10000) (hB : Burnscope3.minuscule ≤ |B|) :
    main_startup W H R B = Except.ok (max 1 (min R ((max W H : Int) : ℚ)), B) ∧
    Burnscope3.main_startup W H Ri B = Except.ok (max 1 (min Ri (max W H)), B) ∧
    1 ≤ max 1 (min R ((max W H : Int) : ℚ)) ∧
    max 1 (min R ((max W H : Int) : ℚ)) ≤ ((max W H : Int) : ℚ) ∧
    1 ≤ max 1 (min Ri (max W H)) ∧ max 1 (min Ri (max W H)) ≤ max W H := by
  have hsz : ¬ (W < 3 ∨ W > 10000 ∨ H < 3 ∨ H > 10000) := by omega
  have h : ¬ (B > -Burnscope3.minuscule ∧ B < Burnscope3.minuscule) := by
    rintro ⟨h1, h2⟩
    have : |B| < Burnscope3.minuscule := abs_lt.mpr ⟨h1, h2⟩
    linarith
  have hmax : c_max_int W H = max W H := by
    unfold c_max_int
    by_cases c : W > H
    · rw [if_pos c, max_eq_left (le_of_lt c)]
    · rw [if_neg c, max_eq_right (not_lt.mp c)]
  have hmax3 : Burnscope3.c_max_int W H = max W H := hmax
  have hm1 : (1 : Int) ≤ max W H := le_trans (by omega) (le_max_left W H)
  have hm1q : (1 : ℚ) ≤ ((max W H : Int) : ℚ) := by exact_mod_cast hm1
  refine ⟨?_, ?_, le_max_left _ _, max_le hm1q (min_le_right _ _), le_max_left _ _,
    max_le hm1 (min_le_right _ _)⟩
  · unfold main_startup
    simp only [if_neg hsz, if_neg h, hmax]
    congr 2
    rw [c_min_eq_min, min_comm]
    unfold c_max
    by_cases c : (1 : ℚ) > min R ((max W H : Int) : ℚ)
    · rw [if_pos c, max_eq_left (le_of_lt c)]
    · rw [if_neg c, max_eq_right (not_lt.mp c)]
  · unfold Burnscope3.main_startup
    simp only [if_neg hsz, if_neg h, hmax3]
    congr 2
    have e : Burnscope3.c_min_int (max W H) Ri = min Ri (max W H) := by
      unfold Burnscope3.c_min_int
      by_cases c : max W H > Ri
      · rw [if_pos c, min_eq_left (le_of_lt c)]
      · rw [if_neg c, min_eq_right (not_lt.mp c)]
    rw [e]
    unfold Burnscope3.c_max_int
    by_cases c : (1 : Int) > min Ri (max W H)
    · rw [if_pos c, max_eq_left (le_of_lt c)]
    · rw [if_neg c, max_eq_right (not_lt.mp c)]

/-- The radius clamp on the default grid of the frequency engine. -/
theorem startup_radius_clamp_witness :
    main_startup 320 200 1000 (201 / 200) =
      Except.ok (max 1 (min 1000 ((max 320 200 : Int) : ℚ)), 201 / 200) :=
  (startup_radius_clamp 320 200 1000 0 (201 / 200) (by decide) (by decide) (by decide)
    (by decide) (by rw [abs_of_pos (by norm_num)]; norm_num [Burnscope3.minuscule])).1

/-- A run of `n` presses of the key `w`. -/
theorem key_w_repeated (n : Nat) : ∀ B : ℚ,
    (List.replicate n burn_key.w).foldl key_burn_factor B = B - n * (3 / 10000) := by
  induction n with
  | zero => intro B; simp
  | succ n ih =>
    intro B
    rw [List.replicate_succ, List.foldl_cons, ih]
    unfold key_burn_factor
    push_cast
    ring

/-- C19 as stated fails: the burn factor 0.0011 passes the startup check, and
after one press of `w` the factor handed to the kernel builder is 0.0008,
inside the rejected band; from the default 1.005, 3350 presses of `w` make it
exactly 0. -/
theorem runtime_burn_enters_rejected_band :
    main_startup 320 200 (801 / 100) (11 / 10000) = Except.ok (801 / 100, 11 / 10000) ∧
    slow_burn_factor ([burn_key.w].foldl key_burn_factor (11 / 10000)) false (6 / 1000) 1 =
      8 / 10000 ∧
    |(8 / 10000 : ℚ)| < 1 / 1000 ∧
    slow_burn_factor ((List.replicate 3350 burn_key.w).foldl key_burn_factor (1005 / 1000))
      false (6 / 1000) 1 = 0 := by
  refine ⟨?_, ?_, ?_, ?_⟩
  · norm_num [main_startup, Burnscope3.minuscule, c_max_int, c_min, c_max]
  · norm_num [slow_burn_factor, key_burn_factor]
  · rw [abs_of_pos (by norm_num)]
    norm_num
  · rw [key_w_repeated]
    norm_num [slow_burn_factor]

/-- C19, amended: the damping keys are not clamped.  After a sequence of
damping keys without `e` the burn factor is the value before plus the sum of
the steps of the keys; after an `e` it is 1.005 plus the steps of the keys
that follow it.  With wavy mode off, this is the value handed to the kernel
builder. -/
theorem runtime_burn_is_sum_of_steps (B : ℚ) (pre ks : List burn_key)
    (hks : ∀ k ∈ ks, k ≠ burn_key.e) :
    ks.foldl key_burn_factor B = B + (ks.map burn_step).sum ∧
    (pre ++ burn_key.e :: ks).foldl key_burn_factor B = 1005 / 1000 + (ks.map burn_step).sum ∧
    ∀ wavy_amp wavy, slow_burn_factor (ks.foldl key_burn_factor B) false wavy_amp wavy =
      B + (ks.map burn_step).sum := by
  have h1 : ∀ (ks : List burn_key) (B : ℚ), (∀ k ∈ ks, k ≠ burn_key.e) →
      ks.foldl key_burn_factor B = B + (ks.map burn_step).sum := by
    intro ks
    induction ks with
    | nil => intro B _; simp
    | cons k ks ih =>
      intro B hk
      rw [List.foldl_cons, ih _ (fun k' hk' => hk k' (List.mem_cons_of_mem _ hk')),
        List.map_cons, List.sum_cons, ← add_assoc]
      congr 1
      have hke := hk k (List.mem_cons_self _ _)
      cases k <;> first | exact absurd rfl hke | (unfold key_burn_factor burn_step; ring)
  refine ⟨h1 ks B hks, ?_, fun _ _ => ?_⟩
  · rw [List.foldl_append, List.foldl_cons]
    exact h1 ks _ hks
  · unfold slow_burn_factor
    simp only [Bool.false_eq_true, if_false]
    exact h1 ks B hks

/-- Two presses of `q` and one of `t` after a reset with `e`. -/
theorem runtime_burn_is_sum_of_steps_witness :
    [burn_key.q, burn_key.q, burn_key.t].foldl key_burn_factor (1 / 2) =
      1 / 2 + ([burn_key.q, burn_key.q, burn_key.t].map burn_step).sum :=
  (runtime_burn_is_sum_of_steps (1 / 2) [burn_key.left] [burn_key.q, burn_key.q, burn_key.t]
    (by decide)).1

/-- C20 (the defect): the compute thread posts `please_render`, the render
thread takes the request and stands at its call of `render`, the key `b`
arrives, and the poll loop clears the grid before `rendering_done` was
posted: a write to the grid between the post of `please_render` and the
observation of `rendering_done`. -/
theorem poll_loop_clears_grid_during_render :
    (pipeline_run (pipeline_start false) [tick.main, tick.main, tick.render,
      tick.input event.key_b, tick.main, tick.main]).grid_torn = true ∧
    (pipeline_run (pipeline_start false) [tick.main, tick.main, tick.render,
      tick.input event.key_b, tick.main, tick.main]).render_at = render_pc.render ∧
    (pipeline_run (pipeline_start false) [tick.main, tick.main, tick.render,
      tick.input event.key_b, tick.main, tick.main]).rendering_done = 0 ∧
    (pipeline_run (pipeline_start false) [tick.main, tick.main, tick.render,
      tick.input event.key_b, tick.main]).grid_torn = false := by
  decide

/-- The compute thread leaves alone what the save window is about. -/
theorem main_step_frame (s : pipeline) :
    (main_step s).surface_torn = s.surface_torn ∧ (main_step s).render_at = s.render_at ∧
      (main_step s).save_requested = s.save_requested ∧
      (main_step s).out_stream = s.out_stream := by
  rcases s with ⟨running, out_stream, pr, ps, rd, sd, events, m, r, sv, rr, gt, sr, st⟩
  cases m
  · simp only [main_step]
    split_ifs <;> simp
  · simp [main_step]
  · simp [main_step]
  · cases events with
    | nil =>
      simp only [main_step]
      split_ifs <;> simp
    | cons e rest => cases e <;> simp [main_step, handle_event]
  · simp [main_step]
  · simp [main_step]

/-- The save thread leaves alone what the save window is about. -/
theorem save_step_frame (s : pipeline) :
    (save_step s).surface_torn = s.surface_torn ∧ (save_step s).render_at = s.render_at ∧
      (save_step s).save_requested = s.save_requested ∧
      (save_step s).out_stream = s.out_stream := by
  rcases s with ⟨running, out_stream, pr, ps, rd, sd, events, m, r, sv, rr, gt, sr, st⟩
  cases sv
  · simp only [save_step]
    split_ifs <;> simp
  · simp [save_step]
  · simp [save_step]
  · simp [save_step]

/-- Every step of the pipeline keeps `save_window_inv`. -/
theorem save_window_inv_step (s : pipeline) (t : tick) (h : save_window_inv s) :
    save_window_inv (pipeline_step s t) := by
  cases t with
  | main =>
    obtain ⟨f1, f2, f3, f4⟩ := main_step_frame s
    unfold save_window_inv pipeline_step
    rw [f1, f2, f3, f4]
    exact h
  | save =>
    obtain ⟨f1, f2, f3, f4⟩ := save_step_frame s
    unfold save_window_inv pipeline_step
    rw [f1, f2, f3, f4]
    exact h
  | input e => exact h
  | render =>
    rcases s with ⟨running, out_stream, pr, ps, rd, sd, events, m, r, sv, rr, gt, sr, st⟩
    unfold save_window_inv at h ⊢
    simp only at h
    obtain ⟨h1, h2, h3⟩ := h
    subst h1
    cases r
    · simp only [pipeline_step, render_step]
      split_ifs <;> simp_all
    · simp only [pipeline_step, render_step]
      split_ifs <;> simp_all
    · cases sr <;> simp_all [pipeline_step, render_step]
    · simp_all [pipeline_step, render_step]
    · simp_all [pipeline_step, render_step]
    · simp_all [pipeline_step, render_step]

/-- The pipeline keeps `save_window_inv` along every interleaving. -/
theorem save_window_inv_run (ticks : List tick) :
    ∀ s, save_window_inv s → save_window_inv (pipeline_run s ticks) := by
  induction ticks with
  | nil => intro s h; exact h
  | cons t ticks ih =>
    intro s h
    exact ih _ (save_window_inv_step s t h)

/-- The render half of the no-tear property holds: in every interleaving of
the three threads and the input, with or without an output stream, the render
thread writes the surface only outside the window from its post of
`please_save` to its observation of `saving_done`. -/
theorem render_keeps_out_of_save_window (out_stream : Bool) (ticks : List tick) :
    (pipeline_run (pipeline_start out_stream) ticks).surface_torn = false := by
  refine (save_window_inv_run ticks (pipeline_start out_stream) ?_).1
  unfold save_window_inv pipeline_start
  simp

/-- The render thread leaves alone what the render window is about. -/
theorem render_step_frame (s : pipeline) :
    (render_step s).grid_torn = s.grid_torn ∧ (render_step s).events = s.events ∧
      (render_step s).main_at = s.main_at ∧
      (render_step s).render_requested = s.render_requested := by
  rcases s with ⟨running, out_stream, pr, ps, rd, sd, events, m, r, sv, rr, gt, sr, st⟩
  cases r
  · simp only [render_step]
    split_ifs <;> simp
  · simp only [render_step]
    split_ifs <;> simp
  · simp [render_step]
  · simp [render_step]
  · simp [render_step]
  · simp [render_step]

/-- The save thread leaves alone what the render window is about. -/
theorem save_step_frame_grid (s : pipeline) :
    (save_step s).grid_torn = s.grid_torn ∧ (save_step s).events = s.events ∧
      (save_step s).main_at = s.main_at ∧
      (save_step s).render_requested = s.render_requested := by
  rcases s with ⟨running, out_stream, pr, ps, rd, sd, events, m, r, sv, rr, gt, sr, st⟩
  cases sv
  · simp only [save_step]
    split_ifs <;> simp
  · simp [save_step]
  · simp [save_step]
  · simp [save_step]

/-- Every step other than the arrival of a key `b` keeps
`render_window_inv`. -/
theorem render_window_inv_step (s : pipeline) (t : tick) (ht : t ≠ tick.input event.key_b)
    (h : render_window_inv s) : render_window_inv (pipeline_step s t) := by
  cases t with
  | render =>
    obtain ⟨f1, f2, f3, f4⟩ := render_step_frame s
    unfold render_window_inv pipeline_step
    rw [f1, f2, f3, f4]
    exact h
  | save =>
    obtain ⟨f1, f2, f3, f4⟩ := save_step_frame_grid s
    unfold render_window_inv pipeline_step
    rw [f1, f2, f3, f4]
    exact h
  | input e =>
    obtain ⟨h1, h2, h3⟩ := h
    refine ⟨h1, ?_, h3⟩
    intro e' he'
    simp only [pipeline_step, List.mem_append, List.mem_singleton] at he'
    rcases he' with he' | he'
    · exact h2 e' he'
    · subst he'
      intro hb
      exact ht (by rw [hb])
  | main =>
    rcases s with ⟨running, out_stream, pr, ps, rd, sd, events, m, r, sv, rr, gt, sr, st⟩
    unfold render_window_inv at h ⊢
    simp only at h
    obtain ⟨h1, h2, h3⟩ := h
    subst h1
    cases m
    · simp only [pipeline_step, main_step]
      split_ifs <;> simp_all
    · simp_all [pipeline_step, main_step]
    · simp_all [pipeline_step, main_step]
    · cases events with
      | nil =>
        simp only [pipeline_step, main_step]
        split_ifs <;> simp_all
      | cons e rest =>
        have he : e ≠ event.key_b := h2 e (List.mem_cons_self _ _)
        have hrest : ∀ e' ∈ rest, e' ≠ event.key_b :=
          fun e' he' => h2 e' (List.mem_cons_of_mem _ he')
        cases e
        · exact absurd rfl he
        · exact ⟨rfl, hrest, by simp [pipeline_step, main_step, handle_event]⟩
        · exact ⟨rfl, hrest, by simp [pipeline_step, main_step, handle_event]⟩
        · exact ⟨rfl, hrest, by simp [pipeline_step, main_step, handle_event]⟩
    · simp_all [pipeline_step, main_step]
    · simp_all [pipeline_step, main_step]

/-- Without the key `b` the compute half of the no-tear property holds: in
every interleaving in which no key `b` arrives, the compute thread writes the
grid only outside the window from its post of `please_render` to its
observation of `rendering_done`. -/
theorem compute_keeps_out_of_render_window (out_stream : Bool) (ticks : List tick)
    (hb : ∀ t ∈ ticks, t ≠ tick.input event.key_b) :
    (pipeline_run (pipeline_start out_stream) ticks).grid_torn = false := by
  have hrun : ∀ (ticks : List tick), (∀ t ∈ ticks, t ≠ tick.input event.key_b) →
      ∀ s, render_window_inv s → render_window_inv (pipeline_run s ticks) := by
    intro ticks
    induction ticks with
    | nil => intro _ s h; exact h
    | cons t ticks ih =>
      intro ht s h
      exact ih (fun t' ht' => ht t' (List.mem_cons_of_mem _ ht')) _
        (render_window_inv_step s t (ht t (List.mem_cons_self _ _)) h)
  refine (hrun ticks hb (pipeline_start out_stream) ?_).1
  unfold render_window_inv pipeline_start
  simp

/-- The inner loop of `seed_image` on a row that has passed the end of the
grid does nothing. -/
theorem seed_image_row_skip (img : Int → ℚ) (pixbuf_end : Int) (k : Nat) (pixbuf : Int → ℚ)
    (pos ip : Int) (h : pixbuf_end ≤ pos) :
    seed_image_row img pixbuf_end k (pixbuf, pos, ip) = some (pixbuf, pos, ip) := by
  cases k with
  | zero => rfl
  | succ k => rw [seed_image_row, if_neg (by omega)]

/-- The inner loop of `seed_image` on a row inside the grid: the `k` cells
from `pixbuf_pos` receive the `k` samples from `img_pos`. -/
theorem seed_image_row_eq (img : Int → ℚ) (pixbuf_end : Int) :
    ∀ (k : Nat) (pixbuf : Int → ℚ) (pos ip : Int), 0 ≤ pos → pos + k ≤ pixbuf_end →
      seed_image_row img pixbuf_end k (pixbuf, pos, ip) =
        some (fun idx => if pos ≤ idx ∧ idx < pos + k
            then pixbuf idx + img (ip + (idx - pos)) * 2048 else pixbuf idx,
          pos + k, ip + k) := by
  intro k
  induction k with
  | zero =>
    intro pixbuf pos ip _ _
    rw [seed_image_row]
    congr 2
    · funext idx
      rw [if_neg (by push_cast; omega)]
    · simp
  | succ k ih =>
    intro pixbuf pos ip h0 h1
    push_cast at h1
    rw [seed_image_row, if_pos (by omega), if_pos h0, ih _ _ _ (by omega) (by omega)]
    have e1 : pos + 1 + (k : Int) = pos + ((k + 1 : Nat) : Int) := by push_cast; ring
    have e2 : ip + 1 + (k : Int) = ip + ((k + 1 : Nat) : Int) := by push_cast; ring
    rw [e1, e2]
    congr 2
    funext idx
    by_cases c1 : idx = pos
    · subst c1
      rw [if_neg (by omega), Function.update_same, if_pos (by push_cast; omega), sub_self,
        add_zero]
    · rw [Function.update_noteq c1]
      by_cases c2 : pos + 1 ≤ idx ∧ idx < pos + ((k + 1 : Nat) : Int)
      · rw [if_pos c2, if_pos (by omega)]
        congr 3
        ring
      · rw [if_neg c2, if_neg (by omega)]

/-- The outer loop of `seed_image` once the rows have passed the end of the
grid: the grid is left as it is. -/
theorem seed_image_rows_skip (img : Int → ℚ) (pixbuf_end w pitch : Int) (hp : 0 ≤ pitch) :
    ∀ (m : Nat) (pixbuf : Int → ℚ) (pos ip : Int), pixbuf_end ≤ pos →
      ∃ pos' ip', seed_image_rows img pixbuf_end w pitch m (pixbuf, pos, ip) =
        some (pixbuf, pos', ip') := by
  intro m
  induction m with
  | zero => intro pixbuf pos ip _; exact ⟨pos, ip, rfl⟩
  | succ m ih =>
    intro pixbuf pos ip h
    rw [seed_image_rows, seed_image_row_skip img pixbuf_end _ pixbuf pos ip h, Option.some_bind]
    exact ih pixbuf (pos + pitch) ip (by omega)

/-- The outer loop of `seed_image` for an image that fits between the column
`x` and the right edge: the `K` rows that lie inside the grid are stamped, the
rows below the grid are dropped. -/
theorem seed_image_rows_eq (orig img : Int → ℚ) (W H x y w K : Int) (hW : 1 ≤ W) (hx : 0 ≤ x)
    (hy : 0 ≤ y) (hw : 0 ≤ w) (hxw : x + w ≤ W) (hK : 0 < K → y + K ≤ H) (h : Nat)
    (hKle : K ≤ h) (hKh : K < h → H ≤ y + K) :
    ∀ (m : Nat) (j : Int), 0 ≤ j → j ≤ K → j + m = h →
      ∃ pos' ip', seed_image_rows img (W * H) w (W - w) m
          (stamped orig img W w (y * W + x) j, y * W + x + j * W, j * w) =
        some (stamped orig img W w (y * W + x) K, pos', ip') := by
  intro m
  induction m with
  | zero =>
    intro j _ hjK hjh
    push_cast at hjh
    have : j = K := by omega
    subst this
    exact ⟨_, _, rfl⟩
  | succ m ih =>
    intro j hj0 hjK hjh
    push_cast at hjh
    have hyW : 0 ≤ y * W := mul_nonneg hy (by omega)
    have hjW : 0 ≤ j * W := mul_nonneg hj0 (by omega)
    by_cases hlt : j < K
    · have hK' := hK (by omega)
      have hrow : (y + j + 1) * W ≤ H * W := mul_le_mul_of_nonneg_right (by omega) (by omega)
      have e0 : (y + j + 1) * W = y * W + j * W + W := by ring
      have e1 : W * H = H * W := by ring
      have hwn : ((w.toNat : Nat) : Int) = w := Int.toNat_of_nonneg hw
      rw [seed_image_rows, seed_image_row_eq img (W * H) w.toNat _ _ _ (by omega)
        (by rw [hwn]; omega), Option.some_bind, hwn]
      simp only
      have hst : (fun idx =>
          if y * W + x + j * W ≤ idx ∧ idx < y * W + x + j * W + w then
            stamped orig img W w (y * W + x) j idx +
              img (j * w + (idx - (y * W + x + j * W))) * 2048
          else stamped orig img W w (y * W + x) j idx) =
          stamped orig img W w (y * W + x) (j + 1) := by
        funext idx
        have e2 : (j + 1) * W = j * W + W := by ring
        by_cases c1 : y * W + x + j * W ≤ idx ∧ idx < y * W + x + j * W + W
        · have hm : (idx - (y * W + x)) % W = idx - (y * W + x) - j * W :=
            emod_of_row W (j * W) (idx - (y * W + x)) (Dvd.intro_left j rfl) (by omega) (by omega)
          have hd : (idx - (y * W + x)) / W = j := by
            have := flat_index W (idx - (y * W + x) - j * W) j (by omega) (by omega)
            rw [show idx - (y * W + x) - j * W + j * W = idx - (y * W + x) by ring] at this
            exact this.2
          have hs : stamped orig img W w (y * W + x) j idx = orig idx := by
            unfold stamped
            rw [if_neg (by omega)]
          rw [hs]
          by_cases c2 : idx < y * W + x + j * W + w
          · rw [if_pos ⟨c1.1, c2⟩]
            unfold stamped
            rw [if_pos (by omega), hm, hd]
            congr 3
            ring
          · rw [if_neg (by omega)]
            unfold stamped
            rw [if_neg (by omega)]
        · rw [if_neg (by omega)]
          unfold stamped
          by_cases c3 : y * W + x ≤ idx ∧ idx < y * W + x + j * W ∧ (idx - (y * W + x)) % W < w
          · rw [if_pos c3, if_pos (by omega)]
          · rw [if_neg c3, if_neg (by omega)]
      rw [hst, show y * W + x + j * W + w + (W - w) = y * W + x + (j + 1) * W by ring,
        show j * w + w = (j + 1) * w by ring]
      exact ih (j + 1) (by omega) (by omega) (by omega)
    · have hjK' : j = K := by omega
      subst hjK'
      have hrow : H * W ≤ (y + j) * W :=
        mul_le_mul_of_nonneg_right (hKh (by omega)) (by omega)
      have e0 : (y + j) * W = y * W + j * W := by ring
      have e1 : W * H = H * W := by ring
      exact seed_image_rows_skip img (W * H) w (W - w) (by omega) (m + 1) _ _ _ (by omega)

/-- Where the image fits between the column `x` and the right edge
(`x + w <= W`), `seed_image` stamps it clipped at the bottom of the grid:
every grid cell `(x+i, y+j)` under the image receives `img[i,j] * 2048`, the
image rows below the grid are dropped, and every other cell is unchanged. -/
theorem seed_image_within_width (pixbuf img : Int → ℚ) (W H x y w h : Int) (hW : 1 ≤ W)
    (hx : 0 ≤ x) (hy : 0 ≤ y) (hw : 0 ≤ w) (hxw : x + w ≤ W) :
    ∃ out, seed_image pixbuf W H x y img w h = some out ∧
      ∀ c d, 0 ≤ c → c < W → 0 ≤ d → d < H →
        out (c + d * W) = pixbuf (c + d * W) +
          if x ≤ c ∧ c < x + w ∧ y ≤ d ∧ d < y + h
          then img ((c - x) + (d - y) * w) * 2048 else 0 := by
  obtain ⟨K, hKdef⟩ : ∃ K : Int, K = min (h.toNat : Int) (max 0 (H - y)) := ⟨_, rfl⟩
  have hK0 : 0 ≤ K := by omega
  have hs0 : stamped pixbuf img W w (y * W + x) 0 = pixbuf := by
    funext idx
    unfold stamped
    rw [if_neg (by omega)]
  obtain ⟨pos', ip', hrows⟩ := seed_image_rows_eq pixbuf img W H x y w K hW hx hy hw hxw
    (by omega) h.toNat (by omega) (by omega) h.toNat 0 (le_refl 0) hK0 (by omega)
  rw [hs0, zero_mul, zero_mul, add_zero] at hrows
  refine ⟨stamped pixbuf img W w (y * W + x) K, ?_, ?_⟩
  · unfold seed_image
    simp only
    rw [show c_max_int 0 (W - w) = W - w by unfold c_max_int; rw [if_neg (by omega)], hrows]
    rfl
  · intro c d hc0 hcW hd0 hdH
    have e : c + d * W - (y * W + x) = (c - x) + (d - y) * W := by ring
    have e' : c + d * W - (y * W + x) = (c - x + W) + (d - y - 1) * W := by ring
    have e2 : (d - y) * W = d * W - y * W := by ring
    have hcond : (y * W + x ≤ c + d * W ∧ c + d * W < y * W + x + K * W ∧
        (c + d * W - (y * W + x)) % W < w) ↔ (x ≤ c ∧ c < x + w ∧ y ≤ d ∧ d < y + h) := by
      by_cases hcol : x ≤ c ∧ c < x + w
      · have f1 := (flat_index W (c - x) (d - y) (by omega) (by omega)).1
        have l1 := cell_row_lt W (c - x) (d - y) 0 (by omega) (by omega)
        have l2 := cell_row_lt W (c - x) (d - y) K (by omega) (by omega)
        rw [zero_mul] at l1
        rw [e, f1]
        constructor
        · rintro ⟨g1, g2, _⟩
          have g3 : ¬ (d - y < 0) := fun hn => by have := l1.mpr hn; omega
          have g4 : d - y < K := l2.mp (by omega)
          omega
        · rintro ⟨_, _, g1, g2⟩
          have g3 : ¬ (c - x + (d - y) * W < 0) := fun hn => by have := l1.mp hn; omega
          have g4 := l2.mpr (show d - y < K by omega)
          omega
      · constructor
        · rintro ⟨_, _, g3⟩
          exfalso
          by_cases hcx : c < x
          · rw [e', (flat_index W (c - x + W) (d - y - 1) (by omega) (by omega)).1] at g3
            omega
          · rw [e, (flat_index W (c - x) (d - y) (by omega) (by omega)).1] at g3
            omega
        · intro g
          exact absurd ⟨g.1, g.2.1⟩ hcol
    unfold stamped
    by_cases hin : x ≤ c ∧ c < x + w ∧ y ≤ d ∧ d < y + h
    · rw [if_pos (hcond.mpr hin), if_pos hin, e,
        (flat_index W (c - x) (d - y) (by omega) (by omega)).1,
        (flat_index W (c - x) (d - y) (by omega) (by omega)).2]
      congr 3
      ring
    · rw [if_neg (fun g => hin (hcond.mp g)), if_neg hin, add_zero]

/-- The image stamp on a 4x3 grid with an image that reaches below the grid. -/
theorem seed_image_within_width_witness :
    ∃ out, seed_image (fun _ => 0) 4 3 1 2 (fun k => (k : ℚ)) 2 2 = some out ∧
      ∀ c d, 0 ≤ c → c < 4 → 0 ≤ d → d < 3 →
        out (c + d * 4) = (fun _ => (0 : ℚ)) (c + d * 4) +
          if 1 ≤ c ∧ c < 1 + 2 ∧ 2 ≤ d ∧ d < 2 + 2
          then (fun k : Int => (k : ℚ)) ((c - 1) + (d - 2) * 2) * 2048 else 0 :=
  seed_image_within_width (fun _ => 0) (fun k => (k : ℚ)) 4 3 1 2 2 2 (by decide) (by decide)
    (by decide) (by decide) (by decide)

/-- The loop body of `render` is its store part followed by the conversion
to the palette index. -/
theorem render_cell_eq_store (len : Nat) (colorshift : Int) (pix : ℚ) :
    render_cell len colorshift pix = (render_store len pix).bind fun p =>
      (to_uint p).map fun u =>
        (p, ((u + (colorshift % 4294967296).toNat) % 4294967296) % len) := by
  unfold render_cell render_store
  by_cases h0 : len = 0
  · rw [if_pos h0, if_pos h0]
    rfl
  · rw [if_neg h0, if_neg h0]

/-- The store part of `render` leaves a cell below the palette length as it
is, whatever its sign. -/
theorem render_store_below (N : Nat) (v : ℚ) (hN : 1 ≤ N) (hv : v < (N : ℚ)) :
    render_store N v = some v := by
  unfold render_store
  rw [if_neg (by omega), if_neg (not_le.mpr hv)]

/-- The wrapped value of a cell at or above the palette length lies in
`[0, N)`. -/
theorem spec_wrap_range (N : Nat) (v : ℚ) (hN : 1 ≤ N) (hge : v ≥ (N : ℚ)) :
    0 ≤ spec_wrap N v ∧ spec_wrap N v < (N : ℚ) := by
  have hNq : (0 : ℚ) < (N : ℚ) := by exact_mod_cast hN
  have hq0 : (0 : ℚ) ≤ v / (N : ℚ) := div_nonneg (by linarith) hNq.le
  have hk1 : ((⌊v / (N : ℚ)⌋ : Int) : ℚ) ≤ v / (N : ℚ) := Int.floor_le _
  have hk2 : v / (N : ℚ) < ((⌊v / (N : ℚ)⌋ : Int) : ℚ) + 1 := Int.lt_floor_add_one _
  have hk5 := (le_div_iff₀ hNq).mp hk1
  have hk6 := (div_lt_iff₀ hNq).mp hk2
  unfold spec_wrap c_trunc
  rw [if_pos hge, if_pos hq0]
  constructor <;> linarith

/-- The store part of `render` on a cell at or above the palette length, as
long as the quotient fits an `int` and the product an `unsigned int`: the cell
is wrapped. -/
theorem render_store_wraps (N : Nat) (v : ℚ) (hN : 1 ≤ N) (hge : v ≥ (N : ℚ))
    (hv1 : v < 4294967296) (hv2 : v / (N : ℚ) < 2147483648) :
    render_store N v = some (spec_wrap N v) := by
  have hNq : (0 : ℚ) < (N : ℚ) := by exact_mod_cast hN
  obtain ⟨k, hk⟩ : ∃ k : Int, k = ⌊v / (N : ℚ)⌋ := ⟨_, rfl⟩
  have hq1 : (1 : ℚ) ≤ v / (N : ℚ) := by
    rw [le_div_iff₀ hNq]
    linarith
  have hk1 : (k : ℚ) ≤ v / (N : ℚ) := hk ▸ Int.floor_le _
  have hk3 : 1 ≤ k := hk ▸ Int.le_floor.mpr (by exact_mod_cast hq1)
  have hk4 : k < 2147483648 := hk ▸ Int.floor_lt.mpr (by exact_mod_cast hv2)
  have hk5 : (k : ℚ) * (N : ℚ) ≤ v := (le_div_iff₀ hNq).mp hk1
  have htk : c_trunc (v / (N : ℚ)) = k := by
    unfold c_trunc
    rw [if_pos (by linarith), hk]
  have hkn : ((k.toNat : Nat) : Int) = k := Int.toNat_of_nonneg (by omega)
  have hkq : ((k.toNat : Nat) : ℚ) = (k : ℚ) := by exact_mod_cast hkn
  have hprod : N * k.toNat < 4294967296 := by
    have : ((N * k.toNat : Nat) : ℚ) < 4294967296 := by
      push_cast
      rw [hkq]
      linarith
    exact_mod_cast this
  unfold render_store to_int spec_wrap
  rw [if_neg (by omega), if_pos hge, if_pos ⟨by linarith, hv2⟩, Option.map_some', if_pos hge,
    htk, Int.emod_eq_of_lt (by omega) (by omega), Nat.mod_eq_of_lt hprod]
  push_cast
  rw [hkq]

/-- The loop body of `render` on a convertible cell value: the cell holds the
wrapped value afterwards. -/
theorem render_cell_wraps (N : Nat) (s : Int) (v : ℚ) (hN : 1 ≤ N) (hN2 : N ≤ 4294967296)
    (hv : convertible N v) : ∃ col, render_cell N s v = some (spec_wrap N v, col) := by
  obtain ⟨h1, h2, h3⟩ := hv
  have hN2q : (N : ℚ) ≤ 4294967296 := by exact_mod_cast hN2
  rw [render_cell_eq_store]
  by_cases hge : v ≥ (N : ℚ)
  · obtain ⟨r0, rN⟩ := spec_wrap_range N v hN hge
    rw [render_store_wraps N v hN hge h2 h3, Option.some_bind]
    unfold to_uint
    rw [if_pos ⟨by linarith, by linarith⟩]
    exact ⟨_, rfl⟩
  · have hw : spec_wrap N v = v := by
      unfold spec_wrap
      rw [if_neg hge]
    rw [render_store_below N v hN (not_le.mp hge), Option.some_bind, hw]
    unfold to_uint
    rw [if_pos ⟨h1, h2⟩]
    exact ⟨_, rfl⟩

/-- A wrapped value is convertible, below the palette length, and wrapping it
again changes nothing. -/
theorem spec_wrap_idem (N : Nat) (v : ℚ) (hN : 1 ≤ N) (hN2 : N ≤ 4294967296)
    (hv : convertible N v) :
    convertible N (spec_wrap N v) ∧ spec_wrap N v < (N : ℚ) ∧
      spec_wrap N (spec_wrap N v) = spec_wrap N v := by
  obtain ⟨h1, h2, h3⟩ := hv
  have hNq : (0 : ℚ) < (N : ℚ) := by exact_mod_cast hN
  have hN2q : (N : ℚ) ≤ 4294967296 := by exact_mod_cast hN2
  by_cases hge : v ≥ (N : ℚ)
  · obtain ⟨r0, rN⟩ := spec_wrap_range N v hN hge
    refine ⟨⟨by linarith, by linarith, ?_⟩, rN, ?_⟩
    · have : spec_wrap N v / (N : ℚ) < 1 := (div_lt_one hNq).mpr rN
      linarith
    · nth_rewrite 1 [spec_wrap]
      rw [if_neg (not_le.mpr rN)]
  · have hw : spec_wrap N v = v := by
      unfold spec_wrap
      rw [if_neg hge]
    rw [hw]
    exact ⟨⟨h1, h2, h3⟩, not_le.mp hge, hw⟩

/-- The `x` loop of `render` over `k` convertible cells: each of them is
wrapped. -/
theorem render_x_eq (N : Nat) (s : Int) (hN : 1 ≤ N) (hN2 : N ≤ 4294967296) :
    ∀ (k : Nat) (pixbuf : Int → ℚ) (pos : Int),
      (∀ idx, pos ≤ idx → idx < pos + k → convertible N (pixbuf idx)) →
      render_x N s k (pixbuf, pos) =
        some (fun idx => if pos ≤ idx ∧ idx < pos + k then spec_wrap N (pixbuf idx)
          else pixbuf idx, pos + k) := by
  intro k
  induction k with
  | zero =>
    intro pixbuf pos _
    rw [render_x]
    congr 2
    · funext idx
      rw [if_neg (by push_cast; omega)]
    · simp
  | succ k ih =>
    intro pixbuf pos hc
    obtain ⟨col, hcol⟩ := render_cell_wraps N s (pixbuf pos) hN hN2
      (hc pos (le_refl _) (by push_cast; omega))
    rw [render_x, hcol, Option.some_bind]
    simp only
    rw [ih _ _ (fun idx h1 h2 => by
      rw [Function.update_noteq (by omega)]
      exact hc idx (by omega) (by push_cast; omega))]
    have e1 : pos + 1 + (k : Int) = pos + ((k + 1 : Nat) : Int) := by push_cast; ring
    rw [e1]
    congr 2
    funext idx
    by_cases c1 : idx = pos
    · subst c1
      rw [if_neg (by omega), Function.update_same, if_pos (by push_cast; omega)]
    · rw [Function.update_noteq c1]
      by_cases c2 : pos + 1 ≤ idx ∧ idx < pos + ((k + 1 : Nat) : Int)
      · rw [if_pos c2, if_pos (by omega)]
      · rw [if_neg c2, if_neg (by omega)]

/-- The `my` loop of `render` with at least one pass over a row of
convertible cells: the row is wrapped by the first pass, and the later passes
leave it as it is. -/
theorem render_my_eq (N : Nat) (s : Int) (hN : 1 ≤ N) (hN2 : N ≤ 4294967296) (W p : Int)
    (hW : 0 ≤ W) (pixbuf : Int → ℚ)
    (hc : ∀ idx, p ≤ idx → idx < p + W → convertible N (pixbuf idx)) :
    ∀ (m : Nat) (pos0 : Int), render_my N s W p (m + 1) (pixbuf, pos0) =
      some (wrapped_to N pixbuf p (p + W), p + W) := by
  have hWn : ((W.toNat : Nat) : Int) = W := Int.toNat_of_nonneg hW
  have hpass : ∀ g : Int → ℚ, (∀ idx, p ≤ idx → idx < p + W → convertible N (g idx)) →
      render_x N s W.toNat (g, p) = some (wrapped_to N g p (p + W), p + W) := by
    intro g hg
    rw [render_x_eq N s hN hN2 W.toNat g p (fun idx h1 h2 => hg idx h1 (by omega)), hWn]
    rfl
  have hidem : wrapped_to N (wrapped_to N pixbuf p (p + W)) p (p + W) =
      wrapped_to N pixbuf p (p + W) := by
    funext idx
    unfold wrapped_to
    by_cases c : p ≤ idx ∧ idx < p + W
    · rw [if_pos c, if_pos c, (spec_wrap_idem N _ hN hN2 (hc idx c.1 c.2)).2.2]
    · rw [if_neg c, if_neg c]
  have hcw : ∀ idx, p ≤ idx → idx < p + W →
      convertible N (wrapped_to N pixbuf p (p + W) idx) := by
    intro idx h1 h2
    unfold wrapped_to
    rw [if_pos ⟨h1, h2⟩]
    exact (spec_wrap_idem N _ hN hN2 (hc idx h1 h2)).1
  have hlater : ∀ m : Nat, render_my N s W p m (wrapped_to N pixbuf p (p + W), p + W) =
      some (wrapped_to N pixbuf p (p + W), p + W) := by
    intro m
    induction m with
    | zero => rfl
    | succ m ih => rw [render_my, hpass _ hcw, Option.some_bind, hidem, ih]
  intro m pos0
  rw [render_my, hpass pixbuf hc, Option.some_bind, hlater]

/-- The `y` loop of `render` over `n` rows of convertible cells, with at
least one pass per row: all cells of these rows are wrapped. -/
theorem render_y_eq (N : Nat) (s : Int) (hN : 1 ≤ N) (hN2 : N ≤ 4294967296) (W mp : Int)
    (hW : 0 ≤ W) (hmp : 1 ≤ mp) :
    ∀ (n : Nat) (pixbuf : Int → ℚ) (p : Int),
      (∀ idx, p ≤ idx → idx < p + n * W → convertible N (pixbuf idx)) →
      render_y N s W mp n (pixbuf, p) =
        some (wrapped_to N pixbuf p (p + n * W), p + n * W) := by
  obtain ⟨m, hm⟩ : ∃ m : Nat, mp.toNat = m + 1 := ⟨mp.toNat - 1, by omega⟩
  intro n
  induction n with
  | zero =>
    intro pixbuf p _
    rw [render_y]
    congr 2
    · funext idx
      unfold wrapped_to
      rw [if_neg (by push_cast; omega)]
    · simp
  | succ n ih =>
    intro pixbuf p hc
    have hnW : 0 ≤ (n : Int) * W := mul_nonneg (by omega) hW
    have e : ((n + 1 : Nat) : Int) * W = n * W + W := by push_cast; ring
    rw [e] at hc ⊢
    rw [render_y, hm, render_my_eq N s hN hN2 W p hW pixbuf
      (fun idx h1 h2 => hc idx h1 (by omega)) m p, Option.some_bind]
    rw [ih _ _ (fun idx h1 h2 => by
      unfold wrapped_to
      rw [if_neg (by omega)]
      exact hc idx (by omega) (by omega))]
    congr 2
    · funext idx
      unfold wrapped_to
      by_cases c1 : p ≤ idx ∧ idx < p + W
      · rw [if_neg (by omega), if_pos c1, if_pos (by omega)]
      · rw [if_neg c1]
        by_cases c2 : p + W ≤ idx ∧ idx < p + W + n * W
        · rw [if_pos c2, if_pos (by omega)]
        · rw [if_neg c2, if_neg (by omega)]
    · ring

/-- C21 as stated fails: for the cell value `2^32` and the palette length
4096 the product `len * (int)(pix / len)` is `4096 * 2^20`, which is 0 as an
`unsigned int`, so the store leaves `2^32` in the cell, where the claim gives
`v - N * trunc(v / N) = 0`; the conversion of that value to `unsigned int`
then has no defined result, and neither has the conversion of the cell value
`-1`, so `render` has no defined result on a grid that holds either. -/
theorem render_store_keeps_large_value :
    render_store 4096 4294967296 = some 4294967296 ∧
    spec_wrap 4096 4294967296 = 0 ∧
    render (fun _ => 4294967296) 3 3 1 4096 0 = none ∧
    render (fun _ => -1) 3 3 1 4096 0 = none := by
  have ht : (1048576 : Int).toNat = 1048576 := rfl
  have h1 : render_cell 4096 0 4294967296 = none := by
    norm_num [render_cell, to_int, to_uint, c_trunc, ht]
  have h2 : render_cell 4096 0 (-1) = none := by
    norm_num [render_cell, to_uint]
  refine ⟨?_, ?_, ?_, ?_⟩
  · norm_num [render_store, to_int, c_trunc, ht]
  · norm_num [spec_wrap, c_trunc]
  · simp [render, render_y, render_my, render_x, h1]
  · simp [render, render_y, render_my, render_x, h2]

/-- C21, amended: for a palette length `1 <= N <= 2^32`, at least one pass
per row (`multiply_pixels >= 1`) and a grid whose cells are all convertible
(`-1 < v < 2^32`, `v / N < 2^31`), `render` returns, and afterwards every cell
that was `>= N` holds `v - N * trunc(v / N)`, a value in `[0, N)`, every cell
that was `< N` is unchanged, no cell is `>= N`, and nothing outside the grid
is touched.  The store part of the loop body leaves every value below `N`
as it is, the negative ones included. -/
theorem render_wraps_grid (pixbuf : Int → ℚ) (W H multiply_pixels : Int) (N : Nat) (s : Int)
    (hW : 0 ≤ W) (hH : 0 ≤ H) (hmp : 1 ≤ multiply_pixels) (hN : 1 ≤ N) (hN2 : N ≤ 4294967296)
    (hc : ∀ idx, 0 ≤ idx → idx < W * H → convertible N (pixbuf idx)) :
    (∃ out, render pixbuf W H multiply_pixels N s = some out ∧
      (∀ idx, 0 ≤ idx → idx < W * H →
        out idx = (if pixbuf idx ≥ (N : ℚ)
          then pixbuf idx - (N : ℚ) * (c_trunc (pixbuf idx / (N : ℚ)) : ℚ) else pixbuf idx) ∧
        out idx < (N : ℚ) ∧ (pixbuf idx ≥ (N : ℚ) → 0 ≤ out idx)) ∧
      (∀ idx, idx < 0 ∨ W * H ≤ idx → out idx = pixbuf idx)) ∧
    (∀ v : ℚ, v < (N : ℚ) → render_store N v = some v) := by
  have e : (0 : Int) + (H.toNat : Int) * W = W * H := by
    rw [Int.toNat_of_nonneg hH]
    ring
  have hy := render_y_eq N s hN hN2 W multiply_pixels hW hmp H.toNat pixbuf 0
    (fun idx h1 h2 => hc idx h1 (by rw [← e]; exact h2))
  rw [e] at hy
  refine ⟨⟨wrapped_to N pixbuf 0 (W * H), ?_, ?_, ?_⟩, fun v hv => render_store_below N v hN hv⟩
  · unfold render
    rw [hy]
    rfl
  · intro idx h0 h1
    have hw : wrapped_to N pixbuf 0 (W * H) idx = spec_wrap N (pixbuf idx) := by
      unfold wrapped_to
      rw [if_pos ⟨h0, h1⟩]
    rw [hw]
    refine ⟨rfl, (spec_wrap_idem N _ hN hN2 (hc idx h0 h1)).2.1, fun hge => ?_⟩
    exact (spec_wrap_range N _ hN hge).1
  · intro idx hidx
    unfold wrapped_to
    rw [if_neg (by omega)]

/-- The wrap of `render` on a 3x3 grid with the values 0, 1000, ..., 8000,
palette length 4096 and two passes per row. -/
theorem render_wraps_grid_witness :
    ∃ out, render (fun idx => (idx : ℚ) * 1000) 3 3 2 4096 0 = some out ∧
      (∀ idx, 0 ≤ idx → idx < 3 * 3 →
        out idx = (if (fun idx : Int => (idx : ℚ) * 1000) idx ≥ ((4096 : Nat) : ℚ)
          then (fun idx : Int => (idx : ℚ) * 1000) idx - ((4096 : Nat) : ℚ) *
            (c_trunc ((fun idx : Int => (idx : ℚ) * 1000) idx / ((4096 : Nat) : ℚ)) : ℚ)
          else (fun idx : Int => (idx : ℚ) * 1000) idx) ∧
        out idx < ((4096 : Nat) : ℚ) ∧
        ((fun idx : Int => (idx : ℚ) * 1000) idx ≥ ((4096 : Nat) : ℚ) → 0 ≤ out idx)) ∧
      (∀ idx, idx < 0 ∨ 3 * 3 ≤ idx → out idx = (fun idx : Int => (idx : ℚ) * 1000) idx) :=
  (render_wraps_grid (fun idx => (idx : ℚ) * 1000) 3 3 2 4096 0 (by decide) (by decide)
    (by decide) (by decide) (by decide) (fun idx h0 h1 => by
      have a0 : (0 : ℚ) ≤ (idx : ℚ) := by exact_mod_cast h0
      have a1 : (idx : ℚ) < 9 := by exact_mod_cast h1
      unfold convertible
      beta_reduce
      refine ⟨by linarith, by linarith, ?_⟩
      rw [div_lt_iff₀ (by norm_num)]
      push_cast
      linarith)).1

end BurnscopeFft
